import Mathlib

/-! The tokenizer of the microcpu-32bit assembler.

A shallow embedding of `assembler/includes/tokenizer.c`: the scanner
(`ParseToken`, `Tokenize`) and the resolver (`SetMemoryTokenList`).

Conventions of the embedding.

* A byte is a `Nat`; a buffer in memory is a `List Nat`.  Reading a buffer at
  an index outside the list is an out-of-bounds read: the model returns `none`
  there, so a result `some _` also says that every read stayed inside the
  buffer.
* The `<ctype.h>` predicates are those of the "C" locale; a byte above 127 is in
  none of the classes.  `unsigned long` has 64 bits (LP64).
* Cursor positions and `source_length` are C `int`s.  They are modelled by
  `Nat`, which is exact as long as the buffer is shorter than `2 ^ 31` bytes:
  then `strlen(source) + 1` fits an `int` and no cursor overflows.  A longer
  source is outside the model (the `int` `source_length` no longer holds
  `strlen(source) + 1`), and the statements about what `Tokenize` returns for a
  source carry this bound.
* `uint32_t` stores are taken modulo `2 ^ 32`.
* The singly linked `TokenList` is a `List TokenNode`; `head_token == NULL` is
  the empty list.  Allocation is assumed to succeed.
* `stderr` is the list of the diagnostics written to it, in order.
* `instruction_map` and `MAX_REGISTER` live in `tokenizer.h`; they are
  parameters of the resolver.
-/

namespace Tokenizer

/-! ## Data model -/

/-- The token kinds, in the order of the `tokenTypes` name table. -/
inductive TokenType
  | TOKEN_LABEL_DECLARE
  | TOKEN_LABEL_INITIALIZE
  | TOKEN_INSTRUCTION
  | TOKEN_REGISTER
  | TOKEN_IMMEDIATE
  | TOKEN_COMMA
  | TOKEN_NEWLINE
  | TOKEN_EOF
  | TOKEN_INVALID
  deriving DecidableEq, Repr

open TokenType

/-- A node of the token list.  `value` holds the `length` bytes that `strncpy`
wrote into the node's buffer; the byte after them is always the terminator that
`InitializeTokenNode` stores at `value[length]`. -/
structure TokenNode where
  type : TokenType
  value : List Nat
  length : Nat
  memory : Nat
  deriving DecidableEq, Repr

/-- The linked list of tokens, head first. -/
abbrev TokenList := List TokenNode

/-- One entry of `instruction_map`: a mnemonic and the value stored for it. -/
structure InstructionEntry where
  instruction : List Nat
  memory_value : Nat
  deriving DecidableEq, Repr

/-- A line written to `stderr` by `SetMemoryTokenList`, with its `%s`
argument. -/
inductive Diagnostic
  | UnknownToken (arg : List Nat)
  | InvalidImmediate (arg : List Nat)
  | InvalidRegister (arg : List Nat)
  deriving DecidableEq, Repr

/-- Bytes of a string literal (used for format strings and test sources). -/
def bytes (s : String) : List Nat := s.toList.map Char.toNat

/-- The text that `fprintf` writes for a diagnostic. -/
def Diagnostic.render : Diagnostic → List Nat
  | .UnknownToken arg => bytes "[-] Error: Unknown token '" ++ arg ++ bytes "'\n"
  | .InvalidImmediate arg => bytes "[-] Error: Invalid immediate value '" ++ arg ++ bytes "'\n"
  | .InvalidRegister arg => bytes "[-] Error: Invalid register value '" ++ arg ++ bytes "'\n"

/-! ## The C library, "C" locale -/

/-- C `isspace`: space, `\t`, `\n`, `\v`, `\f`, `\r`. -/
def isspace (c : Nat) : Bool := c == 32 || (9 ≤ c && c ≤ 13)

/-- C `isdigit`: `'0'` to `'9'`. -/
def isdigit (c : Nat) : Bool := 48 ≤ c && c ≤ 57

/-- C `isalpha`: `'A'` to `'Z'` and `'a'` to `'z'`. -/
def isalpha (c : Nat) : Bool := (65 ≤ c && c ≤ 90) || (97 ≤ c && c ≤ 122)

/-- C `isalnum`: a letter or a digit. -/
def isalnum (c : Nat) : Bool := isalpha c || isdigit c

/-- C `tolower`: maps `'A'..'Z'` to `'a'..'z'`, every other byte to itself. -/
def tolower (c : Nat) : Nat := if 65 ≤ c && c ≤ 90 then c + 32 else c

/-- The C string stored in a byte sequence: the bytes before the first null. -/
def cstr (s : List Nat) : List Nat := s.takeWhile (fun c => c != 0)

/-- C `strlen(source)`: the index of the first null byte; `none` when the buffer
has none (the read runs off the buffer). -/
def strlen : List Nat → Option Nat
  | [] => none
  | c :: cs => if c = 0 then some 0 else (strlen cs).map (fun n => n + 1)

/-- C `strncpy(dst, buf + off, n)`: the `n` bytes written to `dst`.  Bytes are
copied up to and including a null; the rest of the `n` bytes is filled with
nulls. -/
def strncpy (buf : List Nat) : Nat → Nat → Option (List Nat)
  | _, 0 => some []
  | off, n + 1 =>
    match buf[off]? with
    | none => none
    | some c =>
      if c = 0 then some (List.replicate (n + 1) 0)
      else (strncpy buf (off + 1) n).map (fun r => c :: r)

/-- The constant `ULONG_MAX` of an LP64 platform (64-bit `unsigned long`). -/
def ULONG_MAX : Nat := 2 ^ 64 - 1

/-- Value of a byte as a digit (`0-9`, then letters from 10), as `strtoul`
reads it. -/
def digitVal (c : Nat) : Option Nat :=
  if isdigit c then some (c - 48)
  else if isalpha c then some (tolower c - 97 + 10)
  else none

/-- The digit loop of `strtoul`: consumes the longest run of digits of the
base, returns the accumulated value, the unread rest and whether a digit was
read. -/
def strtoulDigits (base : Nat) : List Nat → Nat → Bool → Nat × List Nat × Bool
  | [], acc, any => (acc, [], any)
  | c :: cs, acc, any =>
    match digitVal c with
    | some d =>
      if d < base then strtoulDigits base cs (acc * base + d) true
      else (acc, c :: cs, any)
    | none => (acc, c :: cs, any)

/-- Whether a byte is a hexadecimal digit. -/
def isxdigit (c : Nat) : Bool :=
  match digitVal c with
  | some d => d < 16
  | none => false

/-- Whether a string starts with the prefix `0x` or `0X` of a hexadecimal
number, that is, with a hexadecimal digit after it. -/
def hasHexPrefix : List Nat → Bool
  | 48 :: x :: h :: _ => (x == 120 || x == 88) && isxdigit h
  | _ => false

/-- C `strtoul(s, &endptr, 0)` on the C string `s` (ISO C 7.22.1.4): skips
white space, takes an optional sign, detects the base (`0x`/`0X` followed by a
hexadecimal digit: 16; a leading `0`: 8; otherwise 10) and reads the longest
run of digits.  Returns the value and the string `endptr` points to.  A value
that does not fit `unsigned long` gives `ULONG_MAX`; a minus sign negates
modulo `ULONG_MAX + 1`; with no digit the value is 0 and `endptr` is `s`. -/
def strtoul (s : List Nat) : Nat × List Nat :=
  let s1 := s.dropWhile isspace
  let neg := s1.head? == some 45
  let s2 := if s1.head? == some 45 || s1.head? == some 43 then s1.tail else s1
  let hex := hasHexPrefix s2
  let base := if hex then 16 else if s2.head? == some 48 then 8 else 10
  let s3 := if hex then s2.drop 2 else s2
  let r := strtoulDigits base s3 0 false
  if r.2.2 then
    let v := if ULONG_MAX < r.1 then ULONG_MAX
             else if neg then (ULONG_MAX + 1 - r.1) % (ULONG_MAX + 1) else r.1
    (v, r.2.1)
  else (0, s)

/-! ## Token list construction -/

/-- The function `InitializeTokenNode(type, buf + off, length, memory)`: the new
node, its text copied by `strncpy`. -/
def InitializeTokenNode (type : TokenType) (buf : List Nat) (off length memory : Nat) :
    Option TokenNode :=
  (strncpy buf off length).map
    (fun v => { type := type, value := v, length := length, memory := memory })

/-- The function `AddTokenList`: appends a new node at the tail of the list. -/
def AddTokenList (list : TokenList) (type : TokenType) (buf : List Nat)
    (off length memory : Nat) : Option TokenList :=
  (InitializeTokenNode type buf off length memory).map (fun node => list ++ [node])

/-! ## The scanner -/

/-- Condition of the white-space loop: `isspace(c) && c != '\n'`. -/
def isSkipped (c : Nat) : Bool := isspace c && c != 10

/-- Condition of the lexeme loop: `isalnum(c) || c == '_'`. -/
def isWordByte (c : Nat) : Bool := isalnum c || c == 95

/-- A loop `while (p(source[pos])) pos++;`: the position at which it stops. -/
def scanWhile (p : Nat → Bool) (source : List Nat) : Nat → Nat → Option Nat
  | 0, _ => none
  | fuel + 1, pos =>
    match source[pos]? with
    | none => none
    | some c => if p c then scanWhile p source fuel (pos + 1) else some pos

/-- The register check of `ParseToken`: the loop over `i < end_pos` that
resets the type to `TOKEN_INSTRUCTION` at the first byte that is no digit. -/
def registerCheck (source : List Nat) (end_pos : Nat) : Nat → Nat → Option TokenType
  | 0, _ => none
  | fuel + 1, i =>
    if i < end_pos then
      match source[i]? with
      | none => none
      | some c => if !isdigit c then some TOKEN_INSTRUCTION
                  else registerCheck source end_pos fuel (i + 1)
    else some TOKEN_REGISTER

/-- The classification part of `ParseToken`: from `start_pos`, the token type
and `end_pos`. -/
def classify (source : List Nat) (start_pos : Nat) : Option (TokenType × Nat) :=
  let fuel := source.length + 1
  match source[start_pos]? with
  | none => none
  | some c =>
    if isalpha c then
      match scanWhile isWordByte source fuel (start_pos + 1) with
      | none => none
      | some end_pos =>
        let token_type :=
          if tolower c == 114 && start_pos + 1 != end_pos then
            registerCheck source end_pos fuel (start_pos + 1)
          else some TOKEN_INSTRUCTION
        match token_type, source[end_pos]? with
        | some ty, some d =>
          if d == 58 then some (TOKEN_LABEL_DECLARE, end_pos + 1) else some (ty, end_pos)
        | _, _ => none
    else if isdigit c then
      match scanWhile isdigit source fuel (start_pos + 1) with
      | none => none
      | some end_pos => some (TOKEN_IMMEDIATE, end_pos)
    else if c = 44 then some (TOKEN_COMMA, start_pos + 1)
    else if c = 10 then some (TOKEN_NEWLINE, start_pos + 1)
    else if c = 0 then some (TOKEN_EOF, start_pos + 1)
    else some (TOKEN_INVALID, start_pos + 1)

/-- The function `ParseToken(source, list, position)`: the list with the new token appended
and the returned `end_pos`. -/
def ParseToken (source : List Nat) (list : TokenList) (position : Nat) :
    Option (TokenList × Nat) :=
  match scanWhile isSkipped source (source.length + 1) position with
  | none => none
  | some start_pos =>
    match classify source start_pos with
    | none => none
    | some (token_type, end_pos) =>
      (AddTokenList list token_type source start_pos (end_pos - start_pos) 0).map
        (fun list1 => (list1, end_pos))

/-- The loop of `Tokenize`: `while (position < source_length)`.  The two `int`s
are natural numbers here, exact while `source_length` is at most `2 ^ 31 - 1`. -/
def TokenizeLoop (source : List Nat) (source_length : Nat) :
    Nat → TokenList → Nat → Option TokenList
  | 0, list, position => if position < source_length then none else some list
  | fuel + 1, list, position =>
    if position < source_length then
      match ParseToken source list position with
      | none => none
      | some (list1, position1) => TokenizeLoop source source_length fuel list1 position1
    else some list

/-- The function `Tokenize(source, list)`: the list after the call.  Every iteration moves
the cursor forward, so `source_length` iterations are enough; `none` stands for
an out-of-bounds read or a loop that did not stop.  `int source_length =
strlen(source) + 1` is taken without the conversion to `int`: the model is that
of the code for buffers shorter than `2 ^ 31` bytes. -/
def Tokenize (source : List Nat) (list : TokenList) : Option TokenList :=
  match strlen source with
  | none => none
  | some n => TokenizeLoop source (n + 1) (n + 1) list 0

/-! ## The resolver -/

/-- First pass of `SetMemoryTokenList`, the token list: counts newlines in the
`uint32_t` `line_count` and stores it in every label declaration.  The local
`label_list` that the same loop fills is `firstPassLabels`. -/
def firstPass : Nat → TokenList → TokenList
  | _, [] => []
  | line_count, cur :: rest =>
    let line_count1 := if cur.type = TOKEN_NEWLINE then (line_count + 1) % 2 ^ 32 else line_count
    let cur1 := if cur.type = TOKEN_LABEL_DECLARE then { cur with memory := line_count1 } else cur
    cur1 :: firstPass line_count1 rest

/-- The `for` loop over `instruction_map`: every entry whose mnemonic is
`strcmp`-equal to the token text stores its value (no `break`). -/
def lookupInstruction (instruction_map : List InstructionEntry) (cur : TokenNode) : TokenNode :=
  instruction_map.foldl
    (fun node e =>
      if cstr node.value = cstr e.instruction then { node with memory := e.memory_value % 2 ^ 32 }
      else node)
    cur

/-- The `TOKEN_IMMEDIATE` branch of the second pass. -/
def resolveImmediate (cur : TokenNode) : TokenNode × List Diagnostic :=
  let r := strtoul (cstr cur.value)
  let imm := r.1 % 2 ^ 32
  if r.2 = [] then ({ cur with memory := imm }, [])
  else (cur, [Diagnostic.InvalidImmediate r.2])

/-- The `TOKEN_REGISTER` branch of the second pass (`cur->value + 1` skips the
register letter). -/
def resolveRegister (MAX_REGISTER : Nat) (cur : TokenNode) : TokenNode × List Diagnostic :=
  let r := strtoul (cstr (cur.value.drop 1))
  let imm := r.1 % 2 ^ 32
  if r.2 = [] ∧ imm ≤ MAX_REGISTER then ({ cur with memory := imm }, [])
  else (cur, [Diagnostic.InvalidRegister (cstr cur.value)])

/-- The body of the second loop for a token that is not `TOKEN_INVALID`. -/
def resolveToken (instruction_map : List InstructionEntry) (MAX_REGISTER : Nat)
    (cur : TokenNode) : TokenNode × List Diagnostic :=
  let cur1 := if cur.type = TOKEN_INSTRUCTION then lookupInstruction instruction_map cur else cur
  let r2 := if cur1.type = TOKEN_IMMEDIATE then resolveImmediate cur1 else (cur1, [])
  let r3 := if r2.1.type = TOKEN_REGISTER then resolveRegister MAX_REGISTER r2.1 else (r2.1, [])
  (r3.1, r2.2 ++ r3.2)

/-- Second pass of `SetMemoryTokenList`: stops at the first `TOKEN_INVALID`. -/
def secondPass (instruction_map : List InstructionEntry) (MAX_REGISTER : Nat) :
    TokenList → TokenList × List Diagnostic
  | [] => ([], [])
  | cur :: rest =>
    if cur.type = TOKEN_INVALID then
      (cur :: rest, [Diagnostic.UnknownToken (cstr cur.value)])
    else
      let r := resolveToken instruction_map MAX_REGISTER cur
      let rs := secondPass instruction_map MAX_REGISTER rest
      (r.1 :: rs.1, r.2 ++ rs.2)

/-- The entry that the first pass appends to `label_list` for a label
declaration: `AddTokenList(label_list, cur->type, cur->value, cur->length - 1,
cur->memory)`, the copy reading the node's own buffer (its text and the
terminator).  For a node of length 0 the `size_t` `cur->length - 1` is
`SIZE_MAX` and `strncpy` writes past the new node: `none`. -/
def labelEntry (cur : TokenNode) (line_count : Nat) : Option TokenNode :=
  if cur.length = 0 then none
  else InitializeTokenNode cur.type (cur.value ++ [0]) 0 (cur.length - 1) line_count

/-- First pass of `SetMemoryTokenList`, the local `label_list`: one entry for
every label declaration, in order; `none` when an entry cannot be built. -/
def firstPassLabels : Nat → TokenList → Option TokenList
  | _, [] => some []
  | line_count, cur :: rest =>
    let line_count1 := if cur.type = TOKEN_NEWLINE then (line_count + 1) % 2 ^ 32 else line_count
    if cur.type = TOKEN_LABEL_DECLARE then
      match labelEntry cur line_count1, firstPassLabels line_count1 rest with
      | some entry, some entries => some (entry :: entries)
      | _, _ => none
    else firstPassLabels line_count1 rest

/-- The function `SetMemoryTokenList(list)`: the list after the call and what was written to
`stderr`. -/
def SetMemoryTokenList (instruction_map : List InstructionEntry) (MAX_REGISTER : Nat)
    (list : TokenList) : TokenList × List Diagnostic :=
  match list with
  | [] => ([], [])
  | _ :: _ => secondPass instruction_map MAX_REGISTER (firstPass 0 list)

/-- The call `SetMemoryTokenList(list)` together with its local `label_list`:
`none` when the first pass cannot build `label_list` (a label declaration of
length 0), otherwise the list after the call and what was written to
`stderr`.  The scanner only makes label declarations of two bytes or more. -/
def SetMemoryTokenListRun (instruction_map : List InstructionEntry) (MAX_REGISTER : Nat)
    (list : TokenList) : Option (TokenList × List Diagnostic) :=
  match list with
  | [] => some ([], [])
  | _ :: _ =>
    match firstPassLabels 0 list with
    | none => none
    | some _ => some (SetMemoryTokenList instruction_map MAX_REGISTER list)

/-- The core of `Assemble` on a file content already in memory: `Tokenize` on
an empty list, then `SetMemoryTokenList`. -/
def AssembleSource (instruction_map : List InstructionEntry) (MAX_REGISTER : Nat)
    (source : List Nat) : Option (TokenList × List Diagnostic) :=
  (Tokenize source []).map (SetMemoryTokenList instruction_map MAX_REGISTER)
/-! ## Vocabulary of the statements -/

/-- The byte at index `i` of the C string `s`; the terminator from its end on. -/
def byteAt (s : List Nat) (k : Nat) : Nat := s.getD k 0

/-- Bytes `[a, b)` of a sequence. -/
def slice (s : List Nat) (a b : Nat) : List Nat := (s.drop a).take (b - a)

/-- Token type of a single byte that starts neither a word nor a number: the
`switch` of `ParseToken`. -/
def specialType (c : Nat) : TokenType :=
  if c = 44 then TOKEN_COMMA
  else if c = 10 then TOKEN_NEWLINE
  else if c = 0 then TOKEN_EOF
  else TOKEN_INVALID

/-- What one call `ParseToken(source, list, pos)` does on the buffer
`s ++ 0 :: g`: it skips the bytes `[pos, start)`, and appends `tok`, made of the
bytes `[start, e)`. -/
structure StepAt (s g : List Nat) (pos start e : Nat) (tok : TokenNode) : Prop where
  le_start : pos ≤ start
  start_le : start ≤ s.length
  lt_end : start < e
  end_le : e ≤ s.length + 1
  skipped : ∀ c ∈ slice s pos start, isSkipped c = true
  first : isSkipped (byteAt s start) = false
  cls : classify (s ++ 0 :: g) start = some (tok.type, e)
  value : tok.value = slice (s ++ [0]) start e
  length : tok.length = e - start
  memory : tok.memory = 0
  end_iff : e = s.length + 1 ↔ start = s.length
  eof_iff : tok.type = TOKEN_EOF ↔ start = s.length

/-- Number of `TOKEN_NEWLINE` tokens of a sequence. -/
def countNewlines (l : TokenList) : Nat :=
  (l.filter (fun t => t.type = TOKEN_NEWLINE)).length

/-- The token texts of a sequence laid end to end, each preceded by the bytes of
the matching gap. -/
def interleave (gaps : List (List Nat)) (toks : TokenList) : List Nat :=
  (List.zipWith (fun gap t => gap ++ t.value) gaps toks).flatten

/-- The tokens of a sequence other than `TOKEN_EOF`. -/
def withoutEOF (toks : TokenList) : TokenList :=
  toks.filter (fun t => t.type ≠ TOKEN_EOF)

/-- Value of a run of decimal-digit bytes read in a base, most significant
digit first. -/
def digitsValue (base : Nat) (ds : List Nat) : Nat :=
  ds.foldl (fun acc c => acc * base + (c - 48)) 0

/-- The integer a digit run denotes under C-style base detection, in the words
of the specification: a leading `0` means octal, otherwise decimal. -/
def denotedValue (lex : List Nat) : Nat :=
  if lex.head? = some 48 then digitsValue 8 lex else digitsValue 10 lex

/-- A sample instruction table for concrete runs (the table of `tokenizer.h`
is not among the sources). -/
def sampleMap : List InstructionEntry :=
  [⟨bytes "mov", 1⟩, ⟨bytes "add", 2⟩, ⟨bytes "jmp", 3⟩]

/-- Whether a diagnostic is the unknown-token line. -/
def Diagnostic.isUnknownToken : Diagnostic → Bool
  | .UnknownToken _ => true
  | _ => false

/-- The loop of `Tokenize` once more, returning also the value of `position`
when the loop is left (natural numbers for the two `int`s, as in
`TokenizeLoop`). -/
def TokenizeLoopCursor (source : List Nat) (source_length : Nat) :
    Nat → TokenList → Nat → Option (TokenList × Nat)
  | 0, list, position => if position < source_length then none else some (list, position)
  | fuel + 1, list, position =>
    if position < source_length then
      match ParseToken source list position with
      | none => none
      | some (list1, position1) =>
        TokenizeLoopCursor source source_length fuel list1 position1
    else some (list, position)

/-- The run of `Tokenize(source, list)` with the final value of its local
`position` next to the list; like `Tokenize`, the model of the code for buffers
shorter than `2 ^ 31` bytes. -/
def TokenizeCursor (source : List Nat) (list : TokenList) : Option (TokenList × Nat) :=
  match strlen source with
  | none => none
  | some n => TokenizeLoopCursor source (n + 1) (n + 1) list 0

/-- Digits of `n` in base ten pushed in front of `acc`, most significant
first; `fuel` bounds the number of digits. -/
def decimalSpellingAux : Nat → Nat → List Nat → List Nat
  | 0, _, acc => acc
  | fuel + 1, n, acc =>
    if n < 10 then (n + 48) :: acc
    else decimalSpellingAux fuel (n / 10) ((n % 10 + 48) :: acc)

/-- The decimal spelling of a natural number without leading zeros, as bytes
(`0` is spelled `"0"`). -/
def decimalSpelling (n : Nat) : List Nat := decimalSpellingAux (n + 1) n []

/-! ## Reading a null-terminated buffer -/

theorem read_buf (s g : List Nat) (i : Nat) (hi : i ≤ s.length) :
    (s ++ 0 :: g)[i]? = some (byteAt s i) := by
  unfold byteAt
  rcases Nat.lt_or_ge i s.length with h | h
  · rw [List.getElem?_append_left h, List.getD_eq_getElem?_getD, List.getElem?_eq_getElem h]
    rfl
  · have hi2 : i = s.length := Nat.le_antisymm hi h
    subst hi2
    rw [List.getElem?_append_right (Nat.le_refl _)]
    simp

theorem getD_ne_zero (s : List Nat) (h0 : ∀ c ∈ s, c ≠ 0) (i : Nat) (hi : i < s.length) :
    byteAt s i ≠ 0 := by
  unfold byteAt
  rw [List.getD_eq_getElem?_getD, List.getElem?_eq_getElem hi]
  exact h0 _ (List.getElem_mem hi)

theorem getD_len (s : List Nat) : byteAt s s.length = 0 := by
  simp [byteAt]

theorem getD_eq_zero_iff (s : List Nat) (h0 : ∀ c ∈ s, c ≠ 0) (i : Nat) (hi : i ≤ s.length) :
    byteAt s i = 0 ↔ i = s.length := by
  constructor
  · intro h
    rcases Nat.lt_or_ge i s.length with h1 | h1
    · exact absurd h (getD_ne_zero s h0 i h1)
    · omega
  · intro h
    subst h
    exact getD_len s

theorem split_at_null (source : List Nat) (h : 0 ∈ source) :
    ∃ s g, source = s ++ 0 :: g ∧ ∀ c ∈ s, c ≠ 0 := by
  induction source with
  | nil => simp at h
  | cons c cs ih =>
    by_cases hc : c = 0
    · exact ⟨[], cs, by simp [hc], by simp⟩
    · have h1 : 0 ∈ cs := by
        rcases List.mem_cons.1 h with h2 | h2
        · exact absurd h2.symm hc
        · exact h2
      obtain ⟨s, g, hs, hz⟩ := ih h1
      refine ⟨c :: s, g, by simp [hs], ?_⟩
      intro d hd
      rcases List.mem_cons.1 hd with h2 | h2
      · rw [h2]; exact hc
      · exact hz d h2

theorem strlen_buf (s g : List Nat) (h0 : ∀ c ∈ s, c ≠ 0) :
    strlen (s ++ 0 :: g) = some s.length := by
  induction s with
  | nil => simp [strlen]
  | cons c cs ih =>
    have hc : c ≠ 0 := h0 c (List.mem_cons_self _ _)
    have ih1 := ih (fun d hd => h0 d (List.mem_cons_of_mem _ hd))
    simp [strlen, hc, ih1]

theorem cstr_buf (s g : List Nat) (h0 : ∀ c ∈ s, c ≠ 0) : cstr (s ++ 0 :: g) = s := by
  induction s with
  | nil => simp [cstr]
  | cons c cs ih =>
    have hc : c ≠ 0 := h0 c (List.mem_cons_self _ _)
    have ih1 := ih (fun d hd => h0 d (List.mem_cons_of_mem _ hd))
    simp only [cstr] at ih1 ⊢
    rw [List.cons_append, List.takeWhile_cons, ih1]
    simp [hc]

theorem strncpy_nonzero (s g : List Nat) (h0 : ∀ c ∈ s, c ≠ 0) :
    ∀ k off, off + k ≤ s.length → strncpy (s ++ 0 :: g) off k = some ((s.drop off).take k) := by
  intro k
  induction k with
  | zero => intro off _; simp [strncpy]
  | succ k ih =>
    intro off h
    have hlt : off < s.length := by omega
    have hr := read_buf s g off (Nat.le_of_lt hlt)
    have hne := getD_ne_zero s h0 off hlt
    have hd : s.drop off = byteAt s off :: s.drop (off + 1) := by
      unfold byteAt
      rw [List.getD_eq_getElem?_getD, List.getElem?_eq_getElem hlt]
      simp
    rw [strncpy, hr]
    simp only [hne, if_false]
    rw [ih (off + 1) (by omega), hd]
    simp

theorem strncpy_null (s g : List Nat) : strncpy (s ++ 0 :: g) s.length 1 = some [0] := by
  rw [strncpy, read_buf s g s.length (Nat.le_refl _), getD_len]
  simp

/-! ## The scanning loops -/

theorem scanWhile_spec (p : Nat → Bool) (hp : p 0 = false) (s g : List Nat) :
    ∀ fuel pos, pos ≤ s.length → s.length - pos < fuel →
      ∃ e, scanWhile p (s ++ 0 :: g) fuel pos = some e ∧ pos ≤ e ∧ e ≤ s.length ∧
        (∀ i, pos ≤ i → i < e → p (byteAt s i) = true) ∧ p (byteAt s e) = false := by
  intro fuel
  induction fuel with
  | zero => intro pos _ h; omega
  | succ fuel ih =>
    intro pos hpos hfuel
    rw [scanWhile, read_buf s g pos hpos]
    by_cases hc : p (byteAt s pos) = true
    · have hlt : pos < s.length := by
        rcases Nat.lt_or_ge pos s.length with h | h
        · exact h
        · have : pos = s.length := by omega
          rw [this, getD_len, hp] at hc
          exact absurd hc (by simp)
      obtain ⟨e, he, h1, h2, h3, h4⟩ := ih (pos + 1) (by omega) (by omega)
      refine ⟨e, by simp only [hc, if_true, he], by omega, h2, ?_, h4⟩
      intro i hi1 hi2
      rcases Nat.eq_or_lt_of_le hi1 with h | h
      · rw [← h]; exact hc
      · exact h3 i (by omega) hi2
    · refine ⟨pos, by simp [hc], Nat.le_refl _, hpos, ?_, by simpa using hc⟩
      intro i hi1 hi2
      omega

theorem slice_self (s : List Nat) (a : Nat) : slice s a a = [] := by
  simp [slice]

theorem slice_cons (s : List Nat) (a b : Nat) (hab : a < b) (hb : a < s.length) :
    slice s a b = byteAt s a :: slice s (a + 1) b := by
  unfold slice byteAt
  rw [List.getD_eq_getElem?_getD, List.getElem?_eq_getElem hb]
  have hd : s.drop a = s[a] :: s.drop (a + 1) := by simp
  rw [hd]
  have hk : b - a = (b - (a + 1)) + 1 := by omega
  rw [hk, List.take_succ_cons]
  rfl

theorem slice_forall (p : Nat → Bool) (s : List Nat) :
    ∀ k a b, b - a = k → b ≤ s.length → (∀ i, a ≤ i → i < b → p (byteAt s i) = true) →
      ∀ c ∈ slice s a b, p c = true := by
  intro k
  induction k with
  | zero =>
    intro a b hk _ _ c hc
    have : slice s a b = [] := by simp [slice, hk]
    rw [this] at hc
    simp at hc
  | succ k ih =>
    intro a b hk hb h c hc
    rw [slice_cons s a b (by omega) (by omega)] at hc
    rcases List.mem_cons.1 hc with h1 | h1
    · rw [h1]; exact h a (Nat.le_refl _) (by omega)
    · exact ih (a + 1) b (by omega) hb (fun i hi1 hi2 => h i (by omega) hi2) c h1

theorem slice_length (s : List Nat) (a b : Nat) (hb : b ≤ s.length) :
    (slice s a b).length = b - a := by
  simp [slice]
  omega

theorem slice_append_left (s t : List Nat) (a b : Nat) (hb : b ≤ s.length) :
    slice (s ++ t) a b = slice s a b := by
  unfold slice
  rcases Nat.lt_or_ge a b with h | h
  · rw [List.drop_append_of_le_length (by omega), List.take_append_of_le_length]
    simp
    omega
  · have : b - a = 0 := by omega
    simp [this]

theorem slice_null (s : List Nat) : slice (s ++ [0]) s.length (s.length + 1) = [0] := by
  simp [slice]

theorem slice_split (s : List Nat) (a b c : Nat) (hab : a ≤ b) (hbc : b ≤ c) :
    slice s a c = slice s a b ++ slice s b c := by
  unfold slice
  have h1 : c - a = (b - a) + (c - b) := by omega
  rw [h1, List.take_add, List.drop_drop]
  have h2 : a + (b - a) = b := by omega
  rw [h2]

theorem registerCheck_spec (s g : List Nat) (e : Nat) (he : e ≤ s.length) :
    ∀ fuel i, i ≤ e → e - i < fuel →
      registerCheck (s ++ 0 :: g) e fuel i =
        some (if (slice s i e).all isdigit then TOKEN_REGISTER else TOKEN_INSTRUCTION) := by
  intro fuel
  induction fuel with
  | zero => intro i _ h; omega
  | succ fuel ih =>
    intro i hi hfuel
    rw [registerCheck]
    by_cases hlt : i < e
    · rw [if_pos hlt, read_buf s g i (by omega), slice_cons s i e hlt (by omega)]
      by_cases hd : isdigit (byteAt s i) = true
      · simp [hd, ih (i + 1) (by omega) (by omega)]
      · simp [hd]
    · have : i = e := by omega
      subst this
      simp [slice_self]

/-! ## One step of the scanner -/

theorem classify_alpha (s g : List Nat) (start : Nat) (hs : start ≤ s.length)
    (hc : isalpha (byteAt s start) = true) :
    ∃ le, start < le ∧ le ≤ s.length ∧ start < s.length ∧
      (∀ d ∈ slice s (start + 1) le, isWordByte d = true) ∧
      isWordByte (byteAt s le) = false ∧
      classify (s ++ 0 :: g) start =
        some (if byteAt s le = 58 then (TOKEN_LABEL_DECLARE, le + 1)
              else (if (tolower (byteAt s start) == 114 && start + 1 != le) = true ∧
                        (slice s (start + 1) le).all isdigit = true
                    then TOKEN_REGISTER else TOKEN_INSTRUCTION, le)) := by
  have hlt : start < s.length := by
    rcases Nat.lt_or_ge start s.length with h | h
    · exact h
    · have : start = s.length := by omega
      rw [this, getD_len] at hc
      exact absurd hc (by decide)
  obtain ⟨le, h1, h2, h3, h4, h5⟩ :=
    scanWhile_spec isWordByte (by decide) s g ((s ++ 0 :: g).length + 1) (start + 1)
      (by omega) (by simp; omega)
  refine ⟨le, by omega, h3, hlt, slice_forall isWordByte s _ _ _ rfl h3 h4, h5, ?_⟩
  unfold classify
  simp only [read_buf s g start hs, hc, if_true, h1, read_buf s g le h3]
  by_cases hr : (tolower (byteAt s start) == 114 && start + 1 != le) = true
  · rw [if_pos hr, registerCheck_spec s g le h3 _ _ h2 (by simp; omega)]
    by_cases hcol : byteAt s le = 58
    · simp [hcol]
    · by_cases hd : (slice s (start + 1) le).all isdigit = true
      · simp [hcol, hd, hr]
      · simp [hcol, hd]
  · rw [if_neg hr]
    by_cases hcol : byteAt s le = 58
    · simp [hcol]
    · simp [hcol, hr]

theorem classify_digit (s g : List Nat) (start : Nat) (hs : start ≤ s.length)
    (hc : isdigit (byteAt s start) = true) :
    ∃ e, start < e ∧ e ≤ s.length ∧ start < s.length ∧
      (∀ d ∈ slice s start e, isdigit d = true) ∧
      isdigit (byteAt s e) = false ∧
      classify (s ++ 0 :: g) start = some (TOKEN_IMMEDIATE, e) := by
  have hlt : start < s.length := by
    rcases Nat.lt_or_ge start s.length with h | h
    · exact h
    · have : start = s.length := by omega
      rw [this, getD_len] at hc
      exact absurd hc (by decide)
  have hna : isalpha (byteAt s start) = false := by
    simp only [isdigit, isalpha, Bool.and_eq_true, Bool.or_eq_false_iff, Bool.and_eq_false_iff,
      decide_eq_true_eq, decide_eq_false_iff_not] at hc ⊢
    omega
  obtain ⟨e, h1, h2, h3, h4, h5⟩ :=
    scanWhile_spec isdigit (by decide) s g ((s ++ 0 :: g).length + 1) (start + 1)
      (by omega) (by simp; omega)
  refine ⟨e, by omega, h3, hlt, ?_, h5, ?_⟩
  · apply slice_forall isdigit s _ _ _ rfl h3
    intro i hi1 hi2
    rcases Nat.eq_or_lt_of_le hi1 with h | h
    · rw [← h]; exact hc
    · exact h4 i (by omega) hi2
  · unfold classify
    simp only [read_buf s g start hs, hc, hna, h1, if_true, Bool.false_eq_true, if_false]

theorem classify_special (s g : List Nat) (start : Nat) (hs : start ≤ s.length)
    (ha : isalpha (byteAt s start) = false) (hd : isdigit (byteAt s start) = false) :
    classify (s ++ 0 :: g) start = some (specialType (byteAt s start), start + 1) := by
  unfold classify specialType
  simp only [read_buf s g start hs, ha, hd]
  by_cases h1 : byteAt s start = 44
  · simp [h1]
  · by_cases h2 : byteAt s start = 10
    · simp [h2]
    · by_cases h3 : byteAt s start = 0
      · simp [h3]
      · simp [h1, h2, h3]

theorem classify_total (s g : List Nat) (h0 : ∀ c ∈ s, c ≠ 0) (start : Nat)
    (hs : start ≤ s.length) :
    ∃ ty e, classify (s ++ 0 :: g) start = some (ty, e) ∧ start < e ∧ e ≤ s.length + 1 ∧
      (e = s.length + 1 ↔ start = s.length) ∧ (ty = TOKEN_EOF ↔ start = s.length) := by
  by_cases ha : isalpha (byteAt s start) = true
  · obtain ⟨le, h1, h2, h3, _, h5, h6⟩ := classify_alpha s g start hs ha
    by_cases hcol : byteAt s le = 58
    · have hle : le ≠ s.length := by
        intro h
        rw [h, getD_len] at hcol
        omega
      rw [if_pos hcol] at h6
      exact ⟨_, _, h6, by omega, by omega, by constructor <;> intro <;> omega,
        by constructor
           · intro h; exact absurd h (by decide)
           · intro h; omega⟩
    · rw [if_neg hcol] at h6
      refine ⟨_, _, h6, h1, by omega, by constructor <;> intro <;> omega, ?_⟩
      constructor
      · intro h
        split at h <;> exact absurd h (by decide)
      · intro h; omega
  · have ha1 : isalpha (byteAt s start) = false := by simpa using ha
    by_cases hd : isdigit (byteAt s start) = true
    · obtain ⟨e, h1, h2, h3, _, _, h6⟩ := classify_digit s g start hs hd
      exact ⟨_, _, h6, h1, by omega, by constructor <;> intro <;> omega,
        by constructor
           · intro h; exact absurd h (by decide)
           · intro h; omega⟩
    · have hd1 : isdigit (byteAt s start) = false := by simpa using hd
      refine ⟨_, _, classify_special s g start hs ha1 hd1, by omega, by omega,
        by constructor <;> intro <;> omega, ?_⟩
      rw [← getD_eq_zero_iff s h0 start hs]
      unfold specialType
      constructor
      · intro h
        by_cases h3 : byteAt s start = 0
        · exact h3
        · split at h
          · exact absurd h (by decide)
          · split at h
            · exact absurd h (by decide)
            · exact absurd h (by decide)
      · intro h
        simp [h]

theorem ParseToken_spec (s g : List Nat) (h0 : ∀ c ∈ s, c ≠ 0) (list : TokenList) (pos : Nat)
    (hpos : pos ≤ s.length) :
    ∃ start e tok, ParseToken (s ++ 0 :: g) list pos = some (list ++ [tok], e) ∧
      StepAt s g pos start e tok := by
  obtain ⟨start, h1, h2, h3, h4, h5⟩ :=
    scanWhile_spec isSkipped (by decide) s g ((s ++ 0 :: g).length + 1) pos hpos
      (by simp; omega)
  obtain ⟨ty, e, c1, c2, c3, c4, c5⟩ := classify_total s g h0 start h3
  have hcopy : strncpy (s ++ 0 :: g) start (e - start) = some (slice (s ++ [0]) start e) := by
    by_cases hn : start = s.length
    · have he : e = s.length + 1 := c4.2 hn
      subst hn
      rw [he, slice_null]
      have : s.length + 1 - s.length = 1 := by omega
      rw [this]
      exact strncpy_null s g
    · have he : e ≤ s.length := by
        rcases Nat.lt_or_ge e (s.length + 1) with h | h
        · omega
        · exact absurd (c4.1 (by omega)) hn
      rw [strncpy_nonzero s g h0 _ _ (by omega), slice_append_left s [0] start e he]
      rfl
  refine ⟨start, e, ⟨ty, slice (s ++ [0]) start e, e - start, 0⟩, ?_, ?_⟩
  · unfold ParseToken
    simp only [h1, c1, AddTokenList, InitializeTokenNode, hcopy, Option.map_some']
  · exact ⟨h2, h3, c2, c3, slice_forall isSkipped s _ _ _ rfl h3 h4, h5, c1, rfl, rfl, rfl, c4, c5⟩

/-- Induction over the iterations of `Tokenize`: a property of (cursor,
tokens appended from there on) that holds for the final step and is preserved
by every earlier step holds for the whole run, and the run ends. -/
theorem TokenizeLoop_induct (s g : List Nat) (h0 : ∀ c ∈ s, c ≠ 0)
    (P : Nat → List TokenNode → Prop)
    (hlast : ∀ pos start tok, StepAt s g pos start (s.length + 1) tok → P pos [tok])
    (hstep : ∀ pos start e tok toks, StepAt s g pos start e tok → e ≤ s.length →
      P e toks → P pos (tok :: toks)) :
    ∀ fuel pos list, pos ≤ s.length → s.length + 1 - pos ≤ fuel →
      ∃ toks, TokenizeLoop (s ++ 0 :: g) (s.length + 1) fuel list pos = some (list ++ toks) ∧
        P pos toks := by
  intro fuel
  induction fuel with
  | zero => intro pos list h1 h2; omega
  | succ fuel ih =>
    intro pos list hpos hfuel
    obtain ⟨start, e, tok, hp, hst⟩ := ParseToken_spec s g h0 list pos hpos
    have hlt : pos < s.length + 1 := by omega
    rw [TokenizeLoop, if_pos hlt, hp]
    simp only
    rcases Nat.lt_or_ge e (s.length + 1) with he | he
    · obtain ⟨toks, ht, hP⟩ := ih e (list ++ [tok]) (by omega)
        (by have := hst.le_start; have := hst.lt_end; omega)
      refine ⟨tok :: toks, ?_, hstep pos start e tok toks hst (by omega) hP⟩
      rw [ht]
      simp
    · have hee : e = s.length + 1 := by have := hst.end_le; omega
      subst hee
      refine ⟨[tok], ?_, hlast pos start tok hst⟩
      cases fuel with
      | zero => simp [TokenizeLoop]
      | succ f => simp [TokenizeLoop]

theorem Tokenize_induct (s g : List Nat) (h0 : ∀ c ∈ s, c ≠ 0)
    (P : Nat → List TokenNode → Prop)
    (hlast : ∀ pos start tok, StepAt s g pos start (s.length + 1) tok → P pos [tok])
    (hstep : ∀ pos start e tok toks, StepAt s g pos start e tok → e ≤ s.length →
      P e toks → P pos (tok :: toks)) (list : TokenList) :
    ∃ toks, Tokenize (s ++ 0 :: g) list = some (list ++ toks) ∧ P 0 toks := by
  unfold Tokenize
  rw [strlen_buf s g h0]
  exact TokenizeLoop_induct s g h0 P hlast hstep (s.length + 1) 0 list (Nat.zero_le _)
    (Nat.le_refl _)

/-- The run of `Tokenize` on a null-terminated buffer ends, and its tokens are
all but the last no `TOKEN_EOF`, the last one `TOKEN_EOF`. -/
theorem Tokenize_front_last (source : List Nat) (h : 0 ∈ source) :
    ∃ front last, Tokenize source [] = some (front ++ [last]) ∧ last.type = TOKEN_EOF ∧
      ∀ t ∈ front, t.type ≠ TOKEN_EOF := by
  obtain ⟨s, g, rfl, h0⟩ := split_at_null source h
  obtain ⟨toks, ht, front, last, hfl, hl, hf⟩ := Tokenize_induct s g h0
    (fun _ toks => ∃ front last, toks = front ++ [last] ∧ last.type = TOKEN_EOF ∧
      ∀ t ∈ front, t.type ≠ TOKEN_EOF)
    (by
      intro pos start tok hst
      exact ⟨[], tok, rfl, hst.eof_iff.2 (hst.end_iff.1 rfl), by simp⟩)
    (by
      intro pos start e tok toks hst he ⟨front, last, hfl, hl, hf⟩
      refine ⟨tok :: front, last, by simp [hfl], hl, ?_⟩
      intro t ht
      rcases List.mem_cons.1 ht with h1 | h1
      · rw [h1]
        intro heof
        have h2 := hst.end_iff.2 (hst.eof_iff.1 heof)
        omega
      · exact hf t h1)
    []
  exact ⟨front, last, by simpa [hfl] using ht, hl, hf⟩

/-- C1: for every null-terminated source buffer shorter than `2 ^ 31` bytes (so
that `strlen(source) + 1` fits the `int` `source_length`), `Tokenize` on an empty
list returns a token sequence that contains exactly one `TOKEN_EOF` token, and
that token is its last element. -/
theorem Tokenize_single_EOF_last (source : List Nat) (h : 0 ∈ source)
    (hlen : source.length < 2 ^ 31) :
    ∃ toks, Tokenize source [] = some toks ∧
      (toks.filter (fun t => t.type = TOKEN_EOF)).length = 1 ∧
      ∃ last, toks.getLast? = some last ∧ last.type = TOKEN_EOF := by
  have _ := hlen
  obtain ⟨front, last, ht, hl, hf⟩ := Tokenize_front_last source h
  refine ⟨front ++ [last], ht, ?_, last, by simp, hl⟩
  have h1 : front.filter (fun t => t.type = TOKEN_EOF) = [] := by
    rw [List.filter_eq_nil_iff]
    intro t ht
    simpa using hf t ht
  simp [List.filter_append, h1, hl]

theorem Tokenize_single_EOF_last_witness :
    (0 ∈ bytes "mov r1, 10\n" ++ [0] ∧ (bytes "mov r1, 10\n" ++ [0]).length < 2 ^ 31) ∧
    Tokenize (bytes "mov r1, 10\n" ++ [0]) [] =
      some [⟨TOKEN_INSTRUCTION, bytes "mov", 3, 0⟩, ⟨TOKEN_REGISTER, bytes "r1", 2, 0⟩,
        ⟨TOKEN_COMMA, bytes ",", 1, 0⟩, ⟨TOKEN_IMMEDIATE, bytes "10", 2, 0⟩,
        ⟨TOKEN_NEWLINE, [10], 1, 0⟩, ⟨TOKEN_EOF, [0], 1, 0⟩] ∧
    ∃ toks, Tokenize (bytes "mov r1, 10\n" ++ [0]) [] = some toks ∧
      (toks.filter (fun t => t.type = TOKEN_EOF)).length = 1 ∧
      ∃ last, toks.getLast? = some last ∧ last.type = TOKEN_EOF :=
  ⟨⟨by decide, by decide⟩, by decide, Tokenize_single_EOF_last _ (by decide) (by decide)⟩

/-! ## The resolver changes nothing but `memory` -/

theorem lookupInstruction_frame (instruction_map : List InstructionEntry) (t : TokenNode) :
    (lookupInstruction instruction_map t).type = t.type ∧
    (lookupInstruction instruction_map t).value = t.value ∧
    (lookupInstruction instruction_map t).length = t.length := by
  unfold lookupInstruction
  induction instruction_map generalizing t with
  | nil => simp
  | cons e es ih =>
    rw [List.foldl_cons]
    by_cases h : cstr t.value = cstr e.instruction
    · rw [if_pos h]
      exact ih _
    · rw [if_neg h]
      exact ih _

theorem resolveImmediate_frame (t : TokenNode) :
    (resolveImmediate t).1.type = t.type ∧ (resolveImmediate t).1.value = t.value ∧
    (resolveImmediate t).1.length = t.length := by
  unfold resolveImmediate
  simp only
  split <;> simp

theorem resolveRegister_frame (M : Nat) (t : TokenNode) :
    (resolveRegister M t).1.type = t.type ∧ (resolveRegister M t).1.value = t.value ∧
    (resolveRegister M t).1.length = t.length := by
  unfold resolveRegister
  simp only
  split <;> simp

theorem resolveToken_frame (instruction_map : List InstructionEntry) (M : Nat) (t : TokenNode) :
    (resolveToken instruction_map M t).1.type = t.type ∧
    (resolveToken instruction_map M t).1.value = t.value ∧
    (resolveToken instruction_map M t).1.length = t.length := by
  have h1 : ∀ u : TokenNode,
      (if u.type = TOKEN_INSTRUCTION then lookupInstruction instruction_map u else u).type = u.type ∧
      (if u.type = TOKEN_INSTRUCTION then lookupInstruction instruction_map u else u).value = u.value ∧
      (if u.type = TOKEN_INSTRUCTION then lookupInstruction instruction_map u else u).length
        = u.length := by
    intro u
    split
    · exact lookupInstruction_frame instruction_map u
    · exact ⟨rfl, rfl, rfl⟩
  have h2 : ∀ u : TokenNode,
      (if u.type = TOKEN_IMMEDIATE then resolveImmediate u else (u, [])).1.type = u.type ∧
      (if u.type = TOKEN_IMMEDIATE then resolveImmediate u else (u, [])).1.value = u.value ∧
      (if u.type = TOKEN_IMMEDIATE then resolveImmediate u else (u, [])).1.length = u.length := by
    intro u
    split
    · exact resolveImmediate_frame u
    · exact ⟨rfl, rfl, rfl⟩
  have h3 : ∀ u : TokenNode,
      (if u.type = TOKEN_REGISTER then resolveRegister M u else (u, [])).1.type = u.type ∧
      (if u.type = TOKEN_REGISTER then resolveRegister M u else (u, [])).1.value = u.value ∧
      (if u.type = TOKEN_REGISTER then resolveRegister M u else (u, [])).1.length = u.length := by
    intro u
    split
    · exact resolveRegister_frame M u
    · exact ⟨rfl, rfl, rfl⟩
  unfold resolveToken
  simp only
  obtain ⟨a1, a2, a3⟩ := h1 t
  obtain ⟨b1, b2, b3⟩ := h2 (if t.type = TOKEN_INSTRUCTION then lookupInstruction instruction_map t else t)
  obtain ⟨c1, c2, c3⟩ := h3 (if (if t.type = TOKEN_INSTRUCTION then lookupInstruction instruction_map t else t).type = TOKEN_IMMEDIATE then resolveImmediate (if t.type = TOKEN_INSTRUCTION then lookupInstruction instruction_map t else t) else ((if t.type = TOKEN_INSTRUCTION then lookupInstruction instruction_map t else t), [])).1
  exact ⟨c1.trans (b1.trans a1), c2.trans (b2.trans a2), c3.trans (b3.trans a3)⟩

/-- A token that is no instruction, immediate or register passes the body of
the second loop unchanged and without a diagnostic. -/
theorem resolveToken_other (instruction_map : List InstructionEntry) (M : Nat) (t : TokenNode)
    (h1 : t.type ≠ TOKEN_INSTRUCTION) (h2 : t.type ≠ TOKEN_IMMEDIATE)
    (h3 : t.type ≠ TOKEN_REGISTER) : resolveToken instruction_map M t = (t, []) := by
  unfold resolveToken
  simp [h1, h2, h3]

/-- An instruction token only goes through the table lookup. -/
theorem resolveToken_instruction (instruction_map : List InstructionEntry) (M : Nat)
    (t : TokenNode) (h : t.type = TOKEN_INSTRUCTION) :
    resolveToken instruction_map M t = (lookupInstruction instruction_map t, []) := by
  have hf := (lookupInstruction_frame instruction_map t).1
  unfold resolveToken
  simp [h, hf]

/-- An immediate token only goes through `resolveImmediate`. -/
theorem resolveToken_immediate (instruction_map : List InstructionEntry) (M : Nat)
    (t : TokenNode) (h : t.type = TOKEN_IMMEDIATE) :
    resolveToken instruction_map M t = resolveImmediate t := by
  have hf := (resolveImmediate_frame t).1
  unfold resolveToken
  simp [h, hf]

/-- A register token only goes through `resolveRegister`. -/
theorem resolveToken_register (instruction_map : List InstructionEntry) (M : Nat)
    (t : TokenNode) (h : t.type = TOKEN_REGISTER) :
    resolveToken instruction_map M t = resolveRegister M t := by
  unfold resolveToken
  simp [h]

/-! ## Line numbers of labels -/

theorem countNewlines_cons (t : TokenNode) (l : TokenList) :
    countNewlines (t :: l) = (if t.type = TOKEN_NEWLINE then 1 else 0) + countNewlines l := by
  unfold countNewlines
  by_cases h : t.type = TOKEN_NEWLINE
  · simp [List.filter_cons, h]
    omega
  · simp [List.filter_cons, h]

theorem firstPass_label (l : TokenList) :
    ∀ (lc : Nat) (pre : TokenList) (t : TokenNode) (post : TokenList),
      lc + l.length < 2 ^ 32 → firstPass lc l = pre ++ t :: post →
      t.type = TOKEN_LABEL_DECLARE → t.memory = lc + countNewlines pre := by
  induction l with
  | nil =>
    intro lc pre t post _ h
    simp [firstPass] at h
  | cons cur rest ih =>
    intro lc pre t post hlen h ht
    rw [firstPass] at h
    simp only [List.length_cons] at hlen
    cases pre with
    | nil =>
      simp only [List.nil_append, List.cons.injEq] at h
      obtain ⟨h1, _⟩ := h
      by_cases hl : cur.type = TOKEN_LABEL_DECLARE
      · have hn : cur.type ≠ TOKEN_NEWLINE := by rw [hl]; decide
        rw [if_pos hl, if_neg hn] at h1
        rw [← h1]
        simp [countNewlines]
      · rw [if_neg hl] at h1
        rw [← h1] at ht
        exact absurd ht hl
    | cons p pre1 =>
      simp only [List.cons_append, List.cons.injEq] at h
      obtain ⟨h1, h2⟩ := h
      have hp : p.type = cur.type := by
        rw [← h1]
        split <;> rfl
      rw [countNewlines_cons, hp]
      by_cases hn : cur.type = TOKEN_NEWLINE
      · rw [if_pos hn] at h2
        have hmod : (lc + 1) % 2 ^ 32 = lc + 1 := Nat.mod_eq_of_lt (by omega)
        rw [hmod] at h2
        rw [ih (lc + 1) pre1 t post (by omega) h2 ht, if_pos hn]
        omega
      · rw [if_neg hn] at h2
        rw [ih lc pre1 t post (by omega) h2 ht, if_neg hn]
        omega

theorem secondPass_decomp (instruction_map : List InstructionEntry) (M : Nat) (l : TokenList) :
    ∀ (pre1 : TokenList) (t1 : TokenNode) (post1 : TokenList),
      (secondPass instruction_map M l).1 = pre1 ++ t1 :: post1 →
      ∃ pre t post, l = pre ++ t :: post ∧ countNewlines pre = countNewlines pre1 ∧
        t1.type = t.type ∧ (t.type = TOKEN_LABEL_DECLARE → t1 = t) := by
  induction l with
  | nil =>
    intro pre1 t1 post1 h
    simp [secondPass] at h
  | cons cur rest ih =>
    intro pre1 t1 post1 h
    rw [secondPass] at h
    by_cases hinv : cur.type = TOKEN_INVALID
    · rw [if_pos hinv] at h
      exact ⟨pre1, t1, post1, h, rfl, rfl, fun _ => rfl⟩
    · rw [if_neg hinv] at h
      simp only at h
      cases pre1 with
      | nil =>
        simp only [List.nil_append, List.cons.injEq] at h
        obtain ⟨h1, _⟩ := h
        refine ⟨[], cur, rest, rfl, rfl, ?_, ?_⟩
        · rw [← h1]
          exact (resolveToken_frame instruction_map M cur).1
        · intro hl
          rw [← h1, resolveToken_other instruction_map M cur (by rw [hl]; decide)
            (by rw [hl]; decide) (by rw [hl]; decide)]
      | cons p pre2 =>
        simp only [List.cons_append, List.cons.injEq] at h
        obtain ⟨h1, h2⟩ := h
        obtain ⟨pre, t, post, e1, e2, e3, e4⟩ := ih pre2 t1 post1 h2
        refine ⟨cur :: pre, t, post, by simp [e1], ?_, e3, e4⟩
        rw [countNewlines_cons, countNewlines_cons, e2, ← h1,
          (resolveToken_frame instruction_map M cur).1]

/-- The scanner emits at most one token per byte of the buffer. -/
theorem Tokenize_length (source : List Nat) (h : 0 ∈ source) :
    ∃ toks, Tokenize source [] = some toks ∧ toks.length ≤ source.length := by
  obtain ⟨s, g, rfl, h0⟩ := split_at_null source h
  obtain ⟨toks, ht, hP⟩ := Tokenize_induct s g h0
    (fun pos toks => toks.length + pos ≤ s.length + 1)
    (by
      intro pos start tok hst
      have h1 := hst.le_start
      have h2 := hst.start_le
      simp
      omega)
    (by
      intro pos start e tok toks hst he hP
      have h1 := hst.le_start
      have h2 := hst.lt_end
      simp only [List.length_cons]
      omega)
    []
  refine ⟨toks, by simpa using ht, ?_⟩
  simp only [List.length_append, List.length_cons]
  omega

/-- C2: for every source (within the range of the `int` cursor), after `Tokenize`
followed by `SetMemoryTokenList`, the `memory` of every `TOKEN_LABEL_DECLARE`
token equals the number of `TOKEN_NEWLINE` tokens that precede it in the
sequence, whether or not the second pass stopped at a `TOKEN_INVALID`. -/
theorem label_memory_counts_newlines (instruction_map : List InstructionEntry)
    (MAX_REGISTER : Nat) (source : List Nat) (h : 0 ∈ source) (hlen : source.length < 2 ^ 31) :
    ∃ out, AssembleSource instruction_map MAX_REGISTER source = some out ∧
      ∀ (pre : TokenList) (t : TokenNode) (post : TokenList), out.1 = pre ++ t :: post →
        t.type = TOKEN_LABEL_DECLARE → t.memory = countNewlines pre := by
  obtain ⟨toks, ht, hl⟩ := Tokenize_length source h
  refine ⟨SetMemoryTokenList instruction_map MAX_REGISTER toks, by simp [AssembleSource, ht], ?_⟩
  intro pre1 t1 post1 hout hty
  cases toks with
  | nil => simp [SetMemoryTokenList] at hout
  | cons a as =>
    simp only [SetMemoryTokenList] at hout
    obtain ⟨pre, t, post, e1, e2, e3, e4⟩ :=
      secondPass_decomp instruction_map MAX_REGISTER _ pre1 t1 post1 hout
    have hty2 : t.type = TOKEN_LABEL_DECLARE := by rw [← e3]; exact hty
    have h3 := firstPass_label (a :: as) 0 pre t post
      (by have : (2:Nat) ^ 31 < 2 ^ 32 := by norm_num
          omega) e1 hty2
    rw [e4 hty2, h3, e2]
    omega

theorem label_memory_counts_newlines_witness :
    (0 ∈ bytes "\n\nloop:\n" ++ [0] ∧ (bytes "\n\nloop:\n" ++ [0]).length < 2 ^ 31) ∧
    AssembleSource [] 31 (bytes "\n\nloop:\n" ++ [0]) =
      some ([⟨TOKEN_NEWLINE, [10], 1, 0⟩, ⟨TOKEN_NEWLINE, [10], 1, 0⟩,
        ⟨TOKEN_LABEL_DECLARE, bytes "loop:", 5, 2⟩, ⟨TOKEN_NEWLINE, [10], 1, 0⟩,
        ⟨TOKEN_EOF, [0], 1, 0⟩], []) ∧
    ∃ out, AssembleSource [] 31 (bytes "\n\nloop:\n" ++ [0]) = some out ∧
      ∀ (pre : TokenList) (t : TokenNode) (post : TokenList), out.1 = pre ++ t :: post →
        t.type = TOKEN_LABEL_DECLARE → t.memory = countNewlines pre :=
  ⟨⟨by decide, by decide⟩, by decide,
    label_memory_counts_newlines [] 31 _ (by decide) (by decide)⟩

/-! ## The bytes of a token -/

theorem isalpha_not_skipped (c : Nat) (h : isalpha c = true) : isSkipped c = false := by
  simp only [isalpha, isSkipped, isspace, Bool.and_eq_true, Bool.or_eq_true, decide_eq_true_eq,
    Bool.and_eq_false_iff, Bool.or_eq_false_iff, beq_eq_false_iff_ne, bne_eq_false_iff_eq,
    decide_eq_false_iff_not, beq_iff_eq] at h ⊢
  omega

theorem isdigit_not_skipped (c : Nat) (h : isdigit c = true) : isSkipped c = false := by
  simp only [isdigit, isSkipped, isspace, Bool.and_eq_true, decide_eq_true_eq,
    Bool.and_eq_false_iff, Bool.or_eq_false_iff, beq_eq_false_iff_ne, bne_eq_false_iff_eq,
    decide_eq_false_iff_not] at h ⊢
  omega

theorem isWordByte_not_skipped (c : Nat) (h : isWordByte c = true) : isSkipped c = false := by
  simp only [isWordByte, isalnum, Bool.or_eq_true, beq_iff_eq] at h
  rcases h with (h | h) | h
  · exact isalpha_not_skipped c h
  · exact isdigit_not_skipped c h
  · rw [h]; decide

/-- The three ways `ParseToken` builds a token: a word (with or without a
colon after it), a run of digits, a single other byte. -/
theorem StepAt.shape {s g : List Nat} {pos start e : Nat} {tok : TokenNode}
    (hst : StepAt s g pos start e tok) :
    (isalpha (byteAt s start) = true ∧ ∃ le, start < le ∧ le ≤ s.length ∧
      (∀ d ∈ slice s (start + 1) le, isWordByte d = true) ∧
      isWordByte (byteAt s le) = false ∧
      ((byteAt s le = 58 ∧ tok.type = TOKEN_LABEL_DECLARE ∧ e = le + 1) ∨
       (byteAt s le ≠ 58 ∧ e = le ∧
        tok.type = if (tolower (byteAt s start) == 114 && start + 1 != le) = true ∧
                      (slice s (start + 1) le).all isdigit = true
                   then TOKEN_REGISTER else TOKEN_INSTRUCTION))) ∨
    (isalpha (byteAt s start) = false ∧ isdigit (byteAt s start) = true ∧
      tok.type = TOKEN_IMMEDIATE ∧ e ≤ s.length ∧
      (∀ d ∈ slice s start e, isdigit d = true) ∧ isdigit (byteAt s e) = false) ∨
    (isalpha (byteAt s start) = false ∧ isdigit (byteAt s start) = false ∧
      tok.type = specialType (byteAt s start) ∧ e = start + 1) := by
  have hcls := hst.cls
  by_cases ha : isalpha (byteAt s start) = true
  · left
    obtain ⟨le, h1, h2, _, h4, h5, h6⟩ := classify_alpha s g start hst.start_le ha
    refine ⟨ha, le, h1, h2, h4, h5, ?_⟩
    rw [h6] at hcls
    by_cases hcol : byteAt s le = 58
    · rw [if_pos hcol] at hcls
      simp only [Option.some.injEq, Prod.mk.injEq] at hcls
      exact Or.inl ⟨hcol, hcls.1.symm, hcls.2.symm⟩
    · rw [if_neg hcol] at hcls
      simp only [Option.some.injEq, Prod.mk.injEq] at hcls
      exact Or.inr ⟨hcol, hcls.2.symm, hcls.1.symm⟩
  · have ha1 : isalpha (byteAt s start) = false := by simpa using ha
    right
    by_cases hd : isdigit (byteAt s start) = true
    · left
      obtain ⟨e1, _, h2, _, h4, h5, h6⟩ := classify_digit s g start hst.start_le hd
      rw [h6] at hcls
      simp only [Option.some.injEq, Prod.mk.injEq] at hcls
      obtain ⟨c1, c2⟩ := hcls
      subst c2
      exact ⟨ha1, hd, c1.symm, h2, h4, h5⟩
    · have hd1 : isdigit (byteAt s start) = false := by simpa using hd
      right
      have h6 := classify_special s g start hst.start_le ha1 hd1
      rw [h6] at hcls
      simp only [Option.some.injEq, Prod.mk.injEq] at hcls
      exact ⟨ha1, hd1, hcls.1.symm, hcls.2.symm⟩

theorem slice_snoc (s : List Nat) (a b : Nat) (hab : a ≤ b) (hb : b < s.length) :
    slice s a (b + 1) = slice s a b ++ [byteAt s b] := by
  rw [slice_split s a b (b + 1) hab (Nat.le_succ b), slice_cons s b (b + 1) (by omega) hb,
    slice_self]

/-- The text of a token other than the final one is the bytes `[start, e)` of
the source. -/
theorem StepAt.value_eq {s g : List Nat} {pos start e : Nat} {tok : TokenNode}
    (hst : StepAt s g pos start e tok) (he : e ≤ s.length) : tok.value = slice s start e := by
  rw [hst.value, slice_append_left s [0] start e he]

/-- No byte of a token's text is one of the skipped white-space bytes. -/
theorem StepAt.value_not_skipped {s g : List Nat} {pos start e : Nat} {tok : TokenNode}
    (hst : StepAt s g pos start e tok) (he : e ≤ s.length) :
    ∀ c ∈ tok.value, isSkipped c = false := by
  rw [hst.value_eq he]
  have hlt : start < s.length := by have := hst.lt_end; omega
  rcases hst.shape with ⟨ha, le, h1, h2, h4, _, h6⟩ | ⟨_, _, _, _, h5, _⟩ | ⟨_, _, _, h4⟩
  · have hword : ∀ c ∈ slice s start le, isSkipped c = false := by
      intro c hc
      rw [slice_cons s start le h1 hlt] at hc
      rcases List.mem_cons.1 hc with h | h
      · rw [h]; exact isalpha_not_skipped _ ha
      · exact isWordByte_not_skipped c (h4 c h)
    rcases h6 with ⟨hcol, _, hel⟩ | ⟨_, hel, _⟩
    · subst hel
      have hle : le < s.length := by omega
      rw [slice_snoc s start le (by omega) hle, hcol]
      intro c hc
      rcases List.mem_append.1 hc with h | h
      · exact hword c h
      · simp only [List.mem_singleton] at h
        rw [h]; decide
    · subst hel
      exact hword
  · intro c hc
    exact isdigit_not_skipped c (h5 c hc)
  · subst h4
    rw [slice_cons s start (start + 1) (by omega) hlt, slice_self]
    intro c hc
    simp only [List.mem_singleton] at hc
    rw [hc]
    exact hst.first

theorem drop_eq_slice_append (s : List Nat) (a b : Nat) (hab : a ≤ b) :
    s.drop a = slice s a b ++ s.drop b := by
  unfold slice
  have h : s.drop b = (s.drop a).drop (b - a) := by
    rw [List.drop_drop]
    congr 1
    omega
  rw [h, List.take_append_drop]

theorem slice_to_end (s : List Nat) (a : Nat) : slice s a s.length = s.drop a := by
  unfold slice
  rw [List.take_of_length_le]
  simp

theorem interleave_cons (gap : List Nat) (gaps : List (List Nat)) (t : TokenNode)
    (toks : TokenList) :
    interleave (gap :: gaps) (t :: toks) = gap ++ t.value ++ interleave gaps toks := by
  simp [interleave]

/-- Deleting the skipped bytes from an interleaving leaves the token texts. -/
theorem filter_interleave (toks : TokenList) :
    ∀ (gaps : List (List Nat)) (tail : List Nat), gaps.length = toks.length →
      (∀ gap ∈ gaps, ∀ c ∈ gap, isSkipped c = true) → (∀ c ∈ tail, isSkipped c = true) →
      (∀ t ∈ toks, ∀ c ∈ t.value, isSkipped c = false) →
      (interleave gaps toks ++ tail).filter (fun c => !isSkipped c)
        = toks.flatMap (fun t => t.value) := by
  induction toks with
  | nil =>
    intro gaps tail hl _ ht _
    have : gaps = [] := List.length_eq_zero.1 hl
    subst this
    have h1 : tail.filter (fun c => !isSkipped c) = [] := by
      rw [List.filter_eq_nil_iff]
      intro c hc
      simp [ht c hc]
    simp [interleave, h1]
  | cons t toks ih =>
    intro gaps tail hl hg ht hv
    cases gaps with
    | nil => simp at hl
    | cons gap gaps =>
      rw [interleave_cons, List.append_assoc, List.append_assoc, List.filter_append,
        List.filter_append, ← List.append_assoc]
      have h1 : gap.filter (fun c => !isSkipped c) = [] := by
        rw [List.filter_eq_nil_iff]
        intro c hc
        simp [hg gap (List.mem_cons_self _ _) c hc]
      have h2 : t.value.filter (fun c => !isSkipped c) = t.value := by
        rw [List.filter_eq_self]
        intro c hc
        simp [hv t (List.mem_cons_self _ _) c hc]
      rw [h1, h2, ih gaps tail (by simpa using hl)
        (fun gap1 hg1 => hg gap1 (List.mem_cons_of_mem _ hg1)) ht
        (fun t1 ht1 => hv t1 (List.mem_cons_of_mem _ ht1))]
      simp

/-- C3: for every source shorter than `2 ^ 31` bytes (the range of the `int`
cursor and `source_length`), the texts of the tokens `Tokenize` produces, the
`TOKEN_EOF` token left out, reproduce the source up to its null byte once the
skipped white space is put back between them (`gaps` before the tokens, `tail`
after the last one); equivalently, laid end to end in token order they are the
source with every white-space byte other than newline deleted. -/
theorem token_texts_reproduce_source (source : List Nat) (h : 0 ∈ source)
    (hlen : source.length < 2 ^ 31) :
    ∃ toks, Tokenize source [] = some toks ∧
      (∃ (gaps : List (List Nat)) (tail : List Nat),
        gaps.length = (withoutEOF toks).length ∧
        (∀ gap ∈ gaps, ∀ c ∈ gap, isSkipped c = true) ∧ (∀ c ∈ tail, isSkipped c = true) ∧
        interleave gaps (withoutEOF toks) ++ tail = cstr source) ∧
      (withoutEOF toks).flatMap (fun t => t.value)
        = (cstr source).filter (fun c => !(isspace c && c != 10)) := by
  have _ := hlen
  obtain ⟨s, g, rfl, h0⟩ := split_at_null source h
  obtain ⟨toks, ht, gaps, tail, p1, p2, p3, p4, p5⟩ := Tokenize_induct s g h0
    (fun pos toks => ∃ (gaps : List (List Nat)) (tail : List Nat),
      gaps.length = (withoutEOF toks).length ∧
      (∀ gap ∈ gaps, ∀ c ∈ gap, isSkipped c = true) ∧ (∀ c ∈ tail, isSkipped c = true) ∧
      interleave gaps (withoutEOF toks) ++ tail = s.drop pos ∧
      ∀ t ∈ withoutEOF toks, ∀ c ∈ t.value, isSkipped c = false)
    (by
      intro pos start tok hst
      have hs : start = s.length := hst.end_iff.1 rfl
      have hty : tok.type = TOKEN_EOF := hst.eof_iff.2 hs
      have hw : withoutEOF [tok] = [] := by simp [withoutEOF, hty]
      refine ⟨[], slice s pos start, by simp [hw], by simp, hst.skipped, ?_, by simp [hw]⟩
      rw [hw, hs, slice_to_end]
      simp [interleave])
    (by
      intro pos start e tok toks hst he ⟨gaps, tail, p1, p2, p3, p4, p5⟩
      have hty : tok.type ≠ TOKEN_EOF := by
        intro heof
        have := hst.end_iff.2 (hst.eof_iff.1 heof)
        omega
      have hw : withoutEOF (tok :: toks) = tok :: withoutEOF toks := by
        simp [withoutEOF, List.filter_cons, hty]
      refine ⟨slice s pos start :: gaps, tail, by simp [hw, p1], ?_, p3, ?_, ?_⟩
      · intro gap hgap
        rcases List.mem_cons.1 hgap with h1 | h1
        · rw [h1]; exact hst.skipped
        · exact p2 gap h1
      · rw [hw, interleave_cons, List.append_assoc, p4, hst.value_eq he, List.append_assoc,
          ← drop_eq_slice_append s start e (Nat.le_of_lt hst.lt_end),
          ← drop_eq_slice_append s pos start hst.le_start]
      · intro t htm
        rw [hw] at htm
        rcases List.mem_cons.1 htm with h1 | h1
        · rw [h1]; exact hst.value_not_skipped he
        · exact p5 t h1)
    []
  simp only [List.nil_append] at ht
  simp only [List.drop_zero] at p4
  refine ⟨toks, ht, ⟨gaps, tail, p1, p2, p3, by rw [cstr_buf s g h0]; exact p4⟩, ?_⟩
  rw [cstr_buf s g h0, ← p4]
  exact (filter_interleave (withoutEOF toks) gaps tail p1 p2 p3 p5).symm

theorem token_texts_reproduce_source_witness :
    (0 ∈ bytes " mov r1,\t10\n " ++ [0] ∧
      (bytes " mov r1,\t10\n " ++ [0]).length < 2 ^ 31) ∧
    (Tokenize (bytes " mov r1,\t10\n " ++ [0]) []).map
        (fun toks => (withoutEOF toks).flatMap (fun t => t.value))
      = some (bytes "movr1,10\n") ∧
    ∃ toks, Tokenize (bytes " mov r1,\t10\n " ++ [0]) [] = some toks ∧
      (∃ (gaps : List (List Nat)) (tail : List Nat),
        gaps.length = (withoutEOF toks).length ∧
        (∀ gap ∈ gaps, ∀ c ∈ gap, isSkipped c = true) ∧ (∀ c ∈ tail, isSkipped c = true) ∧
        interleave gaps (withoutEOF toks) ++ tail = cstr (bytes " mov r1,\t10\n " ++ [0])) ∧
      (withoutEOF toks).flatMap (fun t => t.value)
        = (cstr (bytes " mov r1,\t10\n " ++ [0])).filter (fun c => !(isspace c && c != 10)) :=
  ⟨⟨by decide, by decide⟩, by decide,
    token_texts_reproduce_source _ (by decide) (by decide)⟩

/-! ## Running the resolver again -/

/-- The table lookup either leaves every token as it is (no entry matches its
text) or stores one value that does not depend on the token's `memory`. -/
theorem lookupInstruction_dichotomy (instruction_map : List InstructionEntry) (v : List Nat) :
    (∀ t : TokenNode, t.value = v → lookupInstruction instruction_map t = t) ∨
    (∃ m, ∀ t : TokenNode, t.value = v →
      lookupInstruction instruction_map t = { t with memory := m }) := by
  induction instruction_map with
  | nil => left; intro t _; rfl
  | cons e es ih =>
    by_cases hm : cstr v = cstr e.instruction
    · right
      rcases ih with h | ⟨m, h⟩
      · refine ⟨e.memory_value % 2 ^ 32, ?_⟩
        intro t ht
        have hm1 : cstr t.value = cstr e.instruction := by rw [ht]; exact hm
        unfold lookupInstruction
        rw [List.foldl_cons, if_pos hm1]
        exact h { t with memory := e.memory_value % 2 ^ 32 } ht
      · refine ⟨m, ?_⟩
        intro t ht
        have hm1 : cstr t.value = cstr e.instruction := by rw [ht]; exact hm
        unfold lookupInstruction
        rw [List.foldl_cons, if_pos hm1]
        exact h { t with memory := e.memory_value % 2 ^ 32 } ht
    · rcases ih with h | ⟨m, h⟩
      · left
        intro t ht
        have hm1 : ¬ cstr t.value = cstr e.instruction := by rw [ht]; exact hm
        unfold lookupInstruction
        rw [List.foldl_cons, if_neg hm1]
        exact h t ht
      · right
        refine ⟨m, ?_⟩
        intro t ht
        have hm1 : ¬ cstr t.value = cstr e.instruction := by rw [ht]; exact hm
        unfold lookupInstruction
        rw [List.foldl_cons, if_neg hm1]
        exact h t ht

theorem lookupInstruction_idem (instruction_map : List InstructionEntry) (t : TokenNode) :
    lookupInstruction instruction_map (lookupInstruction instruction_map t)
      = lookupInstruction instruction_map t := by
  rcases lookupInstruction_dichotomy instruction_map t.value with h | ⟨m, h⟩
  · rw [h t rfl, h t rfl]
  · rw [h t rfl, h { t with memory := m } rfl]

theorem resolveImmediate_idem (t : TokenNode) :
    (resolveImmediate (resolveImmediate t).1).1 = (resolveImmediate t).1 := by
  by_cases h : (strtoul (cstr t.value)).2 = []
  · have e1 : resolveImmediate t
        = ({ t with memory := (strtoul (cstr t.value)).1 % 2 ^ 32 }, []) := by
      unfold resolveImmediate
      simp only
      rw [if_pos h]
    rw [e1]
    unfold resolveImmediate
    simp only
    rw [if_pos h]
  · have e1 : resolveImmediate t
        = (t, [Diagnostic.InvalidImmediate (strtoul (cstr t.value)).2]) := by
      unfold resolveImmediate
      simp only
      rw [if_neg h]
    rw [e1]
    simp only
    rw [e1]

theorem resolveRegister_idem (M : Nat) (t : TokenNode) :
    (resolveRegister M (resolveRegister M t).1).1 = (resolveRegister M t).1 := by
  by_cases h : (strtoul (cstr (t.value.drop 1))).2 = [] ∧
      (strtoul (cstr (t.value.drop 1))).1 % 2 ^ 32 ≤ M
  · have e1 : resolveRegister M t
        = ({ t with memory := (strtoul (cstr (t.value.drop 1))).1 % 2 ^ 32 }, []) := by
      unfold resolveRegister
      simp only
      rw [if_pos h]
    rw [e1]
    unfold resolveRegister
    simp only
    rw [if_pos h]
  · have e1 : resolveRegister M t = (t, [Diagnostic.InvalidRegister (cstr t.value)]) := by
      unfold resolveRegister
      simp only
      rw [if_neg h]
    rw [e1]
    simp only
    rw [e1]

theorem resolveToken_idem (instruction_map : List InstructionEntry) (M : Nat) (t : TokenNode) :
    (resolveToken instruction_map M (resolveToken instruction_map M t).1).1
      = (resolveToken instruction_map M t).1 := by
  by_cases h1 : t.type = TOKEN_INSTRUCTION
  · rw [resolveToken_instruction instruction_map M t h1]
    simp only
    rw [resolveToken_instruction instruction_map M _
      ((lookupInstruction_frame instruction_map t).1.trans h1)]
    simp only
    exact lookupInstruction_idem instruction_map t
  · by_cases h2 : t.type = TOKEN_IMMEDIATE
    · rw [resolveToken_immediate instruction_map M t h2,
        resolveToken_immediate instruction_map M _ ((resolveImmediate_frame t).1.trans h2)]
      exact resolveImmediate_idem t
    · by_cases h3 : t.type = TOKEN_REGISTER
      · rw [resolveToken_register instruction_map M t h3,
          resolveToken_register instruction_map M _ ((resolveRegister_frame M t).1.trans h3)]
        exact resolveRegister_idem M t
      · rw [resolveToken_other instruction_map M t h1 h2 h3]
        simp only
        rw [resolveToken_other instruction_map M t h1 h2 h3]

theorem secondPass_idem (instruction_map : List InstructionEntry) (M : Nat) (l : TokenList) :
    (secondPass instruction_map M (secondPass instruction_map M l).1).1
      = (secondPass instruction_map M l).1 := by
  induction l with
  | nil => simp [secondPass]
  | cons cur rest ih =>
    by_cases hinv : cur.type = TOKEN_INVALID
    · have h1 : secondPass instruction_map M (cur :: rest)
          = (cur :: rest, [Diagnostic.UnknownToken (cstr cur.value)]) := by
        rw [secondPass, if_pos hinv]
      rw [h1]
      simp only
      rw [h1]
    · have h1 : (secondPass instruction_map M (cur :: rest)).1
          = (resolveToken instruction_map M cur).1 :: (secondPass instruction_map M rest).1 := by
        rw [secondPass, if_neg hinv]
      have hty : (resolveToken instruction_map M cur).1.type ≠ TOKEN_INVALID := by
        rw [(resolveToken_frame instruction_map M cur).1]
        exact hinv
      rw [h1, secondPass, if_neg hty]
      simp only
      rw [resolveToken_idem, ih]

/-- The second pass leaves a sequence whose labels already carry their line
numbers in that state. -/
theorem firstPass_secondPass (instruction_map : List InstructionEntry) (M : Nat)
    (l : TokenList) :
    ∀ lc, firstPass lc l = l →
      firstPass lc (secondPass instruction_map M l).1 = (secondPass instruction_map M l).1 := by
  induction l with
  | nil => intro lc _; simp [secondPass, firstPass]
  | cons cur rest ih =>
    intro lc h
    by_cases hinv : cur.type = TOKEN_INVALID
    · have h1 : secondPass instruction_map M (cur :: rest)
          = (cur :: rest, [Diagnostic.UnknownToken (cstr cur.value)]) := by
        rw [secondPass, if_pos hinv]
      rw [h1]
      exact h
    · have h1 : (secondPass instruction_map M (cur :: rest)).1
          = (resolveToken instruction_map M cur).1 :: (secondPass instruction_map M rest).1 := by
        rw [secondPass, if_neg hinv]
      rw [firstPass] at h
      simp only [List.cons.injEq] at h
      obtain ⟨hc, hr⟩ := h
      have hty := (resolveToken_frame instruction_map M cur).1
      rw [h1, firstPass, hty, ih _ hr]
      simp only [List.cons.injEq, and_true]
      by_cases hl : cur.type = TOKEN_LABEL_DECLARE
      · have ho := resolveToken_other instruction_map M cur (by rw [hl]; decide)
          (by rw [hl]; decide) (by rw [hl]; decide)
        rw [if_pos hl] at hc ⊢
        rw [ho]
        exact hc
      · rw [if_neg hl]

theorem firstPass_idem (l : TokenList) : ∀ lc, firstPass lc (firstPass lc l) = firstPass lc l := by
  induction l with
  | nil => intro lc; simp [firstPass]
  | cons cur rest ih =>
    intro lc
    rw [firstPass]
    by_cases hl : cur.type = TOKEN_LABEL_DECLARE
    · have hn : cur.type ≠ TOKEN_NEWLINE := by rw [hl]; decide
      simp only [if_pos hl, if_neg hn]
      rw [firstPass]
      simp only [if_pos hl, if_neg hn]
      rw [ih]
    · simp only [if_neg hl]
      rw [firstPass]
      simp only [if_neg hl]
      rw [ih]

/-- Running the resolver on its own output changes no token, for any token
sequence. -/
theorem SetMemoryTokenList_idem (instruction_map : List InstructionEntry) (M : Nat)
    (l : TokenList) :
    (SetMemoryTokenList instruction_map M (SetMemoryTokenList instruction_map M l).1).1
      = (SetMemoryTokenList instruction_map M l).1 := by
  cases l with
  | nil => simp [SetMemoryTokenList]
  | cons a as =>
    have h1 : SetMemoryTokenList instruction_map M (a :: as)
        = secondPass instruction_map M (firstPass 0 (a :: as)) := rfl
    rw [h1]
    generalize hs : (secondPass instruction_map M (firstPass 0 (a :: as))).1 = out
    cases out with
    | nil => simp [SetMemoryTokenList]
    | cons b bs =>
      have h2 : SetMemoryTokenList instruction_map M (b :: bs)
          = secondPass instruction_map M (firstPass 0 (b :: bs)) := rfl
      rw [h2, ← hs, firstPass_secondPass instruction_map M _ 0 (firstPass_idem _ 0),
        secondPass_idem]

/-- C4: the resolver is idempotent.  For every token sequence produced by
`Tokenize`, running `SetMemoryTokenList` a second time leaves the whole
sequence, hence every token's `memory`, as the first run left it. -/
theorem resolver_idempotent (instruction_map : List InstructionEntry) (MAX_REGISTER : Nat)
    (source : List Nat) (h : 0 ∈ source) :
    ∃ toks, Tokenize source [] = some toks ∧
      (SetMemoryTokenList instruction_map MAX_REGISTER
        (SetMemoryTokenList instruction_map MAX_REGISTER toks).1).1
        = (SetMemoryTokenList instruction_map MAX_REGISTER toks).1 := by
  obtain ⟨toks, ht, _⟩ := Tokenize_length source h
  exact ⟨toks, ht, SetMemoryTokenList_idem instruction_map MAX_REGISTER toks⟩

theorem resolver_idempotent_witness :
    0 ∈ bytes "x: mov r1, 089\n@ r2" ++ [0] ∧
    (AssembleSource sampleMap 31 (bytes "x: mov r1, 089\n@ r2" ++ [0])).map (fun out => out.1)
      = some [⟨TOKEN_LABEL_DECLARE, bytes "x:", 2, 0⟩, ⟨TOKEN_INSTRUCTION, bytes "mov", 3, 1⟩,
          ⟨TOKEN_REGISTER, bytes "r1", 2, 1⟩, ⟨TOKEN_COMMA, bytes ",", 1, 0⟩,
          ⟨TOKEN_IMMEDIATE, bytes "089", 3, 0⟩, ⟨TOKEN_NEWLINE, [10], 1, 0⟩,
          ⟨TOKEN_INVALID, bytes "@", 1, 0⟩, ⟨TOKEN_REGISTER, bytes "r2", 2, 0⟩,
          ⟨TOKEN_EOF, [0], 1, 0⟩] ∧
    ∃ toks, Tokenize (bytes "x: mov r1, 089\n@ r2" ++ [0]) [] = some toks ∧
      (SetMemoryTokenList sampleMap 31 (SetMemoryTokenList sampleMap 31 toks).1).1
        = (SetMemoryTokenList sampleMap 31 toks).1 :=
  ⟨by decide, by decide, resolver_idempotent sampleMap 31 _ (by decide)⟩

/-! ## Register bound -/

/-- Every token leaves the scanner with `memory` 0. -/
theorem Tokenize_memory_zero (source : List Nat) (h : 0 ∈ source) :
    ∃ toks, Tokenize source [] = some toks ∧ ∀ t ∈ toks, t.memory = 0 := by
  obtain ⟨s, g, rfl, h0⟩ := split_at_null source h
  obtain ⟨toks, ht, hP⟩ := Tokenize_induct s g h0
    (fun _ toks => ∀ t ∈ toks, t.memory = 0)
    (by
      intro pos start tok hst t ht
      simp only [List.mem_singleton] at ht
      rw [ht]; exact hst.memory)
    (by
      intro pos start e tok toks hst _ hP t ht
      rcases List.mem_cons.1 ht with h1 | h1
      · rw [h1]; exact hst.memory
      · exact hP t h1)
    []
  exact ⟨toks, by simpa using ht, hP⟩

/-- The first pass changes only label declarations. -/
theorem firstPass_mem (l : TokenList) :
    ∀ (lc : Nat) (t : TokenNode), t ∈ firstPass lc l → t.type ≠ TOKEN_LABEL_DECLARE → t ∈ l := by
  induction l with
  | nil => intro lc t h; simp [firstPass] at h
  | cons cur rest ih =>
    intro lc t h hty
    rw [firstPass] at h
    rcases List.mem_cons.1 h with h1 | h1
    · by_cases hl : cur.type = TOKEN_LABEL_DECLARE
      · rw [if_pos hl] at h1
        rw [h1] at hty
        exact absurd hl hty
      · rw [if_neg hl] at h1
        rw [h1]
        exact List.mem_cons_self _ _
    · exact List.mem_cons_of_mem _ (ih _ t h1 hty)

theorem resolveRegister_bound (M : Nat) (t : TokenNode) (h : t.memory ≤ M) :
    (resolveRegister M t).1.memory ≤ M := by
  unfold resolveRegister
  simp only
  split
  · next hc => exact hc.2
  · exact h

theorem secondPass_register_bound (instruction_map : List InstructionEntry) (M : Nat)
    (l : TokenList) (h : ∀ t ∈ l, t.type = TOKEN_REGISTER → t.memory ≤ M) :
    ∀ t ∈ (secondPass instruction_map M l).1, t.type = TOKEN_REGISTER → t.memory ≤ M := by
  induction l with
  | nil => intro t ht; simp [secondPass] at ht
  | cons cur rest ih =>
    intro t ht hty
    rw [secondPass] at ht
    by_cases hinv : cur.type = TOKEN_INVALID
    · rw [if_pos hinv] at ht
      exact h t ht hty
    · rw [if_neg hinv] at ht
      rcases List.mem_cons.1 ht with h1 | h1
      · have hf := (resolveToken_frame instruction_map M cur).1
        have hc : cur.type = TOKEN_REGISTER := by rw [← hf, ← h1]; exact hty
        rw [h1, resolveToken_register instruction_map M cur hc]
        exact resolveRegister_bound M cur (h cur (List.mem_cons_self _ _) hc)
      · exact ih (fun u hu => h u (List.mem_cons_of_mem _ hu)) t h1 hty

/-- C5: for every source, after `Tokenize` followed by `SetMemoryTokenList`,
every `TOKEN_REGISTER` token has `memory ≤ MAX_REGISTER`.  This covers the
tokens for which no invalid-register diagnostic was written (their `memory` is
the index that passed the bound check) and also the others, whose `memory` is
still 0. -/
theorem register_memory_le_MAX_REGISTER (instruction_map : List InstructionEntry)
    (MAX_REGISTER : Nat) (source : List Nat) (h : 0 ∈ source) :
    ∃ out, AssembleSource instruction_map MAX_REGISTER source = some out ∧
      ∀ t ∈ out.1, t.type = TOKEN_REGISTER → t.memory ≤ MAX_REGISTER := by
  obtain ⟨toks, ht, hz⟩ := Tokenize_memory_zero source h
  refine ⟨SetMemoryTokenList instruction_map MAX_REGISTER toks, by simp [AssembleSource, ht], ?_⟩
  cases toks with
  | nil => intro t ht; simp [SetMemoryTokenList] at ht
  | cons a as =>
    apply secondPass_register_bound
    intro t ht hty
    have hm := firstPass_mem (a :: as) 0 t ht (by rw [hty]; decide)
    rw [hz t hm]
    exact Nat.zero_le _

theorem register_memory_le_MAX_REGISTER_witness :
    0 ∈ bytes "add r31, r32\n" ++ [0] ∧
    AssembleSource sampleMap 31 (bytes "add r31, r32\n" ++ [0])
      = some ([⟨TOKEN_INSTRUCTION, bytes "add", 3, 2⟩, ⟨TOKEN_REGISTER, bytes "r31", 3, 31⟩,
          ⟨TOKEN_COMMA, bytes ",", 1, 0⟩, ⟨TOKEN_REGISTER, bytes "r32", 3, 0⟩,
          ⟨TOKEN_NEWLINE, [10], 1, 0⟩, ⟨TOKEN_EOF, [0], 1, 0⟩],
        [Diagnostic.InvalidRegister (bytes "r32")]) ∧
    ∃ out, AssembleSource sampleMap 31 (bytes "add r31, r32\n" ++ [0]) = some out ∧
      ∀ t ∈ out.1, t.type = TOKEN_REGISTER → t.memory ≤ 31 :=
  ⟨by decide, by decide, register_memory_le_MAX_REGISTER sampleMap 31 _ (by decide)⟩

/-! ## `strtoul` on a run of digits -/

theorem strtoulDigits_run (base : Nat) (ds : List Nat) :
    ∀ (acc : Nat) (any : Bool), (∀ c ∈ ds, isdigit c = true ∧ c - 48 < base) →
      strtoulDigits base ds acc any
        = (ds.foldl (fun a c => a * base + (c - 48)) acc, [], any || !ds.isEmpty) := by
  induction ds with
  | nil => intro acc any _; simp [strtoulDigits]
  | cons c cs ih =>
    intro acc any h
    obtain ⟨h1, h2⟩ := h c (List.mem_cons_self _ _)
    have hv : digitVal c = some (c - 48) := by simp [digitVal, h1]
    rw [strtoulDigits, hv]
    simp only [h2, if_true]
    rw [ih _ _ (fun d hd => h d (List.mem_cons_of_mem _ hd))]
    simp

theorem isdigit_iff (c : Nat) : isdigit c = true ↔ 48 ≤ c ∧ c ≤ 57 := by
  simp [isdigit]

/-- On a non-empty run of digits that the detected base accepts in full,
`strtoul` consumes the whole string and returns the denoted value, clamped to
`ULONG_MAX`. -/
theorem strtoul_digits (lex : List Nat) (hne : lex ≠ [])
    (hdig : ∀ c ∈ lex, isdigit c = true)
    (hoct : lex.head? = some 48 → ∀ c ∈ lex, c ≤ 55) :
    strtoul lex = (min (denotedValue lex) ULONG_MAX, []) := by
  cases lex with
  | nil => exact absurd rfl hne
  | cons c cs =>
    have hc := (isdigit_iff c).1 (hdig c (List.mem_cons_self _ _))
    have hsp : isspace c = false := by
      simp only [isspace, Bool.or_eq_false_iff, beq_eq_false_iff_ne, Bool.and_eq_false_iff,
        decide_eq_false_iff_not]
      omega
    have hhex : hasHexPrefix (c :: cs) = false := by
      cases cs with
      | nil => unfold hasHexPrefix; split <;> simp_all
      | cons x xs =>
        have hx := (isdigit_iff x).1 (hdig x (by simp))
        cases xs with
        | nil => unfold hasHexPrefix; split <;> simp_all
        | cons y ys =>
          unfold hasHexPrefix
          split
          · next heq =>
            simp only [List.cons.injEq] at heq
            have : x ≠ 120 ∧ x ≠ 88 := by omega
            simp [← heq.2.1, this.1, this.2]
          · rfl
    unfold strtoul
    simp only [List.dropWhile_cons, hsp, Bool.false_eq_true, if_false, List.head?_cons]
    have h45 : (some c == some 45) = false := by
      simp only [beq_eq_false_iff_ne, ne_eq, Option.some.injEq]
      omega
    have h43 : (some c == some 43) = false := by
      simp only [beq_eq_false_iff_ne, ne_eq, Option.some.injEq]
      omega
    simp only [h45, h43, Bool.or_self, Bool.false_eq_true, if_false, hhex]
    by_cases h0 : c = 48
    · have hall := hoct (by simp [h0])
      have hb : (some c == some 48) = true := by simp [h0]
      simp only [List.head?_cons, hb, if_true]
      rw [strtoulDigits_run 8 (c :: cs) 0 false (by
        intro d hd
        have h1 := (isdigit_iff d).1 (hdig d hd)
        have h2 := hall d hd
        exact ⟨hdig d hd, by omega⟩)]
      simp only [Bool.false_or, List.isEmpty_cons, Bool.not_false, if_true, denotedValue,
        List.head?_cons, h0, digitsValue]
      by_cases hbig : ULONG_MAX < List.foldl (fun a c => a * 8 + (c - 48)) 0 (48 :: cs)
      · rw [if_pos hbig, min_eq_right (Nat.le_of_lt hbig)]
      · rw [if_neg hbig, min_eq_left (Nat.le_of_not_lt hbig)]
    · have hb : (some c == some 48) = false := by simp [h0]
      simp only [List.head?_cons, hb, Bool.false_eq_true, if_false]
      rw [strtoulDigits_run 10 (c :: cs) 0 false (by
        intro d hd
        have h1 := (isdigit_iff d).1 (hdig d hd)
        exact ⟨hdig d hd, by omega⟩)]
      have hh : ¬ (some c = some 48) := by simpa using h0
      simp only [Bool.false_or, List.isEmpty_cons, Bool.not_false, if_true, denotedValue,
        List.head?_cons, hh, if_false, digitsValue]
      by_cases hbig : ULONG_MAX < List.foldl (fun a c => a * 10 + (c - 48)) 0 (c :: cs)
      · rw [if_pos hbig, min_eq_right (Nat.le_of_lt hbig)]
      · rw [if_neg hbig, min_eq_left (Nat.le_of_not_lt hbig)]

theorem cstr_of_nonzero (s : List Nat) (h : ∀ c ∈ s, c ≠ 0) : cstr s = s := by
  unfold cstr
  rw [List.takeWhile_eq_self_iff]
  intro c hc
  simpa using h c hc

/-! ## The token the second pass reaches -/

theorem firstPass_length (l : TokenList) : ∀ lc, (firstPass lc l).length = l.length := by
  induction l with
  | nil => intro lc; simp [firstPass]
  | cons cur rest ih => intro lc; simp [firstPass, ih]

theorem firstPass_append (pre : TokenList) :
    ∀ (lc : Nat) (l : TokenList),
      ∃ lc1, firstPass lc (pre ++ l) = firstPass lc pre ++ firstPass lc1 l := by
  induction pre with
  | nil => intro lc l; exact ⟨lc, by simp [firstPass]⟩
  | cons cur rest ih =>
    intro lc l
    obtain ⟨lc1, h⟩ :=
      ih (if cur.type = TOKEN_NEWLINE then (lc + 1) % 2 ^ 32 else lc) l
    refine ⟨lc1, ?_⟩
    rw [List.cons_append, firstPass, firstPass]
    simp only [List.cons_append, List.cons.injEq, true_and]
    exact h

theorem firstPass_type (l : TokenList) :
    ∀ (lc : Nat) (t : TokenNode), t ∈ firstPass lc l → ∃ u ∈ l, t.type = u.type := by
  induction l with
  | nil => intro lc t h; simp [firstPass] at h
  | cons cur rest ih =>
    intro lc t h
    rw [firstPass] at h
    rcases List.mem_cons.1 h with h1 | h1
    · refine ⟨cur, List.mem_cons_self _ _, ?_⟩
      rw [h1]
      split <;> rfl
    · obtain ⟨u, hu, e⟩ := ih _ t h1
      exact ⟨u, List.mem_cons_of_mem _ hu, e⟩

theorem secondPass_at (instruction_map : List InstructionEntry) (M : Nat) (pre : TokenList)
    (cur : TokenNode) (post : TokenList) (hpre : ∀ t ∈ pre, t.type ≠ TOKEN_INVALID)
    (hcur : cur.type ≠ TOKEN_INVALID) :
    (secondPass instruction_map M (pre ++ cur :: post)).1[pre.length]?
      = some (resolveToken instruction_map M cur).1 := by
  induction pre with
  | nil =>
    rw [List.nil_append, secondPass, if_neg hcur]
    simp
  | cons p ps ih =>
    have hp : p.type ≠ TOKEN_INVALID := hpre p (List.mem_cons_self _ _)
    rw [List.cons_append, secondPass, if_neg hp]
    simp only [List.length_cons, List.getElem?_cons_succ]
    exact ih (fun t ht => hpre t (List.mem_cons_of_mem _ ht))

/-- A token that is neither a label declaration nor `TOKEN_INVALID`, and that
no `TOKEN_INVALID` token precedes, is reached by the second pass: after
`SetMemoryTokenList` its place holds what the loop body makes of it. -/
theorem SetMemoryTokenList_at (instruction_map : List InstructionEntry) (M : Nat)
    (pre : TokenList) (cur : TokenNode) (post : TokenList)
    (hpre : ∀ t ∈ pre, t.type ≠ TOKEN_INVALID) (hcur : cur.type ≠ TOKEN_INVALID)
    (hlab : cur.type ≠ TOKEN_LABEL_DECLARE) :
    (SetMemoryTokenList instruction_map M (pre ++ cur :: post)).1[pre.length]?
      = some (resolveToken instruction_map M cur).1 := by
  have h1 : SetMemoryTokenList instruction_map M (pre ++ cur :: post)
      = secondPass instruction_map M (firstPass 0 (pre ++ cur :: post)) := by
    cases pre <;> rfl
  obtain ⟨lc1, h2⟩ := firstPass_append pre 0 (cur :: post)
  have h3 : firstPass lc1 (cur :: post)
      = cur :: firstPass (if cur.type = TOKEN_NEWLINE then (lc1 + 1) % 2 ^ 32 else lc1) post := by
    rw [firstPass, if_neg hlab]
  have h4 : ∀ t ∈ firstPass 0 pre, t.type ≠ TOKEN_INVALID := by
    intro t ht
    obtain ⟨u, hu, e⟩ := firstPass_type pre 0 t ht
    rw [e]
    exact hpre u hu
  have h5 := secondPass_at instruction_map M (firstPass 0 pre) cur
    (firstPass (if cur.type = TOKEN_NEWLINE then (lc1 + 1) % 2 ^ 32 else lc1) post) h4 hcur
  rw [firstPass_length] at h5
  rw [h1, h2, h3]
  exact h5

/-! ## Immediates -/

theorem isdigit_ne_zero (s : List Nat) (h : ∀ c ∈ s, isdigit c = true) : ∀ c ∈ s, c ≠ 0 := by
  intro c hc
  have := (isdigit_iff c).1 (h c hc)
  omega

/-- The second loop's body on an immediate token whose text is a run of digits
that the detected base accepts in full. -/
theorem resolveImmediate_digits (cur : TokenNode) (hne : cur.value ≠ [])
    (hdig : ∀ c ∈ cur.value, isdigit c = true)
    (hoct : cur.value.head? = some 48 → ∀ c ∈ cur.value, c ≤ 55) :
    resolveImmediate cur
      = ({ cur with memory := min (denotedValue cur.value) ULONG_MAX % 2 ^ 32 }, []) := by
  unfold resolveImmediate
  simp only
  rw [cstr_of_nonzero cur.value (isdigit_ne_zero cur.value hdig),
    strtoul_digits cur.value hne hdig hoct]
  simp

/-- C9 (as amended): for every `TOKEN_IMMEDIATE` token reached by pass two whose
text is a non-empty digit run that C-style base detection consumes in full
(leading 0: octal digits only; otherwise decimal), `SetMemoryTokenList` stores
the value `strtoul` returns for it, cut to 32 bits; this is the integer the
lexeme denotes whenever that integer is below `2 ^ 32`. -/
theorem immediate_memory_is_denoted_value (instruction_map : List InstructionEntry)
    (MAX_REGISTER : Nat) (pre : TokenList) (cur : TokenNode) (post : TokenList)
    (hpre : ∀ t ∈ pre, t.type ≠ TOKEN_INVALID) (hty : cur.type = TOKEN_IMMEDIATE)
    (hne : cur.value ≠ []) (hdig : ∀ c ∈ cur.value, isdigit c = true)
    (hoct : cur.value.head? = some 48 → ∀ c ∈ cur.value, c ≤ 55) :
    (SetMemoryTokenList instruction_map MAX_REGISTER (pre ++ cur :: post)).1[pre.length]?
        = some { cur with memory := min (denotedValue cur.value) ULONG_MAX % 2 ^ 32 } ∧
    (denotedValue cur.value < 2 ^ 32 →
      (SetMemoryTokenList instruction_map MAX_REGISTER (pre ++ cur :: post)).1[pre.length]?
        = some { cur with memory := denotedValue cur.value }) := by
  have h1 := SetMemoryTokenList_at instruction_map MAX_REGISTER pre cur post hpre
    (by rw [hty]; decide) (by rw [hty]; decide)
  rw [resolveToken_immediate instruction_map MAX_REGISTER cur hty,
    resolveImmediate_digits cur hne hdig hoct] at h1
  refine ⟨h1, ?_⟩
  intro hlt
  rw [h1]
  have h2 : denotedValue cur.value ≤ ULONG_MAX := by
    have : (2:Nat) ^ 32 ≤ ULONG_MAX := by decide
    omega
  rw [min_eq_left h2, Nat.mod_eq_of_lt hlt]

theorem immediate_memory_is_denoted_value_witness :
    (SetMemoryTokenList sampleMap 31
        ([⟨TOKEN_INSTRUCTION, bytes "mov", 3, 0⟩] ++ ⟨TOKEN_IMMEDIATE, bytes "0755", 4, 0⟩ ::
          [⟨TOKEN_IMMEDIATE, bytes "10", 2, 0⟩])).1[1]?
        = some ⟨TOKEN_IMMEDIATE, bytes "0755", 4, 493⟩ ∧
    denotedValue (bytes "0755") = 493 ∧ denotedValue (bytes "10") = 10 ∧
    (SetMemoryTokenList sampleMap 31
        ([⟨TOKEN_INSTRUCTION, bytes "mov", 3, 0⟩] ++ ⟨TOKEN_IMMEDIATE, bytes "0755", 4, 0⟩ ::
          [⟨TOKEN_IMMEDIATE, bytes "10", 2, 0⟩])).1
      = [⟨TOKEN_INSTRUCTION, bytes "mov", 3, 1⟩, ⟨TOKEN_IMMEDIATE, bytes "0755", 4, 493⟩,
          ⟨TOKEN_IMMEDIATE, bytes "10", 2, 10⟩] :=
  ⟨(immediate_memory_is_denoted_value sampleMap 31 [⟨TOKEN_INSTRUCTION, bytes "mov", 3, 0⟩]
      ⟨TOKEN_IMMEDIATE, bytes "0755", 4, 0⟩ [⟨TOKEN_IMMEDIATE, bytes "10", 2, 0⟩]
      (by decide) rfl (by decide) (by decide) (by decide)).2 (by decide),
    by decide, by decide, by decide⟩

/-- C9, counterexample to the claim as stated: the immediate `4294967296` is
consumed in full (no diagnostic) and denotes `2 ^ 32`, but the `uint32_t`
`memory` becomes 0. -/
theorem immediate_memory_overflow :
    AssembleSource sampleMap 31 (bytes "4294967296\n" ++ [0])
      = some ([⟨TOKEN_IMMEDIATE, bytes "4294967296", 10, 0⟩, ⟨TOKEN_NEWLINE, [10], 1, 0⟩,
          ⟨TOKEN_EOF, [0], 1, 0⟩], []) ∧
    denotedValue (bytes "4294967296") = 4294967296 := by
  decide

/-! ## The scanner on a buffer cut into its parts -/

theorem getElem?_mid (pre : List Nat) (x : Nat) (post : List Nat) :
    (pre ++ x :: post)[pre.length]? = some x := by
  rw [List.getElem?_append_right (Nat.le_refl _)]
  simp

theorem scanWhile_run (p : Nat → Bool) (run : List Nat) :
    ∀ (pre : List Nat) (d : Nat) (rest : List Nat) (fuel : Nat),
      (∀ x ∈ run, p x = true) → p d = false → run.length < fuel →
      scanWhile p (pre ++ run ++ d :: rest) fuel pre.length = some (pre.length + run.length) := by
  induction run with
  | nil =>
    intro pre d rest fuel _ hd hf
    cases fuel with
    | zero => simp at hf
    | succ f =>
      rw [scanWhile, List.append_nil, getElem?_mid]
      simp [hd]
  | cons x xs ih =>
    intro pre d rest fuel hrun hd hf
    cases fuel with
    | zero => simp at hf
    | succ f =>
      have hx : p x = true := hrun x (List.mem_cons_self _ _)
      have e1 : pre ++ x :: xs ++ d :: rest = pre ++ x :: (xs ++ d :: rest) := by simp
      have e2 : pre ++ x :: xs ++ d :: rest = (pre ++ [x]) ++ xs ++ d :: rest := by simp
      rw [scanWhile, e1, getElem?_mid]
      simp only [hx, if_true]
      rw [← e1, e2]
      have h := ih (pre ++ [x]) d rest f (fun y hy => hrun y (List.mem_cons_of_mem _ hy)) hd
        (by simp only [List.length_cons] at hf; omega)
      have e4 : (pre ++ [x]).length = pre.length + 1 := by simp
      rw [e4] at h
      rw [h, List.length_cons]
      congr 1
      omega

theorem registerCheck_run (run : List Nat) :
    ∀ (pre post : List Nat) (fuel : Nat), run.length < fuel →
      registerCheck (pre ++ run ++ post) (pre.length + run.length) fuel pre.length
        = some (if run.all isdigit then TOKEN_REGISTER else TOKEN_INSTRUCTION) := by
  induction run with
  | nil =>
    intro pre post fuel hf
    cases fuel with
    | zero => simp at hf
    | succ f => simp [registerCheck]
  | cons x xs ih =>
    intro pre post fuel hf
    cases fuel with
    | zero => simp at hf
    | succ f =>
      have e1 : pre ++ x :: xs ++ post = pre ++ x :: (xs ++ post) := by simp
      have e2 : pre ++ x :: xs ++ post = (pre ++ [x]) ++ xs ++ post := by simp
      have hlt : pre.length < pre.length + (x :: xs).length := by simp
      rw [registerCheck, if_pos hlt, e1, getElem?_mid]
      by_cases hx : isdigit x = true
      · have h := ih (pre ++ [x]) post f (by simp only [List.length_cons] at hf; omega)
        have e3 : (pre ++ [x]).length + xs.length = pre.length + (x :: xs).length := by
          simp
          omega
        have e4 : (pre ++ [x]).length = pre.length + 1 := by simp
        rw [e3, e4, ← e2, e1] at h
        simp only [hx, Bool.not_true, Bool.false_eq_true, if_false, List.all_cons, Bool.true_and]
        exact h
      · simp [hx]

theorem strncpy_run (run : List Nat) :
    ∀ (pre post : List Nat), (∀ x ∈ run, x ≠ 0) →
      strncpy (pre ++ run ++ post) pre.length run.length = some run := by
  induction run with
  | nil => intro pre post _; simp [strncpy]
  | cons x xs ih =>
    intro pre post h
    have e1 : pre ++ x :: xs ++ post = pre ++ x :: (xs ++ post) := by simp
    have e2 : pre ++ x :: xs ++ post = (pre ++ [x]) ++ xs ++ post := by simp
    have hx : x ≠ 0 := h x (List.mem_cons_self _ _)
    have h1 := ih (pre ++ [x]) post (fun y hy => h y (List.mem_cons_of_mem _ hy))
    have e4 : (pre ++ [x]).length = pre.length + 1 := by simp
    rw [e4, ← e2] at h1
    rw [List.length_cons, strncpy, e1, getElem?_mid]
    simp only [hx, if_false]
    rw [← e1, h1]
    rfl

theorem isalpha_ne_zero (c : Nat) (h : isalpha c = true) : c ≠ 0 := by
  simp only [isalpha, Bool.or_eq_true, Bool.and_eq_true, decide_eq_true_eq] at h
  omega

theorem isWordByte_ne_zero (c : Nat) (h : isWordByte c = true) : c ≠ 0 := by
  intro h0
  rw [h0] at h
  exact absurd h (by decide)

theorem tolower_eq_r (c : Nat) : (tolower c == 114) = true ↔ c = 114 ∨ c = 82 := by
  unfold tolower
  by_cases h : (decide (65 ≤ c) && decide (c ≤ 90)) = true
  · rw [if_pos h]
    simp only [Bool.and_eq_true, decide_eq_true_eq] at h
    simp only [beq_iff_eq]
    omega
  · rw [if_neg h]
    simp only [Bool.and_eq_true, decide_eq_true_eq] at h
    simp only [beq_iff_eq]
    omega

/-- C10: for every maximal lexeme that starts with a letter `c`, goes on with
the alphanumeric or underscore bytes `cs`, and is followed by a byte `d` that
is neither a word byte nor `':'`, `ParseToken` (started anywhere in the white
space `ws` before it) appends one token with the lexeme as text, of type
`TOKEN_REGISTER` if and only if `c` is `'r'` or `'R'`, the lexeme has at least
two bytes and every byte after the first is a decimal digit, and of type
`TOKEN_INSTRUCTION` otherwise. -/
theorem ParseToken_register_or_instruction (pre ws cs rest : List Nat) (c d : Nat)
    (list : TokenList) (hws : ∀ x ∈ ws, isSkipped x = true) (hc : isalpha c = true)
    (hcs : ∀ x ∈ cs, isWordByte x = true) (hd : isWordByte d = false) (hcolon : d ≠ 58) :
    ParseToken (pre ++ ws ++ c :: cs ++ d :: rest) list pre.length
      = some (list ++
          [⟨if (c = 114 ∨ c = 82) ∧ 2 ≤ (c :: cs).length ∧ (∀ x ∈ cs, isdigit x = true)
              then TOKEN_REGISTER else TOKEN_INSTRUCTION,
            c :: cs, (c :: cs).length, 0⟩],
        pre.length + ws.length + (c :: cs).length) := by
  generalize hS : pre ++ ws ++ c :: cs ++ d :: rest = S
  have hS1 : S = pre ++ ws ++ c :: (cs ++ d :: rest) := by rw [← hS]; simp
  have hS3 : S = (pre ++ ws ++ [c]) ++ cs ++ d :: rest := by rw [← hS]; simp
  have hlen : S.length = pre.length + ws.length + cs.length + rest.length + 2 := by
    rw [← hS]
    simp only [List.length_append, List.length_cons]
    omega
  have hskip : scanWhile isSkipped S (S.length + 1) pre.length
      = some (pre.length + ws.length) := by
    rw [hS1]
    exact scanWhile_run isSkipped ws pre c (cs ++ d :: rest) _ hws (isalpha_not_skipped c hc)
      (by rw [← hS1, hlen]; omega)
  have hread : S[pre.length + ws.length]? = some c := by
    rw [hS1, ← List.length_append]
    exact getElem?_mid (pre ++ ws) c (cs ++ d :: rest)
  have hword : scanWhile isWordByte S (S.length + 1) (pre.length + ws.length + 1)
      = some (pre.length + ws.length + 1 + cs.length) := by
    have h := scanWhile_run isWordByte cs (pre ++ ws ++ [c]) d rest (S.length + 1) hcs hd
      (by rw [hlen]; omega)
    rw [← hS3] at h
    simpa using h
  have hreg : registerCheck S (pre.length + ws.length + 1 + cs.length) (S.length + 1)
      (pre.length + ws.length + 1)
      = some (if cs.all isdigit then TOKEN_REGISTER else TOKEN_INSTRUCTION) := by
    have h := registerCheck_run cs (pre ++ ws ++ [c]) (d :: rest) (S.length + 1)
      (by rw [hlen]; omega)
    rw [← hS3] at h
    simpa using h
  have hnext : S[pre.length + ws.length + 1 + cs.length]? = some d := by
    have h := getElem?_mid (pre ++ ws ++ c :: cs) d rest
    rw [hS] at h
    rw [← h]
    congr 1
    simp only [List.length_append, List.length_cons]
    omega
  have hcopy : strncpy S (pre.length + ws.length)
      (pre.length + ws.length + 1 + cs.length - (pre.length + ws.length)) = some (c :: cs) := by
    have h := strncpy_run (c :: cs) (pre ++ ws) (d :: rest) (by
      intro x hx
      rcases List.mem_cons.1 hx with h1 | h1
      · rw [h1]; exact isalpha_ne_zero c hc
      · exact isWordByte_ne_zero x (hcs x h1))
    rw [hS] at h
    rw [← h]
    congr 1
    · simp
    · simp only [List.length_cons]
      omega
  have hd58 : (d == 58) = false := by simpa using hcolon
  have hcls : classify S (pre.length + ws.length)
      = some (if (c = 114 ∨ c = 82) ∧ 2 ≤ (c :: cs).length ∧ (∀ x ∈ cs, isdigit x = true)
                then TOKEN_REGISTER else TOKEN_INSTRUCTION,
              pre.length + ws.length + 1 + cs.length) := by
    unfold classify
    simp only [hread, hc, if_true, hword, hnext]
    by_cases hr : (tolower c == 114) = true
    · have hr1 := (tolower_eq_r c).1 hr
      cases cs with
      | nil =>
        simp [hr, hd58]
      | cons x xs =>
        have hne : (pre.length + ws.length + 1 != pre.length + ws.length + 1 + (x :: xs).length)
            = true := by simp
        simp only [hr, hne, Bool.and_self, if_true, hreg, hd58, Bool.false_eq_true, if_false]
        by_cases hall : (x :: xs).all isdigit = true
        · have hall1 : ∀ y ∈ x :: xs, isdigit y = true := by simpa using hall
          rw [if_pos hall, if_pos ⟨hr1, by simp, hall1⟩]
        · have hall1 : ¬ ∀ y ∈ x :: xs, isdigit y = true := by simpa using hall
          rw [if_neg hall, if_neg (fun h => hall1 h.2.2)]
    · have hr1 : ¬ (c = 114 ∨ c = 82) := fun h => hr ((tolower_eq_r c).2 h)
      have hr2 : (tolower c == 114) = false := by simpa using hr
      simp only [hr2, Bool.false_and, Bool.false_eq_true, if_false, hd58]
      rw [if_neg (fun h => hr1 h.1)]
  unfold ParseToken
  simp only [hskip, hcls, AddTokenList, InitializeTokenNode, hcopy, Option.map_some']
  simp only [List.length_cons, Option.some.injEq, Prod.mk.injEq, List.append_cancel_left_eq,
    List.cons.injEq, TokenNode.mk.injEq, and_true, true_and]
  omega

theorem ParseToken_register_or_instruction_witness :
    ParseToken (bytes "mov" ++ bytes "  " ++ 114 :: bytes "12" ++ 32 :: (bytes "r, rx" ++ [0])) []
        (bytes "mov").length
      = some ([⟨TOKEN_REGISTER, bytes "r12", 3, 0⟩], 8) ∧
    ParseToken (bytes "mov  r12 r, rx" ++ [0]) [] 3
      = some ([⟨TOKEN_REGISTER, bytes "r12", 3, 0⟩], 8) ∧
    ParseToken (bytes "mov  r12 r, rx" ++ [0]) [] 8
      = some ([⟨TOKEN_INSTRUCTION, bytes "r", 1, 0⟩], 10) ∧
    ParseToken (bytes "mov  r12 r, rx" ++ [0]) [] 11
      = some ([⟨TOKEN_INSTRUCTION, bytes "rx", 2, 0⟩], 14) :=
  ⟨(ParseToken_register_or_instruction (bytes "mov") (bytes "  ") (bytes "12")
      (bytes "r, rx" ++ [0]) 114 32 [] (by decide) (by decide) (by decide) (by decide)
      (by decide)).trans (by decide),
    by decide, by decide, by decide⟩

/-! ## Kinds and texts after resolution, and the diagnostics -/

theorem firstPass_frame (l : TokenList) :
    ∀ lc, (firstPass lc l).map (fun t => (t.type, t.value, t.length))
      = l.map (fun t => (t.type, t.value, t.length)) := by
  induction l with
  | nil => intro lc; simp [firstPass]
  | cons cur rest ih =>
    intro lc
    rw [firstPass]
    simp only [List.map_cons, ih, List.cons.injEq, and_true]
    split <;> rfl

theorem secondPass_frame (instruction_map : List InstructionEntry) (M : Nat) (l : TokenList) :
    (secondPass instruction_map M l).1.map (fun t => (t.type, t.value, t.length))
      = l.map (fun t => (t.type, t.value, t.length)) := by
  induction l with
  | nil => simp [secondPass]
  | cons cur rest ih =>
    rw [secondPass]
    by_cases hinv : cur.type = TOKEN_INVALID
    · rw [if_pos hinv]
    · rw [if_neg hinv]
      obtain ⟨h1, h2, h3⟩ := resolveToken_frame instruction_map M cur
      simp only [List.map_cons, ih, h1, h2, h3]

/-- The resolver keeps the kind, the text and the length of every token, in
order. -/
theorem SetMemoryTokenList_frame (instruction_map : List InstructionEntry) (M : Nat)
    (l : TokenList) :
    (SetMemoryTokenList instruction_map M l).1.map (fun t => (t.type, t.value, t.length))
      = l.map (fun t => (t.type, t.value, t.length)) := by
  cases l with
  | nil => simp [SetMemoryTokenList]
  | cons a as =>
    have h1 : SetMemoryTokenList instruction_map M (a :: as)
        = secondPass instruction_map M (firstPass 0 (a :: as)) := rfl
    rw [h1, secondPass_frame, firstPass_frame]

/-- A diagnostic of the loop body comes from the immediate branch or is the
invalid-register line for the token. -/
theorem resolveToken_diag (instruction_map : List InstructionEntry) (M : Nat) (t : TokenNode)
    (d : Diagnostic) (h : d ∈ (resolveToken instruction_map M t).2) :
    (t.type = TOKEN_IMMEDIATE ∧ d ∈ (resolveImmediate t).2) ∨
    (t.type = TOKEN_REGISTER ∧ d = Diagnostic.InvalidRegister (cstr t.value)) := by
  by_cases h1 : t.type = TOKEN_INSTRUCTION
  · rw [resolveToken_instruction instruction_map M t h1] at h
    simp at h
  · by_cases h2 : t.type = TOKEN_IMMEDIATE
    · rw [resolveToken_immediate instruction_map M t h2] at h
      exact Or.inl ⟨h2, h⟩
    · by_cases h3 : t.type = TOKEN_REGISTER
      · rw [resolveToken_register instruction_map M t h3] at h
        right
        refine ⟨h3, ?_⟩
        unfold resolveRegister at h
        simp only at h
        split at h
        · simp at h
        · simpa using h
      · rw [resolveToken_other instruction_map M t h1 h2 h3] at h
        simp at h

theorem secondPass_invalid_immediate (instruction_map : List InstructionEntry) (M : Nat)
    (l : TokenList) (arg : List Nat)
    (h : Diagnostic.InvalidImmediate arg ∈ (secondPass instruction_map M l).2) :
    ∃ t ∈ l, t.type = TOKEN_IMMEDIATE ∧ Diagnostic.InvalidImmediate arg ∈ (resolveImmediate t).2 := by
  induction l with
  | nil => simp [secondPass] at h
  | cons cur rest ih =>
    rw [secondPass] at h
    by_cases hinv : cur.type = TOKEN_INVALID
    · rw [if_pos hinv] at h
      simp at h
    · rw [if_neg hinv] at h
      rcases List.mem_append.1 h with h1 | h1
      · rcases resolveToken_diag instruction_map M cur _ h1 with ⟨e1, e2⟩ | ⟨_, e2⟩
        · exact ⟨cur, List.mem_cons_self _ _, e1, e2⟩
        · exact absurd e2 (by simp)
      · obtain ⟨t, ht, e1, e2⟩ := ih h1
        exact ⟨t, List.mem_cons_of_mem _ ht, e1, e2⟩

/-- An invalid-immediate line on `stderr` comes from an immediate token of the
sequence whose text `strtoul` does not consume in full. -/
theorem SetMemoryTokenList_invalid_immediate (instruction_map : List InstructionEntry) (M : Nat)
    (l : TokenList) (arg : List Nat)
    (h : Diagnostic.InvalidImmediate arg ∈ (SetMemoryTokenList instruction_map M l).2) :
    ∃ t ∈ l, t.type = TOKEN_IMMEDIATE ∧ Diagnostic.InvalidImmediate arg ∈ (resolveImmediate t).2 := by
  cases l with
  | nil => simp [SetMemoryTokenList] at h
  | cons a as =>
    have h1 : SetMemoryTokenList instruction_map M (a :: as)
        = secondPass instruction_map M (firstPass 0 (a :: as)) := rfl
    rw [h1] at h
    obtain ⟨t, ht, e1, e2⟩ := secondPass_invalid_immediate instruction_map M _ arg h
    exact ⟨t, firstPass_mem (a :: as) 0 t ht (by rw [e1]; decide), e1, e2⟩

/-! ## Register indices beyond 32 bits -/

/-- C6, the code at the failing input: with `MAX_REGISTER = 31`, the register
`r4294967297` (index `2 ^ 32 + 1`) gets `memory` 1 and no diagnostic, because the
index is cut to 32 bits before the bound check; the register `r99999` of the
specification's scenario is rejected with `memory` left 0. -/
theorem register_index_cut_before_check :
    AssembleSource sampleMap 31 (bytes "mov r4294967297, 0\n" ++ [0])
      = some ([⟨TOKEN_INSTRUCTION, bytes "mov", 3, 1⟩,
          ⟨TOKEN_REGISTER, bytes "r4294967297", 11, 1⟩, ⟨TOKEN_COMMA, bytes ",", 1, 0⟩,
          ⟨TOKEN_IMMEDIATE, bytes "0", 1, 0⟩, ⟨TOKEN_NEWLINE, [10], 1, 0⟩,
          ⟨TOKEN_EOF, [0], 1, 0⟩], []) ∧
    denotedValue (bytes "4294967297") = 4294967297 ∧
    AssembleSource sampleMap 31 (bytes "mov r99999, 0\n" ++ [0])
      = some ([⟨TOKEN_INSTRUCTION, bytes "mov", 3, 1⟩,
          ⟨TOKEN_REGISTER, bytes "r99999", 6, 0⟩, ⟨TOKEN_COMMA, bytes ",", 1, 0⟩,
          ⟨TOKEN_IMMEDIATE, bytes "0", 1, 0⟩, ⟨TOKEN_NEWLINE, [10], 1, 0⟩,
          ⟨TOKEN_EOF, [0], 1, 0⟩], [Diagnostic.InvalidRegister (bytes "r99999")]) := by
  decide

/-! ## Hexadecimal immediates and trailing letters -/

/-- C7, counterexample to the claim as stated: `mov r1, 0x1A` has no immediate
token with text `0x1A`; the scanner stops the number after `0`, and `x1A` is
an instruction token. -/
theorem hex_immediate_is_split :
    AssembleSource sampleMap 31 (bytes "mov r1, 0x1A\n" ++ [0])
      = some ([⟨TOKEN_INSTRUCTION, bytes "mov", 3, 1⟩, ⟨TOKEN_REGISTER, bytes "r1", 2, 1⟩,
          ⟨TOKEN_COMMA, bytes ",", 1, 0⟩, ⟨TOKEN_IMMEDIATE, bytes "0", 1, 0⟩,
          ⟨TOKEN_INSTRUCTION, bytes "x1A", 3, 0⟩, ⟨TOKEN_NEWLINE, [10], 1, 0⟩,
          ⟨TOKEN_EOF, [0], 1, 0⟩], []) := by
  decide

/-- Every immediate token the scanner makes is a non-empty run of decimal
digits. -/
theorem Tokenize_immediate_digits (source : List Nat) (h : 0 ∈ source) :
    ∃ toks, Tokenize source [] = some toks ∧
      ∀ t ∈ toks, t.type = TOKEN_IMMEDIATE → t.value ≠ [] ∧ ∀ c ∈ t.value, isdigit c = true := by
  obtain ⟨s, g, rfl, h0⟩ := split_at_null source h
  have hone : ∀ (pos start e : Nat) (tok : TokenNode), StepAt s g pos start e tok →
      tok.type = TOKEN_IMMEDIATE → tok.value ≠ [] ∧ ∀ c ∈ tok.value, isdigit c = true := by
    intro pos start e tok hst hty
    rcases hst.shape with ⟨_, le, _, _, _, _, h6⟩ | ⟨_, _, _, h4, h5, _⟩ | ⟨_, _, h3, _⟩
    · rcases h6 with ⟨_, h7, _⟩ | ⟨_, _, h7⟩
      · rw [h7] at hty; exact absurd hty (by decide)
      · rw [h7] at hty
        split at hty <;> exact absurd hty (by decide)
    · rw [hst.value_eq h4]
      refine ⟨?_, h5⟩
      intro hnil
      have hl := slice_length s start e h4
      rw [hnil] at hl
      have := hst.lt_end
      simp only [List.length_nil] at hl
      omega
    · rw [h3] at hty
      unfold specialType at hty
      split at hty
      · exact absurd hty (by decide)
      · split at hty
        · exact absurd hty (by decide)
        · split at hty <;> exact absurd hty (by decide)
  obtain ⟨toks, ht, hP⟩ := Tokenize_induct s g h0
    (fun _ toks => ∀ t ∈ toks, t.type = TOKEN_IMMEDIATE →
      t.value ≠ [] ∧ ∀ c ∈ t.value, isdigit c = true)
    (by
      intro pos start tok hst t ht
      simp only [List.mem_singleton] at ht
      rw [ht]; exact hone _ _ _ _ hst)
    (by
      intro pos start e tok toks hst _ hP t ht
      rcases List.mem_cons.1 ht with h1 | h1
      · rw [h1]; exact hone _ _ _ _ hst
      · exact hP t h1)
    []
  exact ⟨toks, by simpa using ht, hP⟩

/-- C7 (as amended): the resolver accepts a hexadecimal immediate, a
`TOKEN_IMMEDIATE` token with text `0x1A` gets `memory` 26 and one with text
`0xFF` gets 255, but the scanner never produces such a token: for every source,
every `TOKEN_IMMEDIATE` token of `Tokenize` is a non-empty run of decimal digits
(so its text is neither `0x1A` nor `0xFF`).  End to end, for every instruction
table and register bound, `mov r1, 0x1A` becomes the immediate `0` with
`memory` 0 followed by the instruction token `x1A`, and `mov r1, 0xFF` the
immediate `0` with `memory` 0 followed by the instruction token `xFF`. -/
theorem hex_immediate_resolver_only (instruction_map : List InstructionEntry)
    (MAX_REGISTER : Nat) :
    (∀ source : List Nat, 0 ∈ source →
      ∃ toks, Tokenize source [] = some toks ∧
        ∀ t ∈ toks, t.type = TOKEN_IMMEDIATE →
          t.value ≠ [] ∧ (∀ c ∈ t.value, isdigit c = true) ∧
          t.value ≠ bytes "0x1A" ∧ t.value ≠ bytes "0xFF") ∧
    (∃ out, AssembleSource instruction_map MAX_REGISTER (bytes "mov r1, 0x1A\n" ++ [0]) = some out ∧
      out.1.map (fun t => (t.type, t.value, t.length))
        = [(TOKEN_INSTRUCTION, bytes "mov", 3), (TOKEN_REGISTER, bytes "r1", 2),
            (TOKEN_COMMA, bytes ",", 1), (TOKEN_IMMEDIATE, bytes "0", 1),
            (TOKEN_INSTRUCTION, bytes "x1A", 3), (TOKEN_NEWLINE, [10], 1),
            (TOKEN_EOF, [0], 1)] ∧
      out.1[3]? = some ⟨TOKEN_IMMEDIATE, bytes "0", 1, 0⟩) ∧
    (∃ out, AssembleSource instruction_map MAX_REGISTER (bytes "mov r1, 0xFF\n" ++ [0]) = some out ∧
      out.1.map (fun t => (t.type, t.value, t.length))
        = [(TOKEN_INSTRUCTION, bytes "mov", 3), (TOKEN_REGISTER, bytes "r1", 2),
            (TOKEN_COMMA, bytes ",", 1), (TOKEN_IMMEDIATE, bytes "0", 1),
            (TOKEN_INSTRUCTION, bytes "xFF", 3), (TOKEN_NEWLINE, [10], 1),
            (TOKEN_EOF, [0], 1)] ∧
      out.1[3]? = some ⟨TOKEN_IMMEDIATE, bytes "0", 1, 0⟩) ∧
    SetMemoryTokenList instruction_map MAX_REGISTER [⟨TOKEN_IMMEDIATE, bytes "0x1A", 4, 0⟩]
      = ([⟨TOKEN_IMMEDIATE, bytes "0x1A", 4, 26⟩], []) ∧
    SetMemoryTokenList instruction_map MAX_REGISTER [⟨TOKEN_IMMEDIATE, bytes "0xFF", 4, 0⟩]
      = ([⟨TOKEN_IMMEDIATE, bytes "0xFF", 4, 255⟩], []) := by
  have ht : Tokenize (bytes "mov r1, 0x1A\n" ++ [0]) []
      = some ([⟨TOKEN_INSTRUCTION, bytes "mov", 3, 0⟩, ⟨TOKEN_REGISTER, bytes "r1", 2, 0⟩,
          ⟨TOKEN_COMMA, bytes ",", 1, 0⟩] ++ ⟨TOKEN_IMMEDIATE, bytes "0", 1, 0⟩ ::
          [⟨TOKEN_INSTRUCTION, bytes "x1A", 3, 0⟩, ⟨TOKEN_NEWLINE, [10], 1, 0⟩,
          ⟨TOKEN_EOF, [0], 1, 0⟩]) := by decide
  have ht2 : Tokenize (bytes "mov r1, 0xFF\n" ++ [0]) []
      = some ([⟨TOKEN_INSTRUCTION, bytes "mov", 3, 0⟩, ⟨TOKEN_REGISTER, bytes "r1", 2, 0⟩,
          ⟨TOKEN_COMMA, bytes ",", 1, 0⟩] ++ ⟨TOKEN_IMMEDIATE, bytes "0", 1, 0⟩ ::
          [⟨TOKEN_INSTRUCTION, bytes "xFF", 3, 0⟩, ⟨TOKEN_NEWLINE, [10], 1, 0⟩,
          ⟨TOKEN_EOF, [0], 1, 0⟩]) := by decide
  refine ⟨?_, ⟨_, by rw [AssembleSource, ht]; rfl, ?_, ?_⟩,
    ⟨_, by rw [AssembleSource, ht2]; rfl, ?_, ?_⟩, ?_, ?_⟩
  · intro source h0
    obtain ⟨toks, htk, hP⟩ := Tokenize_immediate_digits source h0
    refine ⟨toks, htk, ?_⟩
    intro t hmem hty
    obtain ⟨hne, hdig⟩ := hP t hmem hty
    refine ⟨hne, hdig, ?_, ?_⟩
    · intro hv
      have := hdig 120 (by rw [hv]; decide)
      exact absurd this (by decide)
    · intro hv
      have := hdig 120 (by rw [hv]; decide)
      exact absurd this (by decide)
  · rw [SetMemoryTokenList_frame]
    decide
  · have h := SetMemoryTokenList_at instruction_map MAX_REGISTER
      [⟨TOKEN_INSTRUCTION, bytes "mov", 3, 0⟩, ⟨TOKEN_REGISTER, bytes "r1", 2, 0⟩,
        ⟨TOKEN_COMMA, bytes ",", 1, 0⟩] ⟨TOKEN_IMMEDIATE, bytes "0", 1, 0⟩
      [⟨TOKEN_INSTRUCTION, bytes "x1A", 3, 0⟩, ⟨TOKEN_NEWLINE, [10], 1, 0⟩,
        ⟨TOKEN_EOF, [0], 1, 0⟩] (by decide) (by decide) (by decide)
    rw [resolveToken_immediate instruction_map MAX_REGISTER _ rfl] at h
    exact h.trans (by decide)
  · rw [SetMemoryTokenList_frame]
    decide
  · have h := SetMemoryTokenList_at instruction_map MAX_REGISTER
      [⟨TOKEN_INSTRUCTION, bytes "mov", 3, 0⟩, ⟨TOKEN_REGISTER, bytes "r1", 2, 0⟩,
        ⟨TOKEN_COMMA, bytes ",", 1, 0⟩] ⟨TOKEN_IMMEDIATE, bytes "0", 1, 0⟩
      [⟨TOKEN_INSTRUCTION, bytes "xFF", 3, 0⟩, ⟨TOKEN_NEWLINE, [10], 1, 0⟩,
        ⟨TOKEN_EOF, [0], 1, 0⟩] (by decide) (by decide) (by decide)
    rw [resolveToken_immediate instruction_map MAX_REGISTER _ rfl] at h
    exact h.trans (by decide)
  · have h : SetMemoryTokenList instruction_map MAX_REGISTER [⟨TOKEN_IMMEDIATE, bytes "0x1A", 4, 0⟩]
        = ([(resolveToken instruction_map MAX_REGISTER ⟨TOKEN_IMMEDIATE, bytes "0x1A", 4, 0⟩).1],
            (resolveToken instruction_map MAX_REGISTER ⟨TOKEN_IMMEDIATE, bytes "0x1A", 4, 0⟩).2
              ++ []) := rfl
    rw [h, resolveToken_immediate instruction_map MAX_REGISTER _ rfl]
    decide
  · have h : SetMemoryTokenList instruction_map MAX_REGISTER [⟨TOKEN_IMMEDIATE, bytes "0xFF", 4, 0⟩]
        = ([(resolveToken instruction_map MAX_REGISTER ⟨TOKEN_IMMEDIATE, bytes "0xFF", 4, 0⟩).1],
            (resolveToken instruction_map MAX_REGISTER ⟨TOKEN_IMMEDIATE, bytes "0xFF", 4, 0⟩).2
              ++ []) := rfl
    rw [h, resolveToken_immediate instruction_map MAX_REGISTER _ rfl]
    decide

theorem hex_immediate_resolver_only_witness :
    0 ∈ bytes "add r2, 0xFF 0X1a\n" ++ [0] ∧
    Tokenize (bytes "add r2, 0xFF 0X1a\n" ++ [0]) []
      = some [⟨TOKEN_INSTRUCTION, bytes "add", 3, 0⟩, ⟨TOKEN_REGISTER, bytes "r2", 2, 0⟩,
          ⟨TOKEN_COMMA, bytes ",", 1, 0⟩, ⟨TOKEN_IMMEDIATE, bytes "0", 1, 0⟩,
          ⟨TOKEN_INSTRUCTION, bytes "xFF", 3, 0⟩, ⟨TOKEN_IMMEDIATE, bytes "0", 1, 0⟩,
          ⟨TOKEN_INSTRUCTION, bytes "X1a", 3, 0⟩, ⟨TOKEN_NEWLINE, [10], 1, 0⟩,
          ⟨TOKEN_EOF, [0], 1, 0⟩] ∧
    ∃ toks, Tokenize (bytes "add r2, 0xFF 0X1a\n" ++ [0]) [] = some toks ∧
      ∀ t ∈ toks, t.type = TOKEN_IMMEDIATE →
        t.value ≠ [] ∧ (∀ c ∈ t.value, isdigit c = true) ∧
        t.value ≠ bytes "0x1A" ∧ t.value ≠ bytes "0xFF" :=
  ⟨by decide, by decide,
    (hex_immediate_resolver_only sampleMap 31).1 (bytes "add r2, 0xFF 0X1a\n" ++ [0])
      (by decide)⟩

/-- C8, counterexample to the claim as stated: resolving `mov r1, 10abc` writes
nothing to `stderr`. -/
theorem trailing_letters_no_diagnostic :
    AssembleSource sampleMap 31 (bytes "mov r1, 10abc\n" ++ [0])
      = some ([⟨TOKEN_INSTRUCTION, bytes "mov", 3, 1⟩, ⟨TOKEN_REGISTER, bytes "r1", 2, 1⟩,
          ⟨TOKEN_COMMA, bytes ",", 1, 0⟩, ⟨TOKEN_IMMEDIATE, bytes "10", 2, 10⟩,
          ⟨TOKEN_INSTRUCTION, bytes "abc", 3, 0⟩, ⟨TOKEN_NEWLINE, [10], 1, 0⟩,
          ⟨TOKEN_EOF, [0], 1, 0⟩], []) := by
  decide

/-- C8 (as amended): tokenizing and resolving `mov r1, 10abc` writes no
invalid-immediate diagnostic, for every instruction table and register bound:
the scanner splits `10abc` into the immediate `10`, resolved to `memory` 10,
and the instruction token `abc`.  The resolver writes the diagnostic (naming
`abc`) only for an immediate token whose text is `10abc`, which the scanner
does not produce: for every source, every immediate token of `Tokenize` is a
run of decimal digits. -/
theorem trailing_letters_are_split (instruction_map : List InstructionEntry)
    (MAX_REGISTER : Nat) :
    (∃ out, AssembleSource instruction_map MAX_REGISTER (bytes "mov r1, 10abc\n" ++ [0])
        = some out ∧
      out.1.map (fun t => (t.type, t.value, t.length))
        = [(TOKEN_INSTRUCTION, bytes "mov", 3), (TOKEN_REGISTER, bytes "r1", 2),
            (TOKEN_COMMA, bytes ",", 1), (TOKEN_IMMEDIATE, bytes "10", 2),
            (TOKEN_INSTRUCTION, bytes "abc", 3), (TOKEN_NEWLINE, [10], 1),
            (TOKEN_EOF, [0], 1)] ∧
      out.1[3]? = some ⟨TOKEN_IMMEDIATE, bytes "10", 2, 10⟩ ∧
      ∀ arg, Diagnostic.InvalidImmediate arg ∉ out.2) ∧
    SetMemoryTokenList instruction_map MAX_REGISTER [⟨TOKEN_IMMEDIATE, bytes "10abc", 5, 0⟩]
      = ([⟨TOKEN_IMMEDIATE, bytes "10abc", 5, 0⟩], [Diagnostic.InvalidImmediate (bytes "abc")]) ∧
    (∀ source : List Nat, 0 ∈ source →
      ∃ toks, Tokenize source [] = some toks ∧
        ∀ t ∈ toks, t.type = TOKEN_IMMEDIATE →
          (∀ c ∈ t.value, isdigit c = true) ∧ t.value ≠ bytes "10abc") := by
  have ht : Tokenize (bytes "mov r1, 10abc\n" ++ [0]) []
      = some ([⟨TOKEN_INSTRUCTION, bytes "mov", 3, 0⟩, ⟨TOKEN_REGISTER, bytes "r1", 2, 0⟩,
          ⟨TOKEN_COMMA, bytes ",", 1, 0⟩] ++ ⟨TOKEN_IMMEDIATE, bytes "10", 2, 0⟩ ::
          [⟨TOKEN_INSTRUCTION, bytes "abc", 3, 0⟩, ⟨TOKEN_NEWLINE, [10], 1, 0⟩,
          ⟨TOKEN_EOF, [0], 1, 0⟩]) := by decide
  refine ⟨⟨_, by rw [AssembleSource, ht]; rfl, ?_, ?_, ?_⟩, ?_, ?_⟩
  · rw [SetMemoryTokenList_frame]
    decide
  · have h := SetMemoryTokenList_at instruction_map MAX_REGISTER
      [⟨TOKEN_INSTRUCTION, bytes "mov", 3, 0⟩, ⟨TOKEN_REGISTER, bytes "r1", 2, 0⟩,
        ⟨TOKEN_COMMA, bytes ",", 1, 0⟩] ⟨TOKEN_IMMEDIATE, bytes "10", 2, 0⟩
      [⟨TOKEN_INSTRUCTION, bytes "abc", 3, 0⟩, ⟨TOKEN_NEWLINE, [10], 1, 0⟩,
        ⟨TOKEN_EOF, [0], 1, 0⟩] (by decide) (by decide) (by decide)
    rw [resolveToken_immediate instruction_map MAX_REGISTER _ rfl] at h
    exact h.trans (by decide)
  · intro arg harg
    obtain ⟨t, hmem, hty, hd⟩ :=
      SetMemoryTokenList_invalid_immediate instruction_map MAX_REGISTER _ arg harg
    have hall : ∀ u ∈ ([⟨TOKEN_INSTRUCTION, bytes "mov", 3, 0⟩, ⟨TOKEN_REGISTER, bytes "r1", 2, 0⟩,
          ⟨TOKEN_COMMA, bytes ",", 1, 0⟩] ++ ⟨TOKEN_IMMEDIATE, bytes "10", 2, 0⟩ ::
          [⟨TOKEN_INSTRUCTION, bytes "abc", 3, 0⟩, ⟨TOKEN_NEWLINE, [10], 1, 0⟩,
          ⟨TOKEN_EOF, [0], 1, 0⟩] : TokenList),
        u.type = TOKEN_IMMEDIATE → (resolveImmediate u).2 = [] := by decide
    rw [hall t hmem hty] at hd
    simp at hd
  · have h : SetMemoryTokenList instruction_map MAX_REGISTER [⟨TOKEN_IMMEDIATE, bytes "10abc", 5, 0⟩]
        = ([(resolveToken instruction_map MAX_REGISTER ⟨TOKEN_IMMEDIATE, bytes "10abc", 5, 0⟩).1],
            (resolveToken instruction_map MAX_REGISTER ⟨TOKEN_IMMEDIATE, bytes "10abc", 5, 0⟩).2
              ++ []) := rfl
    rw [h, resolveToken_immediate instruction_map MAX_REGISTER _ rfl]
    decide
  · intro source h0
    obtain ⟨toks, htk, hP⟩ := Tokenize_immediate_digits source h0
    refine ⟨toks, htk, ?_⟩
    intro t hmem hty
    obtain ⟨_, hdig⟩ := hP t hmem hty
    refine ⟨hdig, ?_⟩
    intro hv
    have := hdig 97 (by rw [hv]; decide)
    exact absurd this (by decide)

theorem trailing_letters_are_split_witness :
    0 ∈ bytes "add r2, 10abc 7x\n" ++ [0] ∧
    Tokenize (bytes "add r2, 10abc 7x\n" ++ [0]) []
      = some [⟨TOKEN_INSTRUCTION, bytes "add", 3, 0⟩, ⟨TOKEN_REGISTER, bytes "r2", 2, 0⟩,
          ⟨TOKEN_COMMA, bytes ",", 1, 0⟩, ⟨TOKEN_IMMEDIATE, bytes "10", 2, 0⟩,
          ⟨TOKEN_INSTRUCTION, bytes "abc", 3, 0⟩, ⟨TOKEN_IMMEDIATE, bytes "7", 1, 0⟩,
          ⟨TOKEN_INSTRUCTION, bytes "x", 1, 0⟩, ⟨TOKEN_NEWLINE, [10], 1, 0⟩,
          ⟨TOKEN_EOF, [0], 1, 0⟩] ∧
    ∃ toks, Tokenize (bytes "add r2, 10abc 7x\n" ++ [0]) [] = some toks ∧
      ∀ t ∈ toks, t.type = TOKEN_IMMEDIATE →
        (∀ c ∈ t.value, isdigit c = true) ∧ t.value ≠ bytes "10abc" :=
  ⟨by decide, by decide,
    (trailing_letters_are_split sampleMap 31).2.2 (bytes "add r2, 10abc 7x\n" ++ [0])
      (by decide)⟩

/-! ## Label declarations -/

/-- C11: for every lexeme that starts with a letter `c`, goes on with the
alphanumeric or underscore bytes `cs` and is immediately followed by `':'`,
also when the lexeme is a register spelling, `ParseToken` appends exactly one
token: a `TOKEN_LABEL_DECLARE` whose text is the lexeme with the colon appended and
whose length counts the colon; the returned cursor is just past the colon. -/
theorem ParseToken_label_declare (pre ws cs rest : List Nat) (c : Nat) (list : TokenList)
    (hws : ∀ x ∈ ws, isSkipped x = true) (hc : isalpha c = true)
    (hcs : ∀ x ∈ cs, isWordByte x = true) :
    ParseToken (pre ++ ws ++ c :: cs ++ 58 :: rest) list pre.length
      = some (list ++ [⟨TOKEN_LABEL_DECLARE, c :: cs ++ [58], (c :: cs).length + 1, 0⟩],
          pre.length + ws.length + (c :: cs).length + 1) := by
  generalize hS : pre ++ ws ++ c :: cs ++ 58 :: rest = S
  have hS1 : S = pre ++ ws ++ c :: (cs ++ 58 :: rest) := by rw [← hS]; simp
  have hS3 : S = (pre ++ ws ++ [c]) ++ cs ++ 58 :: rest := by rw [← hS]; simp
  have hS4 : S = (pre ++ ws) ++ (c :: cs ++ [58]) ++ rest := by rw [← hS]; simp
  have hlen : S.length = pre.length + ws.length + cs.length + rest.length + 2 := by
    rw [← hS]
    simp only [List.length_append, List.length_cons]
    omega
  have hskip : scanWhile isSkipped S (S.length + 1) pre.length
      = some (pre.length + ws.length) := by
    rw [hS1]
    exact scanWhile_run isSkipped ws pre c (cs ++ 58 :: rest) _ hws (isalpha_not_skipped c hc)
      (by rw [← hS1, hlen]; omega)
  have hread : S[pre.length + ws.length]? = some c := by
    rw [hS1, ← List.length_append]
    exact getElem?_mid (pre ++ ws) c (cs ++ 58 :: rest)
  have hword : scanWhile isWordByte S (S.length + 1) (pre.length + ws.length + 1)
      = some (pre.length + ws.length + 1 + cs.length) := by
    have h := scanWhile_run isWordByte cs (pre ++ ws ++ [c]) 58 rest (S.length + 1) hcs
      (by decide) (by rw [hlen]; omega)
    rw [← hS3] at h
    simpa using h
  have hreg : registerCheck S (pre.length + ws.length + 1 + cs.length) (S.length + 1)
      (pre.length + ws.length + 1)
      = some (if cs.all isdigit then TOKEN_REGISTER else TOKEN_INSTRUCTION) := by
    have h := registerCheck_run cs (pre ++ ws ++ [c]) (58 :: rest) (S.length + 1)
      (by rw [hlen]; omega)
    rw [← hS3] at h
    simpa using h
  have hnext : S[pre.length + ws.length + 1 + cs.length]? = some 58 := by
    have h := getElem?_mid (pre ++ ws ++ c :: cs) 58 rest
    rw [hS] at h
    rw [← h]
    congr 1
    simp only [List.length_append, List.length_cons]
    omega
  have hcopy : strncpy S (pre.length + ws.length)
      (pre.length + ws.length + 1 + cs.length + 1 - (pre.length + ws.length))
      = some (c :: cs ++ [58]) := by
    have h := strncpy_run (c :: cs ++ [58]) (pre ++ ws) rest (by
      intro x hx
      rcases List.mem_append.1 hx with h1 | h1
      · rcases List.mem_cons.1 h1 with h2 | h2
        · rw [h2]; exact isalpha_ne_zero c hc
        · exact isWordByte_ne_zero x (hcs x h2)
      · simp only [List.mem_singleton] at h1
        omega)
    rw [← hS4] at h
    rw [← h]
    congr 1
    · simp
    · simp only [List.length_append, List.length_cons, List.length_nil]
      omega
  have hcls : classify S (pre.length + ws.length)
      = some (TOKEN_LABEL_DECLARE, pre.length + ws.length + 1 + cs.length + 1) := by
    unfold classify
    simp only [hread, hc, if_true, hword, hnext]
    by_cases hr : (tolower c == 114 && pre.length + ws.length + 1
        != pre.length + ws.length + 1 + cs.length) = true
    · simp only [hr, if_true, hreg]
      by_cases hd : cs.all isdigit = true
      · simp [hd]
      · simp [hd]
    · simp only [hr, Bool.false_eq_true, if_false]
      simp
  unfold ParseToken
  simp only [hskip, hcls, AddTokenList, InitializeTokenNode, hcopy, Option.map_some']
  simp only [List.length_cons, Option.some.injEq, Prod.mk.injEq, List.append_cancel_left_eq,
    List.cons.injEq, TokenNode.mk.injEq, and_true, true_and]
  omega

theorem ParseToken_label_declare_witness :
    ParseToken (bytes "add\n" ++ bytes " " ++ 114 :: bytes "3" ++ 58 :: (bytes " x" ++ [0])) []
        (bytes "add\n").length
      = some ([⟨TOKEN_LABEL_DECLARE, bytes "r3:", 3, 0⟩], 8) ∧
    ParseToken (bytes "add\n r3: x" ++ [0]) [] 4
      = some ([⟨TOKEN_LABEL_DECLARE, bytes "r3:", 3, 0⟩], 8) ∧
    Tokenize (bytes "r0:loop:" ++ [0]) []
      = some [⟨TOKEN_LABEL_DECLARE, bytes "r0:", 3, 0⟩,
          ⟨TOKEN_LABEL_DECLARE, bytes "loop:", 5, 0⟩, ⟨TOKEN_EOF, [0], 1, 0⟩] :=
  ⟨(ParseToken_label_declare (bytes "add\n") (bytes " ") (bytes "3") (bytes " x" ++ [0]) 114 []
      (by decide) (by decide) (by decide)).trans (by decide),
    by decide, by decide⟩

/-! ## The two passes on a sequence cut in two -/

theorem SetMemoryTokenList_eq (instruction_map : List InstructionEntry) (M : Nat)
    (l : TokenList) :
    SetMemoryTokenList instruction_map M l = secondPass instruction_map M (firstPass 0 l) := by
  cases l <;> rfl

theorem firstPass_append_all (pre : TokenList) :
    ∀ lc : Nat, ∃ lc1, ∀ l : TokenList,
      firstPass lc (pre ++ l) = firstPass lc pre ++ firstPass lc1 l := by
  induction pre with
  | nil => intro lc; exact ⟨lc, fun l => by simp [firstPass]⟩
  | cons cur rest ih =>
    intro lc
    obtain ⟨lc1, h⟩ := ih (if cur.type = TOKEN_NEWLINE then (lc + 1) % 2 ^ 32 else lc)
    refine ⟨lc1, fun l => ?_⟩
    rw [List.cons_append, firstPass, firstPass]
    simp only [List.cons_append, List.cons.injEq, true_and]
    exact h l

theorem firstPass_no_invalid (l : TokenList) (lc : Nat) (h : ∀ t ∈ l, t.type ≠ TOKEN_INVALID) :
    ∀ t ∈ firstPass lc l, t.type ≠ TOKEN_INVALID := by
  intro t ht
  obtain ⟨u, hu, e⟩ := firstPass_type l lc t ht
  rw [e]
  exact h u hu

theorem secondPass_append (instruction_map : List InstructionEntry) (M : Nat)
    (pre rest : TokenList) (hpre : ∀ t ∈ pre, t.type ≠ TOKEN_INVALID) :
    secondPass instruction_map M (pre ++ rest)
      = ((secondPass instruction_map M pre).1 ++ (secondPass instruction_map M rest).1,
         (secondPass instruction_map M pre).2 ++ (secondPass instruction_map M rest).2) := by
  induction pre with
  | nil => simp [secondPass]
  | cons p ps ih =>
    have hp : p.type ≠ TOKEN_INVALID := hpre p (List.mem_cons_self _ _)
    have ih1 := ih (fun t ht => hpre t (List.mem_cons_of_mem _ ht))
    rw [List.cons_append, secondPass, if_neg hp, ih1, secondPass, if_neg hp]
    simp

theorem secondPass_length (instruction_map : List InstructionEntry) (M : Nat) (l : TokenList) :
    (secondPass instruction_map M l).1.length = l.length := by
  have h := congrArg List.length (secondPass_frame instruction_map M l)
  simpa using h

/-- Without a `TOKEN_INVALID` the second loop runs its body on every token. -/
theorem secondPass_no_invalid (instruction_map : List InstructionEntry) (M : Nat)
    (l : TokenList) (h : ∀ t ∈ l, t.type ≠ TOKEN_INVALID) :
    secondPass instruction_map M l
      = (l.map (fun t => (resolveToken instruction_map M t).1),
         (l.map (fun t => (resolveToken instruction_map M t).2)).flatten) := by
  induction l with
  | nil => simp [secondPass]
  | cons p ps ih =>
    have hp : p.type ≠ TOKEN_INVALID := h p (List.mem_cons_self _ _)
    rw [secondPass, if_neg hp, ih (fun t ht => h t (List.mem_cons_of_mem _ ht))]
    simp

/-- The diagnostics do not depend on the line numbers the first pass stores. -/
theorem secondPass_firstPass_diag (instruction_map : List InstructionEntry) (M : Nat)
    (l : TokenList) :
    ∀ lc, (secondPass instruction_map M (firstPass lc l)).2 = (secondPass instruction_map M l).2 := by
  induction l with
  | nil => intro lc; simp [firstPass]
  | cons cur rest ih =>
    intro lc
    rw [firstPass]
    by_cases hl : cur.type = TOKEN_LABEL_DECLARE
    · have hinv : cur.type ≠ TOKEN_INVALID := by rw [hl]; decide
      simp only [if_pos hl]
      rw [secondPass, secondPass, if_neg hinv]
      have hinv1 : ({ cur with memory :=
          if cur.type = TOKEN_NEWLINE then (lc + 1) % 2 ^ 32 else lc } : TokenNode).type
          ≠ TOKEN_INVALID := hinv
      rw [if_neg hinv1]
      simp only
      rw [ih, resolveToken_other instruction_map M cur (by rw [hl]; decide) (by rw [hl]; decide)
        (by rw [hl]; decide),
        resolveToken_other instruction_map M _ (by simp only; rw [hl]; decide)
          (by simp only; rw [hl]; decide) (by simp only; rw [hl]; decide)]
    · simp only [if_neg hl]
      rw [secondPass, secondPass]
      by_cases hinv : cur.type = TOKEN_INVALID
      · rw [if_pos hinv, if_pos hinv]
      · rw [if_neg hinv, if_neg hinv]
        simp only
        rw [ih]

/-- What `SetMemoryTokenList` writes to `stderr` for a sequence whose first part
has no `TOKEN_INVALID`: the diagnostics of the first part, then those of the
rest. -/
theorem SetMemoryTokenList_diag_append (instruction_map : List InstructionEntry) (M : Nat)
    (pre rest : TokenList) (hpre : ∀ t ∈ pre, t.type ≠ TOKEN_INVALID) :
    (SetMemoryTokenList instruction_map M (pre ++ rest)).2
      = (secondPass instruction_map M pre).2 ++ (secondPass instruction_map M rest).2 := by
  rw [SetMemoryTokenList_eq, secondPass_firstPass_diag, secondPass_append instruction_map M pre
    rest hpre]

/-- The tokens after `SetMemoryTokenList` for a sequence whose first part has no
`TOKEN_INVALID`: the resolved first part, then the rest as the two passes leave
it, starting from the line count `lc1` reached after the first part. -/
theorem SetMemoryTokenList_tokens_append (instruction_map : List InstructionEntry) (M : Nat)
    (pre : TokenList) (hpre : ∀ t ∈ pre, t.type ≠ TOKEN_INVALID) :
    ∃ lc1, ∀ rest : TokenList,
      (SetMemoryTokenList instruction_map M (pre ++ rest)).1
        = (SetMemoryTokenList instruction_map M pre).1
          ++ (secondPass instruction_map M (firstPass lc1 rest)).1 := by
  obtain ⟨lc1, h⟩ := firstPass_append_all pre 0
  refine ⟨lc1, fun rest => ?_⟩
  rw [SetMemoryTokenList_eq, SetMemoryTokenList_eq, h rest,
    secondPass_append instruction_map M _ _ (firstPass_no_invalid pre 0 hpre)]

theorem SetMemoryTokenList_length (instruction_map : List InstructionEntry) (M : Nat)
    (l : TokenList) : (SetMemoryTokenList instruction_map M l).1.length = l.length := by
  rw [SetMemoryTokenList_eq, secondPass_length, firstPass_length]

/-! ## Instruction lookup -/

theorem lookupInstruction_no_match (instruction_map : List InstructionEntry) (cur : TokenNode)
    (h : ∀ e ∈ instruction_map, cstr cur.value ≠ cstr e.instruction) :
    lookupInstruction instruction_map cur = cur := by
  induction instruction_map with
  | nil => rfl
  | cons e es ih =>
    unfold lookupInstruction
    rw [List.foldl_cons, if_neg (h e (List.mem_cons_self _ _))]
    exact ih (fun e1 h1 => h e1 (List.mem_cons_of_mem _ h1))

theorem lookupInstruction_match (instruction_map : List InstructionEntry) (v : Nat) :
    ∀ cur : TokenNode,
      (∀ e ∈ instruction_map, cstr cur.value = cstr e.instruction → e.memory_value % 2 ^ 32 = v) →
      (∃ e ∈ instruction_map, cstr cur.value = cstr e.instruction) →
      lookupInstruction instruction_map cur = { cur with memory := v } := by
  induction instruction_map with
  | nil => intro cur _ h; simp at h
  | cons e es ih =>
    intro cur hv hex
    have hrest : ∀ t : TokenNode, t.value = cur.value →
        (∃ e1 ∈ es, cstr t.value = cstr e1.instruction) →
        lookupInstruction es t = { t with memory := v } := by
      intro t ht hex1
      apply ih t _ hex1
      intro e1 h1 h2
      rw [ht] at h2
      exact hv e1 (List.mem_cons_of_mem _ h1) h2
    unfold lookupInstruction
    rw [List.foldl_cons]
    by_cases hm : cstr cur.value = cstr e.instruction
    · rw [if_pos hm, hv e (List.mem_cons_self _ _) hm]
      by_cases hlater : ∃ e1 ∈ es, cstr cur.value = cstr e1.instruction
      · exact hrest { cur with memory := v } rfl hlater
      · have hno : ∀ e1 ∈ es, cstr cur.value ≠ cstr e1.instruction := by
          intro e1 h1 h2
          exact hlater ⟨e1, h1, h2⟩
        exact lookupInstruction_no_match es { cur with memory := v } hno
    · rw [if_neg hm]
      obtain ⟨e1, h1, h2⟩ := hex
      rcases List.mem_cons.1 h1 with h3 | h3
      · rw [h3] at h2
        exact absurd h2 hm
      · exact hrest cur rfl ⟨e1, h3, h2⟩

/-- C12: for every `TOKEN_INSTRUCTION` token reached by pass two that comes from
the scanner (`memory` 0, no null byte in its text) and every instruction table
(a mapping: entries with the same mnemonic carry the same opcode, and opcodes
fit 32 bits): if the mnemonic of a table entry is byte for byte the token's
text, `memory` becomes that entry's opcode; if no entry is, also when one
differs only in letter case, `memory` stays 0. -/
theorem instruction_memory_is_opcode (instruction_map : List InstructionEntry)
    (MAX_REGISTER : Nat) (pre : TokenList) (cur : TokenNode) (post : TokenList)
    (hpre : ∀ t ∈ pre, t.type ≠ TOKEN_INVALID) (hty : cur.type = TOKEN_INSTRUCTION)
    (hmem : cur.memory = 0) (htext : ∀ c ∈ cur.value, c ≠ 0)
    (hfit : ∀ e ∈ instruction_map, e.memory_value < 2 ^ 32)
    (hmapping : ∀ e1 ∈ instruction_map, ∀ e2 ∈ instruction_map,
      cstr e1.instruction = cstr e2.instruction → e1.memory_value = e2.memory_value) :
    (∀ e ∈ instruction_map, cstr e.instruction = cur.value →
      (SetMemoryTokenList instruction_map MAX_REGISTER (pre ++ cur :: post)).1[pre.length]?
        = some { cur with memory := e.memory_value }) ∧
    ((∀ e ∈ instruction_map, cstr e.instruction ≠ cur.value) →
      (SetMemoryTokenList instruction_map MAX_REGISTER (pre ++ cur :: post)).1[pre.length]?
        = some { cur with memory := 0 }) := by
  have hat := SetMemoryTokenList_at instruction_map MAX_REGISTER pre cur post hpre
    (by rw [hty]; decide) (by rw [hty]; decide)
  rw [resolveToken_instruction instruction_map MAX_REGISTER cur hty] at hat
  have hc : cstr cur.value = cur.value := cstr_of_nonzero cur.value htext
  constructor
  · intro e he hmatch
    rw [hat, lookupInstruction_match instruction_map e.memory_value cur ?_
      ⟨e, he, by rw [hc, hmatch]⟩]
    intro e1 h1 h2
    rw [Nat.mod_eq_of_lt (hfit e1 h1)]
    exact hmapping e1 h1 e he (by rw [← h2, hc, hmatch])
  · intro hno
    rw [hat, lookupInstruction_no_match instruction_map cur
      (fun e he h => hno e he (by rw [← h, hc]))]
    congr 1
    cases cur
    simp only at hmem
    simp [hmem]

theorem instruction_memory_is_opcode_witness :
    (SetMemoryTokenList sampleMap 31
        ([⟨TOKEN_NEWLINE, [10], 1, 0⟩] ++ ⟨TOKEN_INSTRUCTION, bytes "add", 3, 0⟩ ::
          [⟨TOKEN_INSTRUCTION, bytes "ADD", 3, 0⟩])).1[1]?
      = some ⟨TOKEN_INSTRUCTION, bytes "add", 3, 2⟩ ∧
    (SetMemoryTokenList sampleMap 31
        ([⟨TOKEN_NEWLINE, [10], 1, 0⟩, ⟨TOKEN_INSTRUCTION, bytes "add", 3, 0⟩] ++
          ⟨TOKEN_INSTRUCTION, bytes "ADD", 3, 0⟩ :: [])).1[2]?
      = some ⟨TOKEN_INSTRUCTION, bytes "ADD", 3, 0⟩ :=
  ⟨(instruction_memory_is_opcode sampleMap 31 [⟨TOKEN_NEWLINE, [10], 1, 0⟩]
      ⟨TOKEN_INSTRUCTION, bytes "add", 3, 0⟩ [⟨TOKEN_INSTRUCTION, bytes "ADD", 3, 0⟩]
      (by decide) rfl rfl (by decide) (by decide) (by decide)).1
      ⟨bytes "add", 2⟩ (by decide) (by decide),
   (instruction_memory_is_opcode sampleMap 31
      [⟨TOKEN_NEWLINE, [10], 1, 0⟩, ⟨TOKEN_INSTRUCTION, bytes "add", 3, 0⟩]
      ⟨TOKEN_INSTRUCTION, bytes "ADD", 3, 0⟩ []
      (by decide) rfl rfl (by decide) (by decide) (by decide)).2 (by decide)⟩

/-! ## The abort at `TOKEN_INVALID` -/

theorem resolveToken_not_unknown (instruction_map : List InstructionEntry) (M : Nat)
    (t : TokenNode) : ∀ d ∈ (resolveToken instruction_map M t).2, d.isUnknownToken = false := by
  intro d hd
  rcases resolveToken_diag instruction_map M t d hd with ⟨_, h⟩ | ⟨_, h⟩
  · unfold resolveImmediate at h
    simp only at h
    split at h
    · simp at h
    · simp only [List.mem_singleton] at h
      rw [h]; rfl
  · rw [h]; rfl

theorem secondPass_not_unknown (instruction_map : List InstructionEntry) (M : Nat)
    (l : TokenList) (h : ∀ t ∈ l, t.type ≠ TOKEN_INVALID) :
    (secondPass instruction_map M l).2.filter (fun d => d.isUnknownToken) = [] := by
  rw [List.filter_eq_nil_iff, secondPass_no_invalid instruction_map M l h]
  intro d hd
  simp only [List.mem_flatten, List.mem_map] at hd
  obtain ⟨ds, ⟨t, _, ht⟩, hmem⟩ := hd
  rw [← ht] at hmem
  simp [resolveToken_not_unknown instruction_map M t d hmem]

theorem secondPass_invalid_head (instruction_map : List InstructionEntry) (M : Nat)
    (inv : TokenNode) (post : TokenList) (hinv : inv.type = TOKEN_INVALID) :
    secondPass instruction_map M (inv :: post)
      = (inv :: post, [Diagnostic.UnknownToken (cstr inv.value)]) := by
  rw [secondPass, if_pos hinv]

/-- C13: if a sequence whose tokens carry `memory` 0 as the scanner leaves them
contains a `TOKEN_INVALID` token, `inv` being the first one, `SetMemoryTokenList`
writes exactly one unknown-token diagnostic, naming the text of `inv`, and stops
pass two there: the tokens before `inv` end up exactly as they do when the
`TOKEN_INVALID` token is taken out of the sequence, `inv` itself is unchanged, and
every `TOKEN_INSTRUCTION`, `TOKEN_IMMEDIATE` and `TOKEN_REGISTER` token after it keeps
`memory` 0. -/
theorem invalid_token_aborts_pass_two (instruction_map : List InstructionEntry)
    (MAX_REGISTER : Nat) (pre : TokenList) (inv : TokenNode) (post : TokenList)
    (hpre : ∀ t ∈ pre, t.type ≠ TOKEN_INVALID) (hinv : inv.type = TOKEN_INVALID)
    (hzero : ∀ t ∈ post, t.memory = 0) :
    (SetMemoryTokenList instruction_map MAX_REGISTER (pre ++ inv :: post)).2.filter
        (fun d => d.isUnknownToken) = [Diagnostic.UnknownToken (cstr inv.value)] ∧
    (SetMemoryTokenList instruction_map MAX_REGISTER (pre ++ inv :: post)).1.take pre.length
      = (SetMemoryTokenList instruction_map MAX_REGISTER (pre ++ post)).1.take pre.length ∧
    (SetMemoryTokenList instruction_map MAX_REGISTER (pre ++ inv :: post)).1[pre.length]?
      = some inv ∧
    ∀ t ∈ (SetMemoryTokenList instruction_map MAX_REGISTER (pre ++ inv :: post)).1.drop
        (pre.length + 1),
      t.type = TOKEN_INSTRUCTION ∨ t.type = TOKEN_IMMEDIATE ∨ t.type = TOKEN_REGISTER →
        t.memory = 0 := by
  obtain ⟨lc1, htok⟩ := SetMemoryTokenList_tokens_append instruction_map MAX_REGISTER pre hpre
  have hlen : (SetMemoryTokenList instruction_map MAX_REGISTER pre).1.length = pre.length :=
    SetMemoryTokenList_length instruction_map MAX_REGISTER pre
  have hlab : inv.type ≠ TOKEN_LABEL_DECLARE := by rw [hinv]; decide
  have hfp : firstPass lc1 (inv :: post)
      = inv :: firstPass (if inv.type = TOKEN_NEWLINE then (lc1 + 1) % 2 ^ 32 else lc1) post := by
    rw [firstPass, if_neg hlab]
  have hrest : (secondPass instruction_map MAX_REGISTER (firstPass lc1 (inv :: post))).1
      = inv :: firstPass (if inv.type = TOKEN_NEWLINE then (lc1 + 1) % 2 ^ 32 else lc1) post := by
    rw [hfp, secondPass_invalid_head instruction_map MAX_REGISTER inv _ hinv]
  refine ⟨?_, ?_, ?_, ?_⟩
  · rw [SetMemoryTokenList_diag_append instruction_map MAX_REGISTER pre _ hpre,
      secondPass_invalid_head instruction_map MAX_REGISTER inv post hinv, List.filter_append,
      secondPass_not_unknown instruction_map MAX_REGISTER pre hpre]
    rfl
  · rw [htok (inv :: post), htok post, List.take_left' hlen, List.take_left' hlen]
  · rw [htok (inv :: post), hrest, ← hlen, List.getElem?_append_right (Nat.le_refl _)]
    simp
  · intro t ht hty
    rw [htok (inv :: post), hrest] at ht
    have hd : ((SetMemoryTokenList instruction_map MAX_REGISTER pre).1 ++
        inv :: firstPass (if inv.type = TOKEN_NEWLINE then (lc1 + 1) % 2 ^ 32 else lc1) post).drop
          (pre.length + 1)
        = firstPass (if inv.type = TOKEN_NEWLINE then (lc1 + 1) % 2 ^ 32 else lc1) post := by
      rw [← hlen, ← List.drop_drop, List.drop_left]
      rfl
    rw [hd] at ht
    have hnl : t.type ≠ TOKEN_LABEL_DECLARE := by
      rcases hty with h | h | h <;> rw [h] <;> decide
    exact hzero t (firstPass_mem post _ t ht hnl)

theorem invalid_token_aborts_pass_two_witness :
    AssembleSource sampleMap 31 (bytes "@\n" ++ [0])
      = some ([⟨TOKEN_INVALID, bytes "@", 1, 0⟩, ⟨TOKEN_NEWLINE, [10], 1, 0⟩,
          ⟨TOKEN_EOF, [0], 1, 0⟩], [Diagnostic.UnknownToken (bytes "@")]) ∧
    AssembleSource sampleMap 31 (bytes "add r0 @ r1 @ 7" ++ [0])
      = some ([⟨TOKEN_INSTRUCTION, bytes "add", 3, 2⟩, ⟨TOKEN_REGISTER, bytes "r0", 2, 0⟩,
          ⟨TOKEN_INVALID, bytes "@", 1, 0⟩, ⟨TOKEN_REGISTER, bytes "r1", 2, 0⟩,
          ⟨TOKEN_INVALID, bytes "@", 1, 0⟩, ⟨TOKEN_IMMEDIATE, bytes "7", 1, 0⟩,
          ⟨TOKEN_EOF, [0], 1, 0⟩], [Diagnostic.UnknownToken (bytes "@")]) ∧
    (SetMemoryTokenList sampleMap 31 ([] ++ ⟨TOKEN_INVALID, bytes "@", 1, 0⟩ ::
        [⟨TOKEN_NEWLINE, [10], 1, 0⟩, ⟨TOKEN_EOF, [0], 1, 0⟩])).2.filter
        (fun d => d.isUnknownToken) = [Diagnostic.UnknownToken (cstr (bytes "@"))] :=
  ⟨by decide, by decide,
    (invalid_token_aborts_pass_two sampleMap 31 [] ⟨TOKEN_INVALID, bytes "@", 1, 0⟩
      [⟨TOKEN_NEWLINE, [10], 1, 0⟩, ⟨TOKEN_EOF, [0], 1, 0⟩] (by decide) rfl (by decide)).1⟩

/-! ## Malformed numbers do not stop the resolver -/

/-- A token for which the loop body writes a diagnostic is left as it is. -/
theorem resolveToken_diag_keeps (instruction_map : List InstructionEntry) (M : Nat)
    (t : TokenNode) (h : (resolveToken instruction_map M t).2 ≠ []) :
    (resolveToken instruction_map M t).1 = t := by
  by_cases h1 : t.type = TOKEN_INSTRUCTION
  · rw [resolveToken_instruction instruction_map M t h1] at h
    exact absurd rfl h
  · by_cases h2 : t.type = TOKEN_IMMEDIATE
    · rw [resolveToken_immediate instruction_map M t h2] at h ⊢
      unfold resolveImmediate at h ⊢
      simp only at h ⊢
      split
      · next hc => rw [if_pos hc] at h; exact absurd rfl h
      · rfl
    · by_cases h3 : t.type = TOKEN_REGISTER
      · rw [resolveToken_register instruction_map M t h3] at h ⊢
        unfold resolveRegister at h ⊢
        simp only at h ⊢
        split
        · next hc => rw [if_pos hc] at h; exact absurd rfl h
        · rfl
      · rw [resolveToken_other instruction_map M t h1 h2 h3]

/-- C14: malformed-number diagnostics are not fatal.  In a sequence with no
`TOKEN_INVALID`, an immediate or register token `cur` that comes from the scanner
(`memory` 0) and triggers a diagnostic keeps `memory` 0; every token before and
after it ends up as it does when `cur` is replaced by any other token `cur1` of
the same kind (a well-formed one in particular); and pass two visits every
token: the result is the loop body applied to each token, `stderr` the
diagnostics of each token in order. -/
theorem malformed_number_is_not_fatal (instruction_map : List InstructionEntry)
    (MAX_REGISTER : Nat) (pre : TokenList) (cur : TokenNode) (post : TokenList)
    (hpre : ∀ t ∈ pre, t.type ≠ TOKEN_INVALID) (hpost : ∀ t ∈ post, t.type ≠ TOKEN_INVALID)
    (hty : cur.type = TOKEN_IMMEDIATE ∨ cur.type = TOKEN_REGISTER) (hmem : cur.memory = 0)
    (hdiag : (resolveToken instruction_map MAX_REGISTER cur).2 ≠ []) :
    (∃ t, (SetMemoryTokenList instruction_map MAX_REGISTER (pre ++ cur :: post)).1[pre.length]?
        = some t ∧ t.memory = 0) ∧
    (∀ cur1 : TokenNode, cur1.type = cur.type →
      (SetMemoryTokenList instruction_map MAX_REGISTER (pre ++ cur1 :: post)).1.take pre.length
        = (SetMemoryTokenList instruction_map MAX_REGISTER (pre ++ cur :: post)).1.take pre.length ∧
      (SetMemoryTokenList instruction_map MAX_REGISTER (pre ++ cur1 :: post)).1.drop
          (pre.length + 1)
        = (SetMemoryTokenList instruction_map MAX_REGISTER (pre ++ cur :: post)).1.drop
          (pre.length + 1)) ∧
    (SetMemoryTokenList instruction_map MAX_REGISTER (pre ++ cur :: post)).1
      = (firstPass 0 (pre ++ cur :: post)).map
          (fun t => (resolveToken instruction_map MAX_REGISTER t).1) ∧
    (SetMemoryTokenList instruction_map MAX_REGISTER (pre ++ cur :: post)).2
      = ((pre ++ cur :: post).map
          (fun t => (resolveToken instruction_map MAX_REGISTER t).2)).flatten := by
  have hninv : cur.type ≠ TOKEN_INVALID := by rcases hty with h | h <;> rw [h] <;> decide
  have hnlab : cur.type ≠ TOKEN_LABEL_DECLARE := by rcases hty with h | h <;> rw [h] <;> decide
  have hnnl : cur.type ≠ TOKEN_NEWLINE := by rcases hty with h | h <;> rw [h] <;> decide
  have hall : ∀ t ∈ pre ++ cur :: post, t.type ≠ TOKEN_INVALID := by
    intro t ht
    rcases List.mem_append.1 ht with h | h
    · exact hpre t h
    · rcases List.mem_cons.1 h with h1 | h1
      · rw [h1]; exact hninv
      · exact hpost t h1
  obtain ⟨lc1, htok⟩ := SetMemoryTokenList_tokens_append instruction_map MAX_REGISTER pre hpre
  have hlen : (SetMemoryTokenList instruction_map MAX_REGISTER pre).1.length = pre.length :=
    SetMemoryTokenList_length instruction_map MAX_REGISTER pre
  have hstep : ∀ u : TokenNode, u.type = cur.type →
      (secondPass instruction_map MAX_REGISTER (firstPass lc1 (u :: post))).1
        = (resolveToken instruction_map MAX_REGISTER u).1
          :: (secondPass instruction_map MAX_REGISTER (firstPass lc1 post)).1 := by
    intro u hu
    rw [firstPass, hu, if_neg hnlab, if_neg hnnl, secondPass, if_neg (by rw [hu]; exact hninv)]
  refine ⟨?_, ?_, ?_, ?_⟩
  · refine ⟨cur, ?_, hmem⟩
    rw [SetMemoryTokenList_at instruction_map MAX_REGISTER pre cur post hpre hninv hnlab,
      resolveToken_diag_keeps instruction_map MAX_REGISTER cur hdiag]
  · intro cur1 h1
    rw [htok (cur1 :: post), htok (cur :: post), hstep cur1 h1, hstep cur rfl]
    constructor
    · rw [List.take_left' hlen, List.take_left' hlen]
    · rw [← hlen, ← List.drop_drop, List.drop_left, ← List.drop_drop, List.drop_left]
      rfl
  · rw [SetMemoryTokenList_eq, secondPass_no_invalid instruction_map MAX_REGISTER _
      (firstPass_no_invalid _ 0 hall)]
  · rw [SetMemoryTokenList_eq, secondPass_firstPass_diag,
      secondPass_no_invalid instruction_map MAX_REGISTER _ hall]

theorem malformed_number_is_not_fatal_witness :
    AssembleSource sampleMap 31 (bytes "x: add r99, 089\nmov r1, 7\ny:" ++ [0])
      = some ([⟨TOKEN_LABEL_DECLARE, bytes "x:", 2, 0⟩, ⟨TOKEN_INSTRUCTION, bytes "add", 3, 2⟩,
          ⟨TOKEN_REGISTER, bytes "r99", 3, 0⟩, ⟨TOKEN_COMMA, bytes ",", 1, 0⟩,
          ⟨TOKEN_IMMEDIATE, bytes "089", 3, 0⟩, ⟨TOKEN_NEWLINE, [10], 1, 0⟩,
          ⟨TOKEN_INSTRUCTION, bytes "mov", 3, 1⟩, ⟨TOKEN_REGISTER, bytes "r1", 2, 1⟩,
          ⟨TOKEN_COMMA, bytes ",", 1, 0⟩, ⟨TOKEN_IMMEDIATE, bytes "7", 1, 7⟩,
          ⟨TOKEN_NEWLINE, [10], 1, 0⟩, ⟨TOKEN_LABEL_DECLARE, bytes "y:", 2, 2⟩,
          ⟨TOKEN_EOF, [0], 1, 0⟩],
        [Diagnostic.InvalidRegister (bytes "r99"), Diagnostic.InvalidImmediate (bytes "89")]) ∧
    ∃ t, (SetMemoryTokenList sampleMap 31
        ([⟨TOKEN_INSTRUCTION, bytes "add", 3, 0⟩] ++ ⟨TOKEN_IMMEDIATE, bytes "089", 3, 0⟩ ::
          [⟨TOKEN_NEWLINE, [10], 1, 0⟩, ⟨TOKEN_IMMEDIATE, bytes "7", 1, 0⟩])).1[1]? = some t ∧
      t.memory = 0 :=
  ⟨by decide,
    (malformed_number_is_not_fatal sampleMap 31 [⟨TOKEN_INSTRUCTION, bytes "add", 3, 0⟩]
      ⟨TOKEN_IMMEDIATE, bytes "089", 3, 0⟩
      [⟨TOKEN_NEWLINE, [10], 1, 0⟩, ⟨TOKEN_IMMEDIATE, bytes "7", 1, 0⟩]
      (by decide) (by decide) (Or.inl rfl) rfl (by decide)).1⟩

/-! ## Tokens of the other kinds -/

theorem secondPass_mem (instruction_map : List InstructionEntry) (M : Nat) (l : TokenList) :
    ∀ t ∈ (secondPass instruction_map M l).1,
      ∃ u ∈ l, t.type = u.type ∧
        (t.type ≠ TOKEN_INSTRUCTION → t.type ≠ TOKEN_IMMEDIATE → t.type ≠ TOKEN_REGISTER →
          t = u) := by
  induction l with
  | nil => intro t ht; simp [secondPass] at ht
  | cons cur rest ih =>
    intro t ht
    rw [secondPass] at ht
    by_cases hinv : cur.type = TOKEN_INVALID
    · rw [if_pos hinv] at ht
      exact ⟨t, ht, rfl, fun _ _ _ => rfl⟩
    · rw [if_neg hinv] at ht
      rcases List.mem_cons.1 ht with h1 | h1
      · have hf := (resolveToken_frame instruction_map M cur).1
        refine ⟨cur, List.mem_cons_self _ _, by rw [h1, hf], ?_⟩
        intro a b c
        rw [h1, hf] at a b c
        rw [h1, resolveToken_other instruction_map M cur a b c]
      · obtain ⟨u, hu, e1, e2⟩ := ih t h1
        exact ⟨u, List.mem_cons_of_mem _ hu, e1, e2⟩

/-- The scanner gives every token `memory` 0 and never the kind
`TOKEN_LABEL_INITIALIZE`. -/
theorem Tokenize_kinds (source : List Nat) (h : 0 ∈ source) :
    ∃ toks, Tokenize source [] = some toks ∧
      ∀ t ∈ toks, t.memory = 0 ∧ t.type ≠ TOKEN_LABEL_INITIALIZE := by
  obtain ⟨s, g, rfl, h0⟩ := split_at_null source h
  have hone : ∀ (pos start e : Nat) (tok : TokenNode), StepAt s g pos start e tok →
      tok.memory = 0 ∧ tok.type ≠ TOKEN_LABEL_INITIALIZE := by
    intro pos start e tok hst
    refine ⟨hst.memory, ?_⟩
    rcases hst.shape with ⟨_, le, _, _, _, _, h6⟩ | ⟨_, _, h3, _⟩ | ⟨_, _, h3, _⟩
    · rcases h6 with ⟨_, h7, _⟩ | ⟨_, _, h7⟩
      · rw [h7]; decide
      · rw [h7]; split <;> decide
    · rw [h3]; decide
    · rw [h3]
      unfold specialType
      split
      · decide
      · split
        · decide
        · split <;> decide
  obtain ⟨toks, ht, hP⟩ := Tokenize_induct s g h0
    (fun _ toks => ∀ t ∈ toks, t.memory = 0 ∧ t.type ≠ TOKEN_LABEL_INITIALIZE)
    (by
      intro pos start tok hst t ht
      simp only [List.mem_singleton] at ht
      rw [ht]; exact hone _ _ _ _ hst)
    (by
      intro pos start e tok toks hst _ hP t ht
      rcases List.mem_cons.1 ht with h1 | h1
      · rw [h1]; exact hone _ _ _ _ hst
      · exact hP t h1)
    []
  exact ⟨toks, by simpa using ht, hP⟩

/-- C15: for every source, after `Tokenize` followed by `SetMemoryTokenList`, every
token of kind `TOKEN_COMMA`, `TOKEN_NEWLINE`, `TOKEN_EOF` or `TOKEN_INVALID` has `memory` 0,
and no token has the kind `TOKEN_LABEL_INITIALIZE`. -/
theorem other_kinds_keep_memory_zero (instruction_map : List InstructionEntry)
    (MAX_REGISTER : Nat) (source : List Nat) (h : 0 ∈ source) :
    ∃ out, AssembleSource instruction_map MAX_REGISTER source = some out ∧
      ∀ t ∈ out.1, t.type ≠ TOKEN_LABEL_INITIALIZE ∧
        (t.type = TOKEN_COMMA ∨ t.type = TOKEN_NEWLINE ∨ t.type = TOKEN_EOF ∨
          t.type = TOKEN_INVALID → t.memory = 0) := by
  obtain ⟨toks, ht, hk⟩ := Tokenize_kinds source h
  refine ⟨SetMemoryTokenList instruction_map MAX_REGISTER toks, by simp [AssembleSource, ht], ?_⟩
  intro t hmem
  rw [SetMemoryTokenList_eq] at hmem
  obtain ⟨u, hu, e1, e2⟩ := secondPass_mem instruction_map MAX_REGISTER _ t hmem
  obtain ⟨w, hw, e3⟩ := firstPass_type toks 0 u hu
  constructor
  · rw [e1, e3]
    exact (hk w hw).2
  · intro hty
    have hteq : t = u := e2 (by rcases hty with h | h | h | h <;> rw [h] <;> decide)
      (by rcases hty with h | h | h | h <;> rw [h] <;> decide)
      (by rcases hty with h | h | h | h <;> rw [h] <;> decide)
    have hul : u.type ≠ TOKEN_LABEL_DECLARE := by
      rw [← e1]
      rcases hty with h | h | h | h <;> rw [h] <;> decide
    rw [hteq]
    exact (hk u (firstPass_mem toks 0 u hu hul)).1

theorem other_kinds_keep_memory_zero_witness :
    0 ∈ bytes "a: mov r1, 5\n@" ++ [0] ∧
    ∃ out, AssembleSource sampleMap 31 (bytes "a: mov r1, 5\n@" ++ [0]) = some out ∧
      ∀ t ∈ out.1, t.type ≠ TOKEN_LABEL_INITIALIZE ∧
        (t.type = TOKEN_COMMA ∨ t.type = TOKEN_NEWLINE ∨ t.type = TOKEN_EOF ∨
          t.type = TOKEN_INVALID → t.memory = 0) :=
  ⟨by decide, other_kinds_keep_memory_zero sampleMap 31 _ (by decide)⟩

/-! ## The resolver's frame -/

/-- Copying from a buffer that holds a null at or after the start never leaves
the buffer. -/
theorem strncpy_terminated (buf : List Nat) :
    ∀ (n off i : Nat), off ≤ i → buf[i]? = some 0 → ∃ r, strncpy buf off n = some r := by
  intro n
  induction n with
  | zero => intro off i _ _; exact ⟨[], by simp [strncpy]⟩
  | succ n ih =>
    intro off i hi hz
    have hlt : i < buf.length := by
      rcases Nat.lt_or_ge i buf.length with h | h
      · exact h
      · rw [List.getElem?_eq_none h] at hz
        exact absurd hz (by simp)
    have hoff : off < buf.length := by omega
    rw [strncpy, List.getElem?_eq_getElem hoff]
    simp only
    by_cases hc : buf[off] = 0
    · exact ⟨_, by rw [if_pos hc]⟩
    · rw [if_neg hc]
      have hne : off ≠ i := by
        intro h
        subst h
        rw [List.getElem?_eq_getElem hoff] at hz
        exact hc (by simpa using hz)
      obtain ⟨r, hr⟩ := ih (off + 1) i (by omega) hz
      exact ⟨_, by rw [hr]; rfl⟩

theorem labelEntry_some (cur : TokenNode) (lc : Nat) (h : 1 ≤ cur.length) :
    ∃ entry, labelEntry cur lc = some entry := by
  have hz : (cur.value ++ [0])[cur.value.length]? = some 0 := by
    rw [List.getElem?_append_right (Nat.le_refl _)]
    simp
  obtain ⟨r, hr⟩ := strncpy_terminated (cur.value ++ [0]) (cur.length - 1) 0 cur.value.length
    (Nat.zero_le _) hz
  have hne : cur.length ≠ 0 := by omega
  exact ⟨_, by rw [labelEntry, if_neg hne, InitializeTokenNode, hr]; rfl⟩

/-- The first pass builds `label_list` whenever every label declaration has at
least one byte. -/
theorem firstPassLabels_some (l : TokenList)
    (h : ∀ t ∈ l, t.type = TOKEN_LABEL_DECLARE → 1 ≤ t.length) :
    ∀ lc, ∃ labels, firstPassLabels lc l = some labels := by
  induction l with
  | nil => intro lc; exact ⟨[], rfl⟩
  | cons cur rest ih =>
    intro lc
    have ih1 := ih (fun t ht => h t (List.mem_cons_of_mem _ ht))
    rw [firstPassLabels]
    by_cases hl : cur.type = TOKEN_LABEL_DECLARE
    · rw [if_pos hl]
      obtain ⟨entry, he⟩ := labelEntry_some cur
        (if cur.type = TOKEN_NEWLINE then (lc + 1) % 2 ^ 32 else lc)
        (h cur (List.mem_cons_self _ _) hl)
      obtain ⟨entries, hes⟩ := ih1 (if cur.type = TOKEN_NEWLINE then (lc + 1) % 2 ^ 32 else lc)
      exact ⟨entry :: entries, by rw [he, hes]⟩
    · rw [if_neg hl]
      exact ih1 _

/-- The call of `SetMemoryTokenList` goes through on every sequence whose label
declarations have at least one byte, with the result of the model without
`label_list`. -/
theorem SetMemoryTokenListRun_eq (instruction_map : List InstructionEntry) (M : Nat)
    (l : TokenList) (h : ∀ t ∈ l, t.type = TOKEN_LABEL_DECLARE → 1 ≤ t.length) :
    SetMemoryTokenListRun instruction_map M l = some (SetMemoryTokenList instruction_map M l) := by
  cases l with
  | nil => rfl
  | cons a as =>
    obtain ⟨labels, hl⟩ := firstPassLabels_some (a :: as) h 0
    rw [SetMemoryTokenListRun, hl]

/-- Every label declaration the scanner makes has at least two bytes, so
`SetMemoryTokenList` goes through on every sequence `Tokenize` returns. -/
theorem Tokenize_label_length (source : List Nat) (h : 0 ∈ source) :
    ∃ toks, Tokenize source [] = some toks ∧
      (∀ t ∈ toks, t.type = TOKEN_LABEL_DECLARE → 2 ≤ t.length) ∧
      ∀ (instruction_map : List InstructionEntry) (M : Nat),
        SetMemoryTokenListRun instruction_map M toks
          = some (SetMemoryTokenList instruction_map M toks) := by
  obtain ⟨s, g, rfl, h0⟩ := split_at_null source h
  have hone : ∀ (pos start e : Nat) (tok : TokenNode), StepAt s g pos start e tok →
      tok.type = TOKEN_LABEL_DECLARE → 2 ≤ tok.length := by
    intro pos start e tok hst hty
    rw [hst.length]
    rcases hst.shape with ⟨_, le, h1, _, _, _, h6⟩ | ⟨_, _, h3, _⟩ | ⟨_, _, h3, _⟩
    · rcases h6 with ⟨_, _, h7⟩ | ⟨_, _, h7⟩
      · omega
      · rw [h7] at hty
        split at hty <;> exact absurd hty (by decide)
    · rw [h3] at hty; exact absurd hty (by decide)
    · rw [h3] at hty
      unfold specialType at hty
      split at hty
      · exact absurd hty (by decide)
      · split at hty
        · exact absurd hty (by decide)
        · split at hty <;> exact absurd hty (by decide)
  obtain ⟨toks, ht, hP⟩ := Tokenize_induct s g h0
    (fun _ toks => ∀ t ∈ toks, t.type = TOKEN_LABEL_DECLARE → 2 ≤ t.length)
    (by
      intro pos start tok hst t ht
      simp only [List.mem_singleton] at ht
      rw [ht]; exact hone _ _ _ _ hst)
    (by
      intro pos start e tok toks hst _ hP t ht
      rcases List.mem_cons.1 ht with h1 | h1
      · rw [h1]; exact hone _ _ _ _ hst
      · exact hP t h1)
    []
  refine ⟨toks, by simpa using ht, hP, ?_⟩
  intro instruction_map M
  exact SetMemoryTokenListRun_eq instruction_map M toks
    (fun t ht hty => Nat.le_of_succ_le (hP t ht hty))

theorem mem_slice (s : List Nat) :
    ∀ (k a b i : Nat), b - a = k → a ≤ i → i < b → b ≤ s.length → byteAt s i ∈ slice s a b := by
  intro k
  induction k with
  | zero => intro a b i hk h1 h2 _; omega
  | succ k ih =>
    intro a b i hk h1 h2 hb
    rw [slice_cons s a b (by omega) (by omega)]
    rcases Nat.eq_or_lt_of_le h1 with h | h
    · rw [h]; exact List.mem_cons_self _ _
    · exact List.mem_cons_of_mem _ (ih (a + 1) b i (by omega) (by omega) h2 hb)

/-- The place where a run of bytes with a property ends is determined. -/
theorem run_end_unique (p : Nat → Bool) (s : List Nat) (a e1 e2 : Nat)
    (h1 : a ≤ e1) (h2 : a ≤ e2) (l1 : e1 ≤ s.length) (l2 : e2 ≤ s.length)
    (r1 : ∀ c ∈ slice s a e1, p c = true) (r2 : ∀ c ∈ slice s a e2, p c = true)
    (f1 : p (byteAt s e1) = false) (f2 : p (byteAt s e2) = false) : e1 = e2 := by
  rcases Nat.lt_trichotomy e1 e2 with h | h | h
  · have := r2 _ (mem_slice s _ a e2 e1 rfl h1 h l2)
    rw [f1] at this
    exact absurd this (by decide)
  · exact h
  · have := r1 _ (mem_slice s _ a e1 e2 rfl h2 h l1)
    rw [f2] at this
    exact absurd this (by decide)

/-- One step of the scanner is determined by the bytes before the null: what
follows the null in the buffer plays no part. -/
theorem StepAt_unique {s g1 g2 : List Nat} {pos start1 start2 e1 e2 : Nat}
    {tok1 tok2 : TokenNode} (h1 : StepAt s g1 pos start1 e1 tok1)
    (h2 : StepAt s g2 pos start2 e2 tok2) : start1 = start2 ∧ e1 = e2 ∧ tok1 = tok2 := by
  have hs : start1 = start2 :=
    run_end_unique isSkipped s pos start1 start2 h1.le_start h2.le_start h1.start_le h2.start_le
      h1.skipped h2.skipped h1.first h2.first
  subst hs
  have hte : e1 = e2 ∧ tok1.type = tok2.type := by
    rcases h1.shape with ⟨a1, le1, b1, c1, d1, f1, k1⟩ | ⟨a1, b1, c1, d1, f1, k1⟩ | ⟨a1, b1, c1, d1⟩
    · rcases h2.shape with ⟨_, le2, b2, c2, d2, f2, k2⟩ | ⟨a2, _⟩ | ⟨a2, _⟩
      · have hle : le1 = le2 :=
          run_end_unique isWordByte s (start1 + 1) le1 le2 b1 b2 c1 c2 d1 d2 f1 f2
        subst hle
        rcases k1 with ⟨x1, y1, z1⟩ | ⟨x1, y1, z1⟩
        · rcases k2 with ⟨x2, y2, z2⟩ | ⟨x2, y2, z2⟩
          · exact ⟨by omega, by rw [y1, y2]⟩
          · exact absurd x1 x2
        · rcases k2 with ⟨x2, y2, z2⟩ | ⟨x2, y2, z2⟩
          · exact absurd x2 x1
          · exact ⟨by omega, by rw [z1, z2]⟩
      · rw [a1] at a2; exact absurd a2 (by decide)
      · rw [a1] at a2; exact absurd a2 (by decide)
    · rcases h2.shape with ⟨a2, _⟩ | ⟨_, _, c2, d2, f2, k2⟩ | ⟨_, b2, _⟩
      · rw [a1] at a2; exact absurd a2 (by decide)
      · exact ⟨run_end_unique isdigit s start1 e1 e2 (Nat.le_of_lt h1.lt_end)
          (Nat.le_of_lt h2.lt_end) d1 d2 f1 f2 k1 k2, by rw [c1, c2]⟩
      · rw [b1] at b2; exact absurd b2 (by decide)
    · rcases h2.shape with ⟨a2, _⟩ | ⟨_, b2, _⟩ | ⟨_, _, c2, d2⟩
      · rw [a1] at a2; exact absurd a2 (by decide)
      · rw [b1] at b2; exact absurd b2 (by decide)
      · exact ⟨by omega, by rw [c1, c2]⟩
  obtain ⟨he, hty⟩ := hte
  subst he
  refine ⟨rfl, rfl, ?_⟩
  have hv := h1.value.trans h2.value.symm
  have hl := h1.length.trans h2.length.symm
  have hm := h1.memory.trans h2.memory.symm
  cases tok1
  cases tok2
  simp only at hty hv hl hm
  simp [hty, hv, hl, hm]

theorem ParseToken_indep (s g1 g2 : List Nat) (h0 : ∀ c ∈ s, c ≠ 0) (list : TokenList)
    (pos : Nat) (hpos : pos ≤ s.length) :
    ParseToken (s ++ 0 :: g1) list pos = ParseToken (s ++ 0 :: g2) list pos := by
  obtain ⟨start1, e1, tok1, hp1, hst1⟩ := ParseToken_spec s g1 h0 list pos hpos
  obtain ⟨start2, e2, tok2, hp2, hst2⟩ := ParseToken_spec s g2 h0 list pos hpos
  obtain ⟨_, he, ht⟩ := StepAt_unique hst1 hst2
  rw [hp1, hp2, he, ht]

theorem TokenizeLoop_exit (source : List Nat) (n fuel : Nat) (list : TokenList) :
    TokenizeLoop source (n + 1) fuel list (n + 1) = some list := by
  cases fuel <;> simp [TokenizeLoop]

theorem TokenizeLoop_indep (s g1 g2 : List Nat) (h0 : ∀ c ∈ s, c ≠ 0) :
    ∀ (fuel pos : Nat) (list : TokenList), pos ≤ s.length →
      TokenizeLoop (s ++ 0 :: g1) (s.length + 1) fuel list pos
        = TokenizeLoop (s ++ 0 :: g2) (s.length + 1) fuel list pos := by
  intro fuel
  induction fuel with
  | zero => intro pos list _; simp [TokenizeLoop]
  | succ fuel ih =>
    intro pos list hpos
    obtain ⟨start, e, tok, hp, hst⟩ := ParseToken_spec s g1 h0 list pos hpos
    have hp2 := ParseToken_indep s g1 g2 h0 list pos hpos
    rw [hp] at hp2
    have hlt : pos < s.length + 1 := by omega
    rw [TokenizeLoop, TokenizeLoop, if_pos hlt, if_pos hlt, hp, ← hp2]
    simp only
    rcases Nat.lt_or_ge e (s.length + 1) with he | he
    · exact ih e _ (by omega)
    · have hee : e = s.length + 1 := by have := hst.end_le; omega
      rw [hee, TokenizeLoop_exit, TokenizeLoop_exit]

theorem TokenizeLoop_eq_cursor (source : List Nat) (sl : Nat) :
    ∀ (fuel : Nat) (list : TokenList) (pos : Nat),
      TokenizeLoop source sl fuel list pos
        = (TokenizeLoopCursor source sl fuel list pos).map Prod.fst := by
  intro fuel
  induction fuel with
  | zero =>
    intro list pos
    simp only [TokenizeLoop, TokenizeLoopCursor]
    split <;> rfl
  | succ fuel ih =>
    intro list pos
    simp only [TokenizeLoop, TokenizeLoopCursor]
    split
    · cases hpt : ParseToken source list pos with
      | none => rfl
      | some r => exact ih r.1 r.2
    · rfl

theorem TokenizeLoopCursor_spec (s g : List Nat) (h0 : ∀ c ∈ s, c ≠ 0) :
    ∀ (fuel pos : Nat) (list : TokenList), pos ≤ s.length → s.length + 1 - pos ≤ fuel →
      ∃ toks, TokenizeLoopCursor (s ++ 0 :: g) (s.length + 1) fuel list pos
        = some (toks, s.length + 1) := by
  intro fuel
  induction fuel with
  | zero => intro pos list h1 h2; omega
  | succ fuel ih =>
    intro pos list hpos hfuel
    obtain ⟨start, e, tok, hp, hst⟩ := ParseToken_spec s g h0 list pos hpos
    have hlt : pos < s.length + 1 := by omega
    rw [TokenizeLoopCursor, if_pos hlt, hp]
    simp only
    rcases Nat.lt_or_ge e (s.length + 1) with he | he
    · exact ih e _ (by omega) (by have := hst.le_start; have := hst.lt_end; omega)
    · have hee : e = s.length + 1 := by have := hst.end_le; omega
      refine ⟨list ++ [tok], ?_⟩
      rw [hee]
      cases fuel <;> simp [TokenizeLoopCursor]

/-- C18: for every null-terminated source of length `n`, in a buffer shorter
than `2 ^ 31` bytes so that `n + 1` and every cursor value fit an `int`, and every
cursor position `p ≤ n`, `ParseToken` appends exactly one token, of length at
least 1, and returns a position `p1` with `p < p1 ≤ n + 1`.  Hence `Tokenize`
ends, its cursor then being `n + 1`, one past the null byte; and it reads no
byte beyond the null: the step and the whole run give the same result on the
buffer cut right after the null, where any such read would be out of
bounds. -/
theorem scanner_progress_and_termination (source : List Nat) (h : 0 ∈ source)
    (hlen : source.length < 2 ^ 31) :
    ∃ n, strlen source = some n ∧ n + 1 < 2 ^ 31 ∧
      (∀ (p : Nat) (list : TokenList), p ≤ n →
        ∃ tok p1, ParseToken source list p = some (list ++ [tok], p1) ∧
          1 ≤ tok.length ∧ p < p1 ∧ p1 ≤ n + 1 ∧
          ParseToken (cstr source ++ [0]) list p = some (list ++ [tok], p1)) ∧
      ∃ toks, TokenizeCursor source [] = some (toks, n + 1) ∧
        Tokenize source [] = some toks ∧ Tokenize (cstr source ++ [0]) [] = some toks := by
  obtain ⟨s, g, rfl, h0⟩ := split_at_null source h
  refine ⟨s.length, strlen_buf s g h0, ?_, ?_, ?_⟩
  · simp only [List.length_append, List.length_cons] at hlen
    omega
  · intro p list hp
    obtain ⟨start, e, tok, hpt, hst⟩ := ParseToken_spec s g h0 list p hp
    refine ⟨tok, e, hpt, ?_, ?_, hst.end_le, ?_⟩
    · rw [hst.length]
      have := hst.lt_end
      omega
    · have := hst.le_start
      have := hst.lt_end
      omega
    · rw [cstr_buf s g h0, ← hpt]
      exact ParseToken_indep s [] g h0 list p hp
  · obtain ⟨toks, ht⟩ := TokenizeLoopCursor_spec s g h0 (s.length + 1) 0 [] (Nat.zero_le _)
      (Nat.le_refl _)
    have hT : Tokenize (s ++ 0 :: g) [] = some toks := by
      unfold Tokenize
      rw [strlen_buf s g h0]
      simp only
      rw [TokenizeLoop_eq_cursor, ht]
      rfl
    refine ⟨toks, ?_, hT, ?_⟩
    · unfold TokenizeCursor
      rw [strlen_buf s g h0]
      exact ht
    · rw [cstr_buf s g h0, ← hT]
      unfold Tokenize
      rw [strlen_buf s g h0, strlen_buf s [] h0]
      exact TokenizeLoop_indep s [] g h0 (s.length + 1) 0 [] (Nat.zero_le _)

theorem scanner_progress_and_termination_witness :
    (0 ∈ bytes "a: r1\n" ++ [0, 7, 7] ∧ (bytes "a: r1\n" ++ [0, 7, 7]).length < 2 ^ 31) ∧
    TokenizeCursor (bytes "a: r1\n" ++ [0, 7, 7]) []
      = some ([⟨TOKEN_LABEL_DECLARE, bytes "a:", 2, 0⟩, ⟨TOKEN_REGISTER, bytes "r1", 2, 0⟩,
          ⟨TOKEN_NEWLINE, [10], 1, 0⟩, ⟨TOKEN_EOF, [0], 1, 0⟩], 7) ∧
    ∃ n, strlen (bytes "a: r1\n" ++ [0, 7, 7]) = some n ∧ n + 1 < 2 ^ 31 ∧
      (∀ (p : Nat) (list : TokenList), p ≤ n →
        ∃ tok p1, ParseToken (bytes "a: r1\n" ++ [0, 7, 7]) list p = some (list ++ [tok], p1) ∧
          1 ≤ tok.length ∧ p < p1 ∧ p1 ≤ n + 1 ∧
          ParseToken (cstr (bytes "a: r1\n" ++ [0, 7, 7]) ++ [0]) list p
            = some (list ++ [tok], p1)) ∧
      ∃ toks, TokenizeCursor (bytes "a: r1\n" ++ [0, 7, 7]) [] = some (toks, n + 1) ∧
        Tokenize (bytes "a: r1\n" ++ [0, 7, 7]) [] = some toks ∧
        Tokenize (cstr (bytes "a: r1\n" ++ [0, 7, 7]) ++ [0]) [] = some toks :=
  ⟨⟨by decide, by decide⟩, by decide,
    scanner_progress_and_termination _ (by decide) (by decide)⟩

/-! ## The text of the diagnostics -/

/-- C17, the code at the failing input: for `mov r1, 089` the resolver writes the
invalid-immediate line with the unread rest `89` of the lexeme, and the lexeme
`089` does not occur in the message; the invalid-register and the unknown-token
lines of `r99` and `@` do contain the token's text. -/
theorem immediate_diagnostic_names_rest_only :
    AssembleSource sampleMap 31 (bytes "mov r1, 089\n" ++ [0])
      = some ([⟨TOKEN_INSTRUCTION, bytes "mov", 3, 1⟩, ⟨TOKEN_REGISTER, bytes "r1", 2, 1⟩,
          ⟨TOKEN_COMMA, bytes ",", 1, 0⟩, ⟨TOKEN_IMMEDIATE, bytes "089", 3, 0⟩,
          ⟨TOKEN_NEWLINE, [10], 1, 0⟩, ⟨TOKEN_EOF, [0], 1, 0⟩],
        [Diagnostic.InvalidImmediate (bytes "89")]) ∧
    (Diagnostic.InvalidImmediate (bytes "89")).render
      = bytes "[-] Error: Invalid immediate value '89'\n" ∧
    ¬ List.IsInfix (bytes "089") (Diagnostic.InvalidImmediate (bytes "89")).render ∧
    (AssembleSource sampleMap 31 (bytes "r99 @" ++ [0])).map (fun out => out.2)
      = some [Diagnostic.InvalidRegister (bytes "r99"), Diagnostic.UnknownToken (bytes "@")] ∧
    List.IsInfix (bytes "r99") (Diagnostic.InvalidRegister (bytes "r99")).render ∧
    List.IsInfix (bytes "@") (Diagnostic.UnknownToken (bytes "@")).render := by
  decide

/-! ## Immediates with a leading zero -/

theorem strtoulDigits_any (base : Nat) (ds : List Nat) :
    ∀ acc : Nat, (strtoulDigits base ds acc true).2.2 = true := by
  induction ds with
  | nil => intro acc; rfl
  | cons c cs ih =>
    intro acc
    rw [strtoulDigits]
    split
    · split
      · exact ih _
      · rfl
    · rfl

theorem strtoulDigits_stops (ds : List Nat) :
    ∀ (acc : Nat) (any : Bool), (∀ c ∈ ds, isdigit c = true) → (∃ c ∈ ds, 56 ≤ c) →
      (strtoulDigits 8 ds acc any).2.1 ≠ [] := by
  induction ds with
  | nil => intro acc any _ h; simp at h
  | cons c cs ih =>
    intro acc any hdig hex
    have hc := hdig c (List.mem_cons_self _ _)
    have hv : digitVal c = some (c - 48) := by simp [digitVal, hc]
    rw [strtoulDigits, hv]
    simp only
    by_cases h8 : c - 48 < 8
    · rw [if_pos h8]
      apply ih _ _ (fun d hd => hdig d (List.mem_cons_of_mem _ hd))
      obtain ⟨d, hd, hd56⟩ := hex
      rcases List.mem_cons.1 hd with h1 | h1
      · rw [h1] at hd56
        omega
      · exact ⟨d, h1, hd56⟩
    · rw [if_neg h8]
      simp

/-- On a digit run that starts with `0` and has a digit `8` or `9`, `strtoul`
stops before the end of the string. -/
theorem strtoul_bad_octal (lex : List Nat) (hdig : ∀ c ∈ lex, isdigit c = true)
    (hhead : lex.head? = some 48) (hbad : ∃ c ∈ lex, c = 56 ∨ c = 57) :
    (strtoul lex).2 ≠ [] := by
  cases lex with
  | nil => simp at hhead
  | cons c cs =>
    have hc48 : c = 48 := by simpa using hhead
    subst hc48
    have hhex : hasHexPrefix (48 :: cs) = false := by
      cases cs with
      | nil => rfl
      | cons x xs =>
        have hx := (isdigit_iff x).1 (hdig x (by simp))
        cases xs with
        | nil => rfl
        | cons y ys =>
          have h1 : (x == 120) = false := by simp only [beq_eq_false_iff_ne]; omega
          have h2 : (x == 88) = false := by simp only [beq_eq_false_iff_ne]; omega
          simp [hasHexPrefix, h1, h2]
    have hsp : isspace 48 = false := by decide
    have hstep : strtoulDigits 8 (48 :: cs) 0 false = strtoulDigits 8 cs 0 true := by
      rw [strtoulDigits]
      rfl
    have hr2 : (strtoulDigits 8 (48 :: cs) 0 false).2.2 = true := by
      rw [hstep]; exact strtoulDigits_any 8 cs 0
    have hr1 : (strtoulDigits 8 (48 :: cs) 0 false).2.1 ≠ [] := by
      apply strtoulDigits_stops _ _ _ hdig
      obtain ⟨d, hd, h⟩ := hbad
      exact ⟨d, hd, by omega⟩
    have h45 : ((some 48 : Option Nat) == some 45) = false := by decide
    have h43 : ((some 48 : Option Nat) == some 43) = false := by decide
    have h48 : ((some 48 : Option Nat) == some 48) = true := by decide
    unfold strtoul
    simp only [List.dropWhile_cons, hsp, Bool.false_eq_true, if_false, List.head?_cons,
      h45, h43, h48, Bool.or_self, hhex, if_true, hr2]
    exact hr1

/-- C19: for every `TOKEN_IMMEDIATE` token the scanner can produce (a non-empty run
of decimal digits) that pass two reaches, `SetMemoryTokenList` writes an
invalid-immediate diagnostic for it if and only if the lexeme starts with `'0'`
and contains a digit `'8'` or `'9'`; the token is then left as it is.  In every
other case nothing is written for it and `memory` is assigned.  (`stderr` is
the diagnostics of the tokens before, of the token, and of the tokens after.) -/
theorem immediate_diagnostic_iff_bad_octal (instruction_map : List InstructionEntry)
    (MAX_REGISTER : Nat) (pre : TokenList) (cur : TokenNode) (post : TokenList)
    (hpre : ∀ t ∈ pre, t.type ≠ TOKEN_INVALID) (hty : cur.type = TOKEN_IMMEDIATE)
    (hne : cur.value ≠ []) (hdig : ∀ c ∈ cur.value, isdigit c = true) :
    (SetMemoryTokenList instruction_map MAX_REGISTER (pre ++ cur :: post)).2
      = (secondPass instruction_map MAX_REGISTER pre).2
        ++ (resolveToken instruction_map MAX_REGISTER cur).2
        ++ (secondPass instruction_map MAX_REGISTER post).2 ∧
    ((∃ arg, (resolveToken instruction_map MAX_REGISTER cur).2
          = [Diagnostic.InvalidImmediate arg]) ↔
      (cur.value.head? = some 48 ∧ ∃ c ∈ cur.value, c = 56 ∨ c = 57)) ∧
    ((cur.value.head? = some 48 ∧ ∃ c ∈ cur.value, c = 56 ∨ c = 57) →
      (SetMemoryTokenList instruction_map MAX_REGISTER (pre ++ cur :: post)).1[pre.length]?
        = some cur) ∧
    (¬ (cur.value.head? = some 48 ∧ ∃ c ∈ cur.value, c = 56 ∨ c = 57) →
      (resolveToken instruction_map MAX_REGISTER cur).2 = [] ∧
      (SetMemoryTokenList instruction_map MAX_REGISTER (pre ++ cur :: post)).1[pre.length]?
        = some { cur with memory := min (denotedValue cur.value) ULONG_MAX % 2 ^ 32 }) := by
  have hninv : cur.type ≠ TOKEN_INVALID := by rw [hty]; decide
  have hat := SetMemoryTokenList_at instruction_map MAX_REGISTER pre cur post hpre hninv
    (by rw [hty]; decide)
  have hrt := resolveToken_immediate instruction_map MAX_REGISTER cur hty
  have hcs : cstr cur.value = cur.value := cstr_of_nonzero cur.value (isdigit_ne_zero _ hdig)
  have hbad : (cur.value.head? = some 48 ∧ ∃ c ∈ cur.value, c = 56 ∨ c = 57) →
      resolveImmediate cur
        = (cur, [Diagnostic.InvalidImmediate (strtoul (cstr cur.value)).2]) := by
    intro hb
    have h := strtoul_bad_octal cur.value hdig hb.1 hb.2
    unfold resolveImmediate
    simp only
    rw [hcs, if_neg h]
  have hgood : ¬ (cur.value.head? = some 48 ∧ ∃ c ∈ cur.value, c = 56 ∨ c = 57) →
      resolveImmediate cur
        = ({ cur with memory := min (denotedValue cur.value) ULONG_MAX % 2 ^ 32 }, []) := by
    intro hb
    apply resolveImmediate_digits cur hne hdig
    intro h0 c hc
    have h1 := (isdigit_iff c).1 (hdig c hc)
    by_contra hgt
    exact hb ⟨h0, c, hc, by omega⟩
  refine ⟨?_, ?_, ?_, ?_⟩
  · rw [SetMemoryTokenList_diag_append instruction_map MAX_REGISTER pre _ hpre]
    have h1 : (secondPass instruction_map MAX_REGISTER (cur :: post)).2
        = (resolveToken instruction_map MAX_REGISTER cur).2
          ++ (secondPass instruction_map MAX_REGISTER post).2 := by
      rw [secondPass, if_neg hninv]
    rw [h1, List.append_assoc]
  · constructor
    · intro ⟨arg, harg⟩
      by_contra hb
      rw [hrt, hgood hb] at harg
      simp at harg
    · intro hb
      exact ⟨_, by rw [hrt, hbad hb]⟩
  · intro hb
    rw [hat, hrt, hbad hb]
  · intro hb
    rw [hat, hrt, hgood hb]
    exact ⟨rfl, rfl⟩

theorem immediate_diagnostic_iff_bad_octal_witness :
    AssembleSource sampleMap 31 (bytes "089 0 017 90" ++ [0])
      = some ([⟨TOKEN_IMMEDIATE, bytes "089", 3, 0⟩, ⟨TOKEN_IMMEDIATE, bytes "0", 1, 0⟩,
          ⟨TOKEN_IMMEDIATE, bytes "017", 3, 15⟩, ⟨TOKEN_IMMEDIATE, bytes "90", 2, 90⟩,
          ⟨TOKEN_EOF, [0], 1, 0⟩], [Diagnostic.InvalidImmediate (bytes "89")]) ∧
    (SetMemoryTokenList sampleMap 31
        ([⟨TOKEN_COMMA, bytes ",", 1, 0⟩] ++ ⟨TOKEN_IMMEDIATE, bytes "089", 3, 0⟩ ::
          [⟨TOKEN_EOF, [0], 1, 0⟩])).1[1]?
      = some ⟨TOKEN_IMMEDIATE, bytes "089", 3, 0⟩ :=
  ⟨by decide,
    (immediate_diagnostic_iff_bad_octal sampleMap 31 [⟨TOKEN_COMMA, bytes ",", 1, 0⟩]
      ⟨TOKEN_IMMEDIATE, bytes "089", 3, 0⟩ [⟨TOKEN_EOF, [0], 1, 0⟩]
      (by decide) rfl (by decide) (by decide)).2.2.1 (by decide)⟩

/-! ## Registers spelled in decimal -/

theorem decimalSpellingAux_value :
    ∀ (fuel n : Nat) (acc : List Nat), n < fuel →
      List.foldl (fun a c => a * 10 + (c - 48)) 0 (decimalSpellingAux fuel n acc)
        = List.foldl (fun a c => a * 10 + (c - 48)) n acc := by
  intro fuel
  induction fuel with
  | zero => intro n acc h; omega
  | succ fuel ih =>
    intro n acc h
    rw [decimalSpellingAux]
    by_cases h10 : n < 10
    · rw [if_pos h10, List.foldl_cons]
      congr 1
      omega
    · rw [if_neg h10, ih (n / 10) _ (by omega), List.foldl_cons]
      congr 1
      omega

theorem decimalSpellingAux_digits :
    ∀ (fuel n : Nat) (acc : List Nat), (∀ c ∈ acc, isdigit c = true) →
      ∀ c ∈ decimalSpellingAux fuel n acc, isdigit c = true := by
  intro fuel
  induction fuel with
  | zero => intro n acc h; exact h
  | succ fuel ih =>
    intro n acc h
    rw [decimalSpellingAux]
    by_cases h10 : n < 10
    · rw [if_pos h10]
      intro c hc
      rcases List.mem_cons.1 hc with h1 | h1
      · rw [h1, isdigit_iff]; omega
      · exact h c h1
    · rw [if_neg h10]
      apply ih
      intro c hc
      rcases List.mem_cons.1 hc with h1 | h1
      · rw [h1, isdigit_iff]; omega
      · exact h c h1

theorem decimalSpellingAux_head :
    ∀ (fuel n : Nat) (acc : List Nat), n < fuel →
      (decimalSpellingAux fuel n acc).head? = some 48 → n = 0 := by
  intro fuel
  induction fuel with
  | zero => intro n acc h; omega
  | succ fuel ih =>
    intro n acc h hh
    rw [decimalSpellingAux] at hh
    by_cases h10 : n < 10
    · rw [if_pos h10] at hh
      simp only [List.head?_cons, Option.some.injEq] at hh
      omega
    · rw [if_neg h10] at hh
      have := ih (n / 10) _ (by omega) hh
      omega

theorem decimalSpellingAux_ne_nil :
    ∀ (fuel n : Nat) (acc : List Nat), n < fuel → decimalSpellingAux fuel n acc ≠ [] := by
  intro fuel
  induction fuel with
  | zero => intro n acc h; omega
  | succ fuel ih =>
    intro n acc h
    rw [decimalSpellingAux]
    by_cases h10 : n < 10
    · rw [if_pos h10]; simp
    · rw [if_neg h10]; exact ih _ _ (by omega)

/-- On the decimal spelling of `n`, `strtoul` consumes the whole string and
returns `n` (clamped to `ULONG_MAX`). -/
theorem strtoul_decimalSpelling (n : Nat) :
    strtoul (decimalSpelling n) = (min n ULONG_MAX, []) := by
  have hdig := decimalSpellingAux_digits (n + 1) n [] (by simp)
  have hne := decimalSpellingAux_ne_nil (n + 1) n [] (Nat.lt_succ_self n)
  have hhead := decimalSpellingAux_head (n + 1) n [] (Nat.lt_succ_self n)
  have hval := decimalSpellingAux_value (n + 1) n [] (Nat.lt_succ_self n)
  have hden : denotedValue (decimalSpelling n) = n := by
    unfold denotedValue
    by_cases h0 : (decimalSpelling n).head? = some 48
    · have hn : n = 0 := hhead h0
      subst hn
      decide
    · rw [if_neg h0]
      exact hval
  rw [strtoul_digits (decimalSpelling n) hne hdig ?_, hden]
  intro h0
  have hn : n = 0 := hhead h0
  subst hn
  decide

/-- C20: for every `n ≤ MAX_REGISTER` (a 32-bit constant), a `TOKEN_REGISTER` token
that pass two reaches and whose text is a register letter `c` (`'r'` or `'R'`;
the resolver skips it whatever it is) followed by the decimal spelling of `n`
without leading zeros is resolved with `memory = n`, and nothing is written to
`stderr` for it.  With a leading zero the tail is read as octal: `r010` gets
`memory` 8 when `8 ≤ MAX_REGISTER`. -/
theorem register_decimal_index (instruction_map : List InstructionEntry)
    (MAX_REGISTER : Nat) (pre : TokenList) (cur : TokenNode) (post : TokenList) (c n : Nat)
    (hpre : ∀ t ∈ pre, t.type ≠ TOKEN_INVALID) (hty : cur.type = TOKEN_REGISTER)
    (hval : cur.value = c :: decimalSpelling n)
    (hn : n ≤ MAX_REGISTER) (hM : MAX_REGISTER < 2 ^ 32) :
    (SetMemoryTokenList instruction_map MAX_REGISTER (pre ++ cur :: post)).1[pre.length]?
      = some { cur with memory := n } ∧
    (SetMemoryTokenList instruction_map MAX_REGISTER (pre ++ cur :: post)).2
      = (secondPass instruction_map MAX_REGISTER pre).2
        ++ (secondPass instruction_map MAX_REGISTER post).2 ∧
    (8 ≤ MAX_REGISTER →
      resolveToken instruction_map MAX_REGISTER ⟨TOKEN_REGISTER, bytes "r010", 4, 0⟩
        = (⟨TOKEN_REGISTER, bytes "r010", 4, 8⟩, [])) := by
  have hninv : cur.type ≠ TOKEN_INVALID := by rw [hty]; decide
  have hat := SetMemoryTokenList_at instruction_map MAX_REGISTER pre cur post hpre hninv
    (by rw [hty]; decide)
  have hrt := resolveToken_register instruction_map MAX_REGISTER cur hty
  have hdig := decimalSpellingAux_digits (n + 1) n [] (by simp)
  have hcs : cstr (cur.value.drop 1) = decimalSpelling n := by
    rw [hval]
    exact cstr_of_nonzero _ (isdigit_ne_zero _ hdig)
  have hmin : min n ULONG_MAX = n := by
    apply min_eq_left
    have : (2:Nat) ^ 32 ≤ ULONG_MAX := by decide
    omega
  have hres : resolveRegister MAX_REGISTER cur = ({ cur with memory := n }, []) := by
    unfold resolveRegister
    simp only
    rw [hcs, strtoul_decimalSpelling, hmin]
    simp only
    rw [Nat.mod_eq_of_lt (by omega), if_pos ⟨trivial, hn⟩]
  refine ⟨?_, ?_, ?_⟩
  · rw [hat, hrt, hres]
  · rw [SetMemoryTokenList_diag_append instruction_map MAX_REGISTER pre _ hpre, secondPass,
      if_neg hninv]
    simp only
    rw [hrt, hres]
    simp
  · intro h8
    rw [resolveToken_register instruction_map MAX_REGISTER _ rfl]
    have hs : strtoul (cstr ((bytes "r010").drop 1)) = (8, []) := by decide
    unfold resolveRegister
    simp only
    rw [hs]
    simp only
    rw [if_pos ⟨trivial, by omega⟩]
    rfl

theorem register_decimal_index_witness :
    decimalSpelling 0 = bytes "0" ∧ decimalSpelling 1 = bytes "1" ∧
    decimalSpelling 31 = bytes "31" ∧
    AssembleSource sampleMap 31 (bytes "r1 R0 r31 r010" ++ [0])
      = some ([⟨TOKEN_REGISTER, bytes "r1", 2, 1⟩, ⟨TOKEN_REGISTER, bytes "R0", 2, 0⟩,
          ⟨TOKEN_REGISTER, bytes "r31", 3, 31⟩, ⟨TOKEN_REGISTER, bytes "r010", 4, 8⟩,
          ⟨TOKEN_EOF, [0], 1, 0⟩], []) ∧
    (SetMemoryTokenList sampleMap 31
        ([⟨TOKEN_COMMA, bytes ",", 1, 0⟩] ++ ⟨TOKEN_REGISTER, 114 :: decimalSpelling 31, 3, 0⟩ ::
          [⟨TOKEN_EOF, [0], 1, 0⟩])).1[1]?
      = some ⟨TOKEN_REGISTER, 114 :: decimalSpelling 31, 3, 31⟩ :=
  ⟨by decide, by decide, by decide, by decide,
    (register_decimal_index sampleMap 31 [⟨TOKEN_COMMA, bytes ",", 1, 0⟩]
      ⟨TOKEN_REGISTER, 114 :: decimalSpelling 31, 3, 0⟩ [⟨TOKEN_EOF, [0], 1, 0⟩] 114 31
      (by decide) rfl rfl (by decide) (by decide)).1⟩

end Tokenizer
